import Mathlib

/-!
# goconstruct: constructor generator for Go structs

A shallow embedding of `main.go` (package `main` of domsu/goconstruct) and the
properties of its analysis pipeline: declaration extractor, filter stage,
constructor synthesizer and import resolver.

Conventions of the embedding.

* A Go `string` is a sequence of bytes (`GoString`); byte indexing and slicing
  are list operations on it.
* A run-time panic or a `log.Fatal` is an `Except.error`.
* The syntax tree of `go/ast` is embedded with the node kinds the program
  distinguishes; every other node kind is `Node.other` with its non-nil
  children in the order in which `ast.Walk` visits them.
* A declaration group nested in a function body is a `Node.other` as well: it holds
  no import spec, and the callback of `getPackageNamesUsedInStructFields` reaches
  it only while its scope flag is set, where it does not look at the node kind.
* A `*ast.TypeSpec` is a `TypeSpecPtr`: the node together with its address.
  The address of the first spec of a declaration group is the index of that
  group in `File.decls`, so that two pointers are equal exactly when they point
  to the same node of the file.
* The iteration order of a Go map is unspecified: `generateImports` takes the
  order in which `range` visits the entries of the import table as a parameter
  `rangeOrder`, which is a permutation of the entries.
* `printer.Fprint` and the Unicode upper-case table for non-ASCII runes are
  library data; they are parameters (`fprint`, `upperCase`).
-/

namespace Goconstruct

/-! ## Strings -/

/-- A Go string: a sequence of bytes. -/
abbrev GoString := List Nat

/-- The bytes of an ASCII string constant of the source. -/
def lit (s : String) : GoString := s.toList.map Char.toNat

/-- Ways in which the program stops without a result. -/
inductive Failure where
  | indexOutOfRange
  | sliceBounds
  | typeAssertion
  | fatal
  deriving DecidableEq, Repr

deriving instance DecidableEq for Except

/-- Indexing `s[0]` of a string. -/
def byteAt0 : GoString → Except Failure Nat
  | [] => .error .indexOutOfRange
  | b :: _ => .ok b

/-- Slice `s[0:1]`. -/
def slice01 : GoString → Except Failure GoString
  | [] => .error .sliceBounds
  | b :: _ => .ok [b]

/-- Slice `s[1:]`. -/
def sliceFrom1 : GoString → Except Failure GoString
  | [] => .error .sliceBounds
  | _ :: rest => .ok rest

/-- Slice `s[1:len(s)-1]`. -/
def sliceInner (s : GoString) : Except Failure GoString :=
  if s.length < 2 then .error .sliceBounds else .ok ((s.drop 1).take (s.length - 2))

/-- Function `strings.Join`. -/
def join (sep : GoString) : List GoString → GoString
  | [] => []
  | [a] => a
  | a :: b :: rest => a ++ sep ++ join sep (b :: rest)

/-- Function `strings.Split(s, sep)` for a one-byte separator. -/
def split (sep : Nat) : GoString → List GoString
  | [] => [[]]
  | c :: cs =>
    if c = sep then [] :: split sep cs
    else match split sep cs with
      | [] => [[c]]
      | h :: t => (c :: h) :: t

/-- The element `xs[len(xs)-1]` of a slice of strings. -/
def lastElem : List GoString → Except Failure GoString
  | [] => .error .indexOutOfRange
  | [a] => .ok a
  | _ :: b :: rest => lastElem (b :: rest)

/-! ### UTF-8 and `strings.ToUpper` -/

/-- The rune `utf8.RuneError`. -/
def runeError : Nat := 0xFFFD

/-- Continuation-byte test `locb <= b <= hicb`. -/
def isCont (b : Nat) : Bool := 0x80 ≤ b && b ≤ 0xBF

/-- Size and accepted range of the second byte for a leading byte (table `first`
with `acceptRanges` of package `unicode/utf8`); `none` for an invalid leading byte. -/
def leading (b : Nat) : Option (Nat × Nat × Nat) :=
  if 0xC2 ≤ b ∧ b ≤ 0xDF then some (2, 0x80, 0xBF)
  else if b = 0xE0 then some (3, 0xA0, 0xBF)
  else if b = 0xED then some (3, 0x80, 0x9F)
  else if 0xE1 ≤ b ∧ b ≤ 0xEF then some (3, 0x80, 0xBF)
  else if b = 0xF0 then some (4, 0x90, 0xBF)
  else if 0xF1 ≤ b ∧ b ≤ 0xF3 then some (4, 0x80, 0xBF)
  else if b = 0xF4 then some (4, 0x80, 0x8F)
  else none

/-- Function `utf8.DecodeRuneInString` on a non-empty string `s0 :: rest`: the rune
and the number of bytes after `s0` that belong to it. -/
def decodeRune (s0 : Nat) (rest : GoString) : Nat × Nat :=
  if s0 < 0x80 then (s0, 0)
  else match leading s0 with
    | none => (runeError, 0)
    | some (sz, lo, hi) =>
      match rest with
      | [] => (runeError, 0)
      | s1 :: rest1 =>
        if s1 < lo ∨ hi < s1 then (runeError, 0)
        else if sz ≤ 2 then ((s0 % 32) * 64 + s1 % 64, 1)
        else match rest1 with
          | [] => (runeError, 0)
          | s2 :: rest2 =>
            if !isCont s2 then (runeError, 0)
            else if sz ≤ 3 then ((s0 % 16) * 4096 + (s1 % 64) * 64 + s2 % 64, 2)
            else match rest2 with
              | [] => (runeError, 0)
              | s3 :: _ =>
                if !isCont s3 then (runeError, 0)
                else ((s0 % 8) * 262144 + (s1 % 64) * 4096 + (s2 % 64) * 64 + s3 % 64, 3)

/-- The runes of a string as `for _, c := range s` yields them; `skip` bytes are
the remaining bytes of the rune decoded last. -/
def runesAux : Nat → GoString → List Nat
  | _, [] => []
  | skip + 1, _ :: rest => runesAux skip rest
  | 0, s0 :: rest => (decodeRune s0 rest).1 :: runesAux (decodeRune s0 rest).2 rest

/-- Runes of a string. -/
def runes (s : GoString) : List Nat := runesAux 0 s

/-- Function `utf8.AppendRune` (what `Builder.WriteRune` appends). -/
def encodeRune (r : Nat) : GoString :=
  if r ≤ 0x7F then [r]
  else if r ≤ 0x7FF then [0xC0 + r / 64, 0x80 + r % 64]
  else if r > 0x10FFFF ∨ (0xD800 ≤ r ∧ r ≤ 0xDFFF) then [0xEF, 0xBF, 0xBD]
  else if r ≤ 0xFFFF then [0xE0 + r / 4096, 0x80 + (r / 64) % 64, 0x80 + r % 64]
  else [0xF0 + r / 262144, 0x80 + (r / 4096) % 64, 0x80 + (r / 64) % 64, 0x80 + r % 64]

/-- Upper case of an ASCII byte: `if 'a' <= c && c <= 'z' { c -= 'a' - 'A' }`. -/
def asciiUpper (c : Nat) : Nat :=
  if 0x61 ≤ c ∧ c ≤ 0x7A then c - 0x20 else c

/-- Function `unicode.ToUpper`; `upperCase` is the case table `unicode.To(UpperCase, ·)`
used for the runes above `MaxASCII`. -/
def unicodeToUpper (upperCase : Nat → Nat) (r : Nat) : Nat :=
  if r ≤ 0x7F then asciiUpper r else upperCase r

/-- Function `strings.Map` for a mapping that returns no negative rune. -/
def mapRunes (mapping : Nat → Nat) (s : GoString) : GoString :=
  (runes s).flatMap (fun c => encodeRune (mapping c))

/-- Function `strings.ToUpper`. -/
def toUpper (upperCase : Nat → Nat) (s : GoString) : GoString :=
  if s.all (fun c => c < 0x80) then
    s.map asciiUpper
  else mapRunes (unicodeToUpper upperCase) s

/-! ## Syntax trees (`go/ast`) -/

/-- Node `*ast.CommentGroup`: the texts of its comments. -/
abbrev CommentGroup := List GoString

mutual
/-- Expressions, types and every other node below a spec. -/
inductive Node where
  /-- Node `*ast.Ident`. -/
  | ident (name : GoString)
  /-- Node `*ast.SelectorExpr` with `X` and the name of `Sel`. -/
  | selectorExpr (x : Node) (sel : GoString)
  /-- Node `*ast.StructType` with `Fields.List`. -/
  | structType (fields : List Field)
  /-- Any other node, with its non-nil children in `ast.Walk` order. -/
  | other (children : List Node)
/-- Node `*ast.Field`; `tag` is the value of the tag literal. -/
inductive Field where
  | mk (doc : Option CommentGroup) (names : List GoString) (type : Node)
      (tag : Option GoString) (comment : Option CommentGroup)
end

/-- Names of a field (empty for an embedded field). -/
def Field.names : Field → List GoString
  | .mk _ names _ _ _ => names

/-- Type of a field. -/
def Field.type : Field → Node
  | .mk _ _ type _ _ => type

/-- Node `*ast.TypeSpec`. -/
structure TypeSpec where
  doc : Option CommentGroup
  name : GoString
  typeParams : Option Node
  type : Node
  comment : Option CommentGroup

/-- Node `*ast.ImportSpec`; `path` is `Path.Value`, the literal with its quotes. -/
structure ImportSpec where
  doc : Option CommentGroup
  name : Option GoString
  path : GoString
  comment : Option CommentGroup

/-- Node `*ast.ValueSpec`. -/
structure ValueSpec where
  doc : Option CommentGroup
  names : List GoString
  type : Option Node
  values : List Node
  comment : Option CommentGroup

/-- Interface `ast.Spec`. -/
inductive Spec where
  | importSpec (s : ImportSpec)
  | valueSpec (s : ValueSpec)
  | typeSpec (s : TypeSpec)

/-- Interface `ast.Decl`. A function declaration is given by its non-nil
children (doc, receiver, name, type, body) in `ast.Walk` order. -/
inductive Decl where
  | genDecl (doc : Option CommentGroup) (specs : List Spec)
  | funcDecl (children : List Node)
  | badDecl

/-- Node `*ast.File`. -/
structure File where
  doc : Option CommentGroup
  name : GoString
  decls : List Decl

/-- A pointer `*ast.TypeSpec`: address and node. -/
structure TypeSpecPtr where
  addr : Nat
  spec : TypeSpec

/-! ## Declaration extractor and filter stage -/

/-- Loop of `getStructTypeSpec` over `node.Decls` from index `i` on. -/
def getStructTypeSpecLoop : Nat → List TypeSpecPtr → List Decl → Except Failure (List TypeSpecPtr)
  | _, result, [] => .ok result
  | _, _, .genDecl _ [] :: _ => .error .indexOutOfRange
  | i, result, .genDecl _ (.typeSpec typeSpec :: _) :: rest =>
    match typeSpec.type with
    | .structType _ => getStructTypeSpecLoop (i + 1) (result ++ [⟨i, typeSpec⟩]) rest
    | _ => getStructTypeSpecLoop (i + 1) result rest
  | i, result, _ :: rest => getStructTypeSpecLoop (i + 1) result rest

/-- Function `getStructTypeSpec`. -/
def getStructTypeSpec (node : File) : Except Failure (List TypeSpecPtr) :=
  getStructTypeSpecLoop 0 [] node.decls

/-- Inner loop of `gerStrutSpecsToProcess`: does some filter entry equal the name? -/
def matchesFilter (name : GoString) : List GoString → Bool
  | [] => false
  | filter :: rest => if name = filter then true else matchesFilter name rest

/-- Outer loop of `gerStrutSpecsToProcess`. -/
def filterLoop (typeFilter : List GoString) : List TypeSpecPtr → List TypeSpecPtr → List TypeSpecPtr
  | acc, [] => acc
  | acc, structTypeSpec :: rest =>
    if matchesFilter structTypeSpec.spec.name typeFilter then
      filterLoop typeFilter (acc ++ [structTypeSpec]) rest
    else filterLoop typeFilter acc rest

/-- Function `gerStrutSpecsToProcess`. -/
def gerStrutSpecsToProcess (node : File) (typeFilter : List GoString) :
    Except Failure (List TypeSpecPtr) :=
  match getStructTypeSpec node with
  | .error e => .error e
  | .ok structTypeSpecs =>
    if typeFilter.length ≠ 0 then .ok (filterLoop typeFilter [] structTypeSpecs)
    else .ok structTypeSpecs

/-! ## Constructor synthesizer -/

/-- The test `structName[0] == strings.ToUpper(structName)[0]`. -/
def exported (upperCase : Nat → Nat) (structName : GoString) : Except Failure Bool := do
  let b ← byteAt0 structName
  let u ← byteAt0 (toUpper upperCase structName)
  pure (decide (b = u))

/-- The variable `functionPrefix`. -/
def functionPrefix (exported : Bool) : GoString :=
  if exported then lit "New" else lit "new"

/-- The variable `constructorStructName`:
`strings.ToUpper(structName)[0:1] + structName[1:]`. -/
def constructorStructName (upperCase : Nat → Nat) (structName : GoString) :
    Except Failure GoString := do
  let u ← slice01 (toUpper upperCase structName)
  let r ← sliceFrom1 structName
  pure (u ++ r)

/-- Loop over `field.Names`: appends one argument and one assignment per name. -/
def namesLoop (typeText : GoString) :
    List GoString × List GoString → List GoString → List GoString × List GoString
  | acc, [] => acc
  | (args, body), name :: rest =>
    namesLoop typeText
      (args ++ [name ++ lit " " ++ typeText], body ++ [lit "\ts." ++ name ++ lit " = " ++ name])
      rest

/-- Loop over `structType.Fields.List`; `fprint` is `printer.Fprint` on the field
type (`none` when it reports an error, which is fatal). -/
def fieldsLoop (fprint : Node → Option GoString) :
    List GoString × List GoString → List Field → Except Failure (List GoString × List GoString)
  | acc, [] => .ok acc
  | acc, field :: rest =>
    match fprint field.type with
    | none => .error .fatal
    | some typeText => fieldsLoop fprint (namesLoop typeText acc field.names) rest

/-- The variables `args` and `body` of `generateConstructors` when the loop over
the fields is done and the return line is appended. -/
def argsAndBody (fprint : Node → Option GoString) (structName : GoString) (fields : List Field) :
    Except Failure (List GoString × List GoString) := do
  let (args, body) ← fieldsLoop fprint ([], [lit "\ts := " ++ structName ++ lit "\x7b\x7d"]) fields
  pure (args, body ++ [lit "\treturn &s"])

/-- The name of the generated function: `functionPrefix` followed by
`constructorStructName`, the first two arguments of the final `Sprintf`. -/
def functionName (upperCase : Nat → Nat) (structName : GoString) : Except Failure GoString := do
  let e ← exported upperCase structName
  let c ← constructorStructName upperCase structName
  pure (functionPrefix e ++ c)

/-- The final `Sprintf` of `generateConstructors`. -/
def constructorText (functionPrefix constructorStructName : GoString) (args : List GoString)
    (structName : GoString) (body : List GoString) : GoString :=
  lit "func " ++ functionPrefix ++ constructorStructName ++ lit "(" ++ join (lit ",") args ++
    lit ") *" ++ structName ++ lit " \x7b\n" ++ join (lit "\n") body ++ lit "\n\x7d\n"

/-- One iteration of the outer loop of `generateConstructors`. -/
def generateConstructor (upperCase : Nat → Nat) (fprint : Node → Option GoString)
    (structTypeSpec : TypeSpecPtr) : Except Failure GoString := do
  let structName := structTypeSpec.spec.name
  let e ← exported upperCase structName
  match structTypeSpec.spec.type with
  | .structType fields =>
    let (args, body) ← argsAndBody fprint structName fields
    let c ← constructorStructName upperCase structName
    pure (constructorText (functionPrefix e) c args structName body)
  | _ => .error .typeAssertion

/-- Outer loop of `generateConstructors`. -/
def generateConstructorsLoop (upperCase : Nat → Nat) (fprint : Node → Option GoString) :
    List GoString → List TypeSpecPtr → Except Failure (List GoString)
  | constructors, [] => .ok constructors
  | constructors, structTypeSpec :: rest =>
    match generateConstructor upperCase fprint structTypeSpec with
    | .error e => .error e
    | .ok constructor => generateConstructorsLoop upperCase fprint (constructors ++ [constructor]) rest

/-- Function `generateConstructors`. -/
def generateConstructors (upperCase : Nat → Nat) (fprint : Node → Option GoString)
    (structTypeSpecs : List TypeSpecPtr) : Except Failure (List GoString) :=
  generateConstructorsLoop upperCase fprint [] structTypeSpecs

/-! ## Tree walk (`ast.Inspect`) -/

/-- What the callback of `ast.Inspect` can observe of the node it is given. -/
inductive Visit where
  /-- The callback is called with `nil` after the children of a node. -/
  | nil
  | file
  /-- A declaration group: the address of `Specs[0]` and the specs. -/
  | genDecl (addr : Nat) (specs : List Spec)
  | importSpec (s : ImportSpec)
  /-- A selector expression with its operand `X`. -/
  | selectorExpr (x : Node)
  | other

/-- A callback with state `σ`: new state and the boolean it returns. -/
abbrev Callback (σ : Type) := σ → Visit → Except Failure (σ × Bool)

/-- Function `ast.Walk` at one node for the visitor of `ast.Inspect`: call `f` on the
node; if it returns true walk the children, then call `f(nil)`. -/
def enter {σ : Type} (f : Callback σ) (st : σ) (v : Visit)
    (children : σ → Except Failure σ) : Except Failure σ :=
  match f st v with
  | .error e => .error e
  | .ok (st1, false) => .ok st1
  | .ok (st1, true) =>
    match children st1 with
    | .error e => .error e
    | .ok st2 =>
      match f st2 .nil with
      | .error e => .error e
      | .ok (st3, _) => .ok st3

/-- Walk of a list of leaves (identifiers, comments, literals). -/
def walkLeaves {σ : Type} (f : Callback σ) : σ → List GoString → Except Failure σ
  | st, [] => .ok st
  | st, _ :: rest =>
    match enter f st .other (fun s => .ok s) with
    | .error e => .error e
    | .ok st1 => walkLeaves f st1 rest

/-- Walk of an optional comment group: the group, then its comments. -/
def walkComments {σ : Type} (f : Callback σ) (st : σ) : Option CommentGroup → Except Failure σ
  | none => .ok st
  | some comments => enter f st .other (fun s => walkLeaves f s comments)

mutual
/-- Walk of a node below a spec. -/
def walkNode {σ : Type} (f : Callback σ) (st : σ) : Node → Except Failure σ
  | .ident _ => enter f st .other (fun s => .ok s)
  | .selectorExpr x _ =>
    enter f st (.selectorExpr x) (fun s =>
      match walkNode f s x with
      | .error e => .error e
      | .ok s1 => enter f s1 .other (fun s2 => .ok s2))
  | .structType fields =>
    enter f st .other (fun s => enter f s .other (fun s1 => walkFields f s1 fields))
  | .other children => enter f st .other (fun s => walkNodes f s children)
/-- Walk of a list of nodes. -/
def walkNodes {σ : Type} (f : Callback σ) (st : σ) : List Node → Except Failure σ
  | [] => .ok st
  | n :: rest =>
    match walkNode f st n with
    | .error e => .error e
    | .ok st1 => walkNodes f st1 rest
/-- Walk of a field: doc, names, type, tag, comment. -/
def walkField {σ : Type} (f : Callback σ) (st : σ) : Field → Except Failure σ
  | .mk doc names type tag comment =>
    enter f st .other (fun s =>
      match walkComments f s doc with
      | .error e => .error e
      | .ok s1 =>
        match walkLeaves f s1 names with
        | .error e => .error e
        | .ok s2 =>
          match walkNode f s2 type with
          | .error e => .error e
          | .ok s3 =>
            match walkLeaves f s3 tag.toList with
            | .error e => .error e
            | .ok s4 => walkComments f s4 comment)
/-- Walk of a field list. -/
def walkFields {σ : Type} (f : Callback σ) (st : σ) : List Field → Except Failure σ
  | [] => .ok st
  | fd :: rest =>
    match walkField f st fd with
    | .error e => .error e
    | .ok st1 => walkFields f st1 rest
end

/-- Walk of an optional child. -/
def walkOpt {σ : Type} (f : Callback σ) (st : σ) : Option Node → Except Failure σ
  | none => .ok st
  | some n => walkNode f st n

/-- Walk of a spec. -/
def walkSpec {σ : Type} (f : Callback σ) (st : σ) : Spec → Except Failure σ
  | .importSpec imp =>
    enter f st (.importSpec imp) (fun s =>
      match walkComments f s imp.doc with
      | .error e => .error e
      | .ok s1 =>
        match walkLeaves f s1 imp.name.toList with
        | .error e => .error e
        | .ok s2 =>
          match walkLeaves f s2 [imp.path] with
          | .error e => .error e
          | .ok s3 => walkComments f s3 imp.comment)
  | .valueSpec v =>
    enter f st .other (fun s =>
      match walkComments f s v.doc with
      | .error e => .error e
      | .ok s1 =>
        match walkLeaves f s1 v.names with
        | .error e => .error e
        | .ok s2 =>
          match walkOpt f s2 v.type with
          | .error e => .error e
          | .ok s3 =>
            match walkNodes f s3 v.values with
            | .error e => .error e
            | .ok s4 => walkComments f s4 v.comment)
  | .typeSpec t =>
    enter f st .other (fun s =>
      match walkComments f s t.doc with
      | .error e => .error e
      | .ok s1 =>
        match walkLeaves f s1 [t.name] with
        | .error e => .error e
        | .ok s2 =>
          match walkOpt f s2 t.typeParams with
          | .error e => .error e
          | .ok s3 =>
            match walkNode f s3 t.type with
            | .error e => .error e
            | .ok s4 => walkComments f s4 t.comment)

/-- Walk of a list of specs. -/
def walkSpecs {σ : Type} (f : Callback σ) : σ → List Spec → Except Failure σ
  | st, [] => .ok st
  | st, sp :: rest =>
    match walkSpec f st sp with
    | .error e => .error e
    | .ok st1 => walkSpecs f st1 rest

/-- Walk of the declaration at index `i` of the file. -/
def walkDecl {σ : Type} (f : Callback σ) (st : σ) (i : Nat) : Decl → Except Failure σ
  | .genDecl doc specs =>
    enter f st (.genDecl i specs) (fun s =>
      match walkComments f s doc with
      | .error e => .error e
      | .ok s1 => walkSpecs f s1 specs)
  | .funcDecl children => enter f st .other (fun s => walkNodes f s children)
  | .badDecl => enter f st .other (fun s => .ok s)

/-- Walk of the declarations of the file from index `i` on. -/
def walkDecls {σ : Type} (f : Callback σ) : σ → Nat → List Decl → Except Failure σ
  | st, _, [] => .ok st
  | st, i, d :: rest =>
    match walkDecl f st i d with
    | .error e => .error e
    | .ok st1 => walkDecls f st1 (i + 1) rest

/-- Function `ast.Inspect(node, f)` on a file: doc, name, declarations. -/
def inspect {σ : Type} (f : Callback σ) (st : σ) (node : File) : Except Failure σ :=
  enter f st .file (fun s =>
    match walkComments f s node.doc with
    | .error e => .error e
    | .ok s1 =>
      match walkLeaves f s1 [node.name] with
      | .error e => .error e
      | .ok s2 => walkDecls f s2 0 node.decls)

/-! ## Import resolver -/

/-- Assignment `m[k] = v` on a `map[string]string`, kept as a list of entries with
distinct keys. -/
def mapSet : List (GoString × GoString) → GoString → GoString → List (GoString × GoString)
  | [], k, v => [(k, v)]
  | (k1, v1) :: rest, k, v =>
    if k1 = k then (k, v) :: rest else (k1, v1) :: mapSet rest k v

/-- Assignment `m[k] = true` on a `map[string]bool`, kept as the list of its keys. -/
def setTrue (m : List GoString) (k : GoString) : List GoString :=
  if k ∈ m then m else m ++ [k]

/-- The callback of `getPackageNameToPathMap`. -/
def importCallback : Callback (List (GoString × GoString)) := fun result n =>
  match n with
  | .importSpec impSpec =>
    match impSpec.name with
    | some name => .ok (mapSet result name impSpec.path, false)
    | none =>
      match sliceInner impSpec.path with
      | .error e => .error e
      | .ok inner =>
        match lastElem (split 0x2F inner) with
        | .error e => .error e
        | .ok packageName => .ok (mapSet result packageName impSpec.path, false)
  | _ => .ok (result, true)

/-- Function `getPackageNameToPathMap`. -/
def getPackageNameToPathMap (node : File) : Except Failure (List (GoString × GoString)) :=
  inspect importCallback [] node

/-- The variables captured by the callback of `getPackageNamesUsedInStructFields`. -/
structure ScopeState where
  result : List GoString
  inspectingStruct : Bool
  depth : Int

/-- The loop `for _, v := range structTypeSpecs { if typeSpec == v ... }`. -/
def isSelected (addr : Nat) : List TypeSpecPtr → Bool
  | [] => false
  | v :: rest => if addr = v.addr then true else isSelected addr rest

/-- The callback of `getPackageNamesUsedInStructFields`. -/
def scopeCallback (structTypeSpecs : List TypeSpecPtr) : Callback ScopeState := fun st n =>
  let isNil : Bool := match n with
    | .nil => true
    | _ => false
  -- if n == nil && inspectingStruct { depth--; if depth == 0 { inspectingStruct = false } }
  let st1 : ScopeState :=
    if isNil && st.inspectingStruct then
      { st with depth := st.depth - 1,
                inspectingStruct := if st.depth - 1 = 0 then false else st.inspectingStruct }
    else st
  -- if inspectingStruct {...} else if GenDecl {...} else if File {...}
  let r : Except Failure (ScopeState × Bool) :=
    if st1.inspectingStruct then .ok (st1, true)
    else match n with
      | .genDecl _ [] => .error .indexOutOfRange
      | .genDecl addr (.typeSpec _ :: _) =>
        if isSelected addr structTypeSpecs then .ok ({ st1 with inspectingStruct := true }, true)
        else .ok (st1, false)
      | .file => .ok (st1, true)
      | _ => .ok (st1, false)
  match r with
  | .error e => .error e
  | .ok (st2, shouldInspect) =>
    -- if SelectorExpr with an identifier operand { result[ident.Name] = true }
    let st3 : ScopeState := match n with
      | .selectorExpr (.ident name) => { st2 with result := setTrue st2.result name }
      | _ => st2
    -- if n != nil && inspectingStruct { depth++ }
    let st4 : ScopeState :=
      if !isNil && st3.inspectingStruct then { st3 with depth := st3.depth + 1 } else st3
    .ok (st4, shouldInspect)

/-- Function `getPackageNamesUsedInStructFields`: the keys of the returned map. -/
def getPackageNamesUsedInStructFields (node : File) (structTypeSpecs : List TypeSpecPtr) :
    Except Failure (List GoString) :=
  match inspect (scopeCallback structTypeSpecs) ⟨[], false, 0⟩ node with
  | .error e => .error e
  | .ok st => .ok st.result

/-- Loop of `generateImports` over the entries of `allImports` in the order `range`
visits them. -/
def importsLoop (usedPackages : List GoString) :
    List GoString → List (GoString × GoString) → List GoString
  | result, [] => result
  | result, (packageValue, pathValue) :: rest =>
    if packageValue = lit "." then
      importsLoop usedPackages (result ++ [lit "\t. " ++ pathValue]) rest
    else if packageValue ∈ usedPackages then
      importsLoop usedPackages (result ++ [lit "\t" ++ pathValue]) rest
    else importsLoop usedPackages result rest

/-- Function `generateImports`; `rangeOrder` gives the order in which `range` visits
the entries of the import table. -/
def generateImports (rangeOrder : List (GoString × GoString) → List (GoString × GoString))
    (node : File) (structTypeSpecs : List TypeSpecPtr) : Except Failure (List GoString) :=
  match getPackageNameToPathMap node with
  | .error e => .error e
  | .ok allImports =>
    match getPackageNamesUsedInStructFields node structTypeSpecs with
    | .error e => .error e
    | .ok usedPackages => .ok (importsLoop usedPackages [] (rangeOrder allImports))

/-! ## File text -/

/-- The constant `header` formatted with the package name and the joined imports. -/
def header (packageName imports : GoString) : GoString :=
  lit "// Code generated by goconstruct. DO NOT EDIT\n\npackage " ++ packageName ++
    lit "\n\nimport (\n" ++ imports ++ lit "\n)\n\n"

/-- The writes `genFile.WriteString(constructor + "\n")` of `processFile`. -/
def writeConstructors : List GoString → GoString
  | [] => []
  | constructor :: rest => constructor ++ lit "\n" ++ writeConstructors rest

/-- The text `processFile` writes for a package name, import lines and constructors. -/
def fileText (packageName : GoString) (imports constructors : List GoString) : GoString :=
  header packageName (join (lit "\n") imports) ++ writeConstructors constructors

/-- Function `processFile` on a parsed file: the text written to the generated file,
`none` when nothing is selected and no file is written. -/
def processFile (upperCase : Nat → Nat) (fprint : Node → Option GoString)
    (rangeOrder : List (GoString × GoString) → List (GoString × GoString))
    (node : File) (typeFilter : List GoString) : Except Failure (Option GoString) :=
  match gerStrutSpecsToProcess node typeFilter with
  | .error e => .error e
  | .ok structTypeSpecsToProcess =>
    if structTypeSpecsToProcess.length = 0 then .ok none
    else
      match generateConstructors upperCase fprint structTypeSpecsToProcess with
      | .error e => .error e
      | .ok constructors =>
        match generateImports rangeOrder node structTypeSpecsToProcess with
        | .error e => .error e
        | .ok imports => .ok (some (fileText node.name imports constructors))

/-! ## Specification-side definitions -/

/-- The declaration is not a group without specs (such as `var ()`). -/
def hasSpecs : Decl → Bool
  | .genDecl _ [] => false
  | _ => true

/-- The spec the extractor is to return for the declaration at index `i`: the first
spec of a declaration group when it is a type spec with a struct type. -/
def firstStructSpec (i : Nat) : Decl → Option TypeSpecPtr
  | .genDecl _ (.typeSpec t :: _) =>
    match t.type with
    | .structType _ => some ⟨i, t⟩
    | _ => none
  | _ => none

/-- The extracted sequence according to the specification. -/
def extracted (i : Nat) (decls : List Decl) : List TypeSpecPtr :=
  (decls.enumFrom i).filterMap (fun p => firstStructSpec p.1 p.2)


/-- The argument list the specification asks for: one entry `name type` per
declared name, field by field and name by name, with the text of the type of its
own field. -/
def expectedArgs (fprint : Node → Option GoString) (fields : List Field) : List GoString :=
  fields.flatMap (fun fd => fd.names.map (fun n => n ++ lit " " ++ (fprint fd.type).getD []))

/-- The assignments the specification asks for: `s.name = name` per declared name
in declaration order. -/
def expectedAssignments (fields : List Field) : List GoString :=
  (fields.flatMap Field.names).map (fun n => lit "\ts." ++ n ++ lit " = " ++ n)

/-- The body the specification asks for: instance creation, assignments, return. -/
def expectedBody (structName : GoString) (fields : List Field) : List GoString :=
  [lit "\ts := " ++ structName ++ lit "\x7b\x7d"] ++ expectedAssignments fields ++ [lit "\treturn &s"]

/-- The import specs of a list of specs, in source order. -/
def importsOfSpecs : List Spec → List ImportSpec
  | [] => []
  | .importSpec s :: rest => s :: importsOfSpecs rest
  | _ :: rest => importsOfSpecs rest

/-- The import specs of the unit, in source order. -/
def importSpecs : List Decl → List ImportSpec
  | [] => []
  | .genDecl _ specs :: rest => importsOfSpecs specs ++ importSpecs rest
  | _ :: rest => importSpecs rest

/-- The local name under which `getPackageNameToPathMap` enters an import: its
alias when it has one, otherwise the last element of the unquoted path split
at the slashes. -/
def localName (imp : ImportSpec) : Except Failure GoString :=
  match imp.name with
  | some name => .ok name
  | none =>
    match sliceInner imp.path with
    | .error e => .error e
    | .ok inner => lastElem (split 0x2F inner)

/-- The import table after the imports of a list are entered in order. -/
def addImports : List (GoString × GoString) → List ImportSpec →
    Except Failure (List (GoString × GoString))
  | m, [] => .ok m
  | m, imp :: rest =>
    match localName imp with
    | .error e => .error e
    | .ok name => addImports (mapSet m name imp.path) rest

/-- An import spec as the parser produces it: an alias, or a path literal with
its two quotes. -/
def wellFormedImport (imp : ImportSpec) : Bool :=
  imp.name.isSome || decide (2 ≤ imp.path.length)

/-- The identifier that qualifies a selector expression with operand `x`, if any. -/
def qualifierOf : Node → List GoString
  | .ident name => [name]
  | _ => []

mutual
/-- The identifiers that occur as the qualifier of a selector expression inside
a node, in source order. -/
def qualifiers : Node → List GoString
  | .ident _ => []
  | .selectorExpr x _ => qualifierOf x ++ qualifiers x
  | .structType fields => qualifiersFields fields
  | .other children => qualifiersNodes children
/-- Qualifiers inside a list of nodes. -/
def qualifiersNodes : List Node → List GoString
  | [] => []
  | n :: rest => qualifiers n ++ qualifiersNodes rest
/-- Qualifiers inside the type of a field. -/
def qualifiersField : Field → List GoString
  | .mk _ _ type _ _ => qualifiers type
/-- Qualifiers inside the field types of a field list. -/
def qualifiersFields : List Field → List GoString
  | [] => []
  | fd :: rest => qualifiersField fd ++ qualifiersFields rest
end

/-- Qualifiers inside an optional node. -/
def qualifiersOpt : Option Node → List GoString
  | none => []
  | some n => qualifiers n

/-- Qualifiers inside a spec. -/
def qualifiersSpec : Spec → List GoString
  | .importSpec _ => []
  | .valueSpec v => qualifiersOpt v.type ++ qualifiersNodes v.values
  | .typeSpec t => qualifiersOpt t.typeParams ++ qualifiers t.type

/-- Qualifiers inside the specs of a declaration group. -/
def qualifiersSpecs : List Spec → List GoString
  | [] => []
  | sp :: rest => qualifiersSpec sp ++ qualifiersSpecs rest

/-- Qualifiers inside a declaration. -/
def qualifiersDecl : Decl → List GoString
  | .genDecl _ specs => qualifiersSpecs specs
  | .funcDecl children => qualifiersNodes children
  | .badDecl => []

/-- The declaration at index `i` is a group whose first spec is a type spec that
is, by identity, one of the selected specs. -/
def armed (structTypeSpecs : List TypeSpecPtr) (i : Nat) : Decl → Bool
  | .genDecl _ (.typeSpec _ :: _) => isSelected i structTypeSpecs
  | _ => false

/-- The qualifiers inside the armed declaration groups, from index `i` on. -/
def scopedQualifiers (structTypeSpecs : List TypeSpecPtr) : Nat → List Decl → List GoString
  | _, [] => []
  | i, d :: rest =>
    (if armed structTypeSpecs i d then qualifiersDecl d else []) ++
      scopedQualifiers structTypeSpecs (i + 1) rest

/-- Several assignments `m[k] = true`. -/
def setAll (m : List GoString) (ks : List GoString) : List GoString :=
  ks.foldl setTrue m

/-- What a callback in scope records for the node it is given. -/
def visitMark (r : List GoString) : Visit → List GoString
  | .selectorExpr (.ident name) => setTrue r name
  | _ => r

/-- The line `generateImports` appends for an entry of the import table, if any. -/
def renderEntry (usedPackages : List GoString) (e : GoString × GoString) : Option GoString :=
  if e.1 = lit "." then some (lit "\t. " ++ e.2)
  else if e.1 ∈ usedPackages then some (lit "\t" ++ e.2)
  else none

/-- The text after the last slash of a string; the whole string when it has no
slash. -/
def afterLastSlash : GoString → GoString
  | [] => []
  | c :: cs => if 0x2F ∈ cs then afterLastSlash cs else if c = 0x2F then cs else c :: cs

/-- A path literal without its first and its last byte, the quotes. -/
def unquote (path : GoString) : GoString := (path.drop 1).dropLast

/-- The local name of an import as the specification words it: the explicit alias
when present, otherwise the text after the last slash of the unquoted path. -/
def specLocalName (imp : ImportSpec) : GoString :=
  match imp.name with
  | some a => a
  | none => afterLastSlash (unquote imp.path)

/-! ### The walk of `getPackageNamesUsedInStructFields` with a record of its calls -/

/-- One call of the callback: the number of nodes entered and not yet left when it
is called, the captured variables before the call, the node it is given and the
boolean it returns. -/
structure Event where
  opened : Int
  before : ScopeState
  visit : Visit
  descend : Bool

/-- The number of open nodes after a call of the callback: `ast.Walk` enters a
node when the callback returns true for it and leaves it with the call on `nil`. -/
def nextOpened (opened : Int) : Visit → Bool → Int
  | .nil, _ => opened - 1
  | _, true => opened + 1
  | _, false => opened

/-- The callback of `getPackageNamesUsedInStructFields` together with the count of
open nodes and the record of its calls. It returns what `scopeCallback` returns,
so `ast.Inspect` walks the same nodes. -/
def tracedCallback (structTypeSpecs : List TypeSpecPtr) :
    Callback (ScopeState × Int × List Event) := fun s v =>
  match scopeCallback structTypeSpecs s.1 v with
  | .error e => .error e
  | .ok (st, b) => .ok ((st, nextOpened s.2.1 v b, s.2.2 ++ [⟨s.2.1, s.1, v, b⟩]), b)

/-- The number of open nodes at or below a declaration group, given the number of
all open nodes: every open node but the file node. -/
def openInGroup (opened : Int) : Int :=
  if opened ≤ 1 then 0 else opened - 1

/-- The nodes into which the walk is to descend from outside a scope: the file
node and a declaration group whose first spec is a selected type spec. -/
def armedVisit (structTypeSpecs : List TypeSpecPtr) : Visit → Bool
  | .file => true
  | .genDecl i (.typeSpec _ :: _) => isSelected i structTypeSpecs
  | _ => false

/-- The scope invariant at a call of the callback: the depth counter is the number
of open nodes at or below the armed group, the scope flag is set exactly when
that number is positive, and outside a scope the callback asks to descend
exactly into the file node and the armed groups. -/
def ScopeInvariant (structTypeSpecs : List TypeSpecPtr) (e : Event) : Prop :=
  e.before.depth = openInGroup e.opened ∧
  (e.before.inspectingStruct = true ↔ 0 < e.before.depth) ∧
  (e.before.inspectingStruct = false → e.descend = armedVisit structTypeSpecs e.visit)

/-- A traced walk returns the state `st` with `opened` open nodes, and every call
it adds to the record `log` satisfies the scope invariant. -/
def RunsTo (structTypeSpecs : List TypeSpecPtr)
    (res : Except Failure (ScopeState × Int × List Event))
    (st : ScopeState) (opened : Int) (log : List Event) : Prop :=
  ∃ more, res = .ok (st, opened, log ++ more) ∧ ∀ e ∈ more, ScopeInvariant structTypeSpecs e

/-- The record of a traced walk of a unit, each call reduced to the number of open
nodes, the depth counter and the scope flag before the call, and the boolean
returned; `none` when the walk fails. -/
def traceSummary (structTypeSpecs : List TypeSpecPtr) (node : File) :
    Option (List (Int × Int × Bool × Bool)) :=
  match inspect (tracedCallback structTypeSpecs) (⟨[], false, 0⟩, 0, []) node with
  | .error _ => none
  | .ok s => some (s.2.2.map (fun e => (e.opened, e.before.depth, e.before.inspectingStruct, e.descend)))

/-! ## Example units -/

/-- A printer for identifiers and qualified identifiers, which `printer.Fprint`
renders as they are written. -/
def printSimple : Node → Option GoString
  | .ident name => some name
  | .selectorExpr x sel =>
    match printSimple x with
    | some t => some (t ++ lit "." ++ sel)
    | none => none
  | _ => none

/-- The declaration `import name "path"`. -/
def importDecl (name : Option GoString) (path : GoString) : Decl :=
  .genDecl none [.importSpec ⟨none, name, path, none⟩]

/-- The field `name pkg.T`. -/
def qualifiedField (name pkg : GoString) : Field :=
  .mk none [name] (.selectorExpr (.ident pkg) (lit "T")) none none

/-- The type spec `Foo struct { X pkg.T; Y int }`. -/
def specFoo : TypeSpec :=
  ⟨none, lit "Foo", none,
    .structType [qualifiedField (lit "X") (lit "pkg"), .mk none [lit "Y"] (.ident (lit "int")) none none],
    none⟩

/-- The type spec `Bar struct { Z int }`. -/
def specBar : TypeSpec :=
  ⟨none, lit "Bar", none, .structType [.mk none [lit "Z"] (.ident (lit "int")) none none], none⟩

/-- The unit `package p; import "pkg"; type Foo struct { X pkg.T; Y int };
type Bar struct { Z int }`. -/
def unitFooBar : File :=
  ⟨none, lit "p",
    [importDecl none (lit "\"pkg\""), .genDecl none [.typeSpec specFoo],
      .genDecl none [.typeSpec specBar]]⟩

/-- The type spec `foo struct { X pkg.T }` with a lower-case name. -/
def specLowerFoo : TypeSpec :=
  ⟨none, lit "foo", none, .structType [qualifiedField (lit "X") (lit "pkg")], none⟩

/-- The type spec `Foo struct { io.Reader; X int }` with an embedded field. -/
def specEmbedded : TypeSpec :=
  ⟨none, lit "Foo", none,
    .structType [.mk none [] (.selectorExpr (.ident (lit "io")) (lit "Reader")) none none,
      .mk none [lit "X"] (.ident (lit "int")) none none],
    none⟩

/-- The unit `package p; type Bar struct { Z int }` without imports. -/
def unitBar : File :=
  ⟨none, lit "p", [.genDecl none [.typeSpec specBar]]⟩

/-- The type spec `Foo struct { Y int }`. -/
def specFooInt : TypeSpec :=
  ⟨none, lit "Foo", none, .structType [.mk none [lit "Y"] (.ident (lit "int")) none none], none⟩

/-- The type spec `Bar struct { X pkg.T }`. -/
def specBarPkg : TypeSpec :=
  ⟨none, lit "Bar", none, .structType [qualifiedField (lit "X") (lit "pkg")], none⟩

/-- The unit `package p; import "pkg"; type ( Foo struct { Y int }; Bar struct { X pkg.T } )`:
one parenthesised type group with two structs. -/
def unitGroup : File :=
  ⟨none, lit "p",
    [importDecl none (lit "\"pkg\""), .genDecl none [.typeSpec specFooInt, .typeSpec specBarPkg]]⟩

/-- The type spec `Foo struct { X q.T }`. -/
def specFooQ : TypeSpec :=
  ⟨none, lit "Foo", none, .structType [qualifiedField (lit "X") (lit "q")], none⟩

/-- The unit `package p; import "pkg"; import "a/q"; type Foo struct { X q.T };
type Bar struct { X pkg.T }; func f() { pkg.F() }`. -/
def unitMinimal : File :=
  ⟨none, lit "p",
    [importDecl none (lit "\"pkg\""), importDecl none (lit "\"a/q\""),
      .genDecl none [.typeSpec specFooQ], .genDecl none [.typeSpec specBarPkg],
      .funcDecl [.ident (lit "f"), .other [],
        .other [.other [.other [.selectorExpr (.ident (lit "pkg")) (lit "F")]]]]]⟩

/-- The unit `package p; import . "a"; import . "b"; type Bar struct { Z int }`. -/
def unitTwoDots : File :=
  ⟨none, lit "p",
    [importDecl (some (lit ".")) (lit "\"a\""), importDecl (some (lit ".")) (lit "\"b\""),
      .genDecl none [.typeSpec specBar]]⟩

/-- The type spec `Foo struct { X a.T; Y b.T }`. -/
def specFooAB : TypeSpec :=
  ⟨none, lit "Foo", none,
    .structType [qualifiedField (lit "X") (lit "a"), qualifiedField (lit "Y") (lit "b")], none⟩

/-- The unit `package p; import "a"; import "b"; type Foo struct { X a.T; Y b.T }`. -/
def unitTwoImports : File :=
  ⟨none, lit "p",
    [importDecl none (lit "\"a\""), importDecl none (lit "\"b\""),
      .genDecl none [.typeSpec specFooAB]]⟩

/-- The unit `package p; var (); type Foo struct { X pkg.T; Y int }` with a
declaration group without specs. -/
def unitEmptyGroup : File :=
  ⟨none, lit "p", [.genDecl none [], .genDecl none [.typeSpec specFoo]]⟩

/-- The type spec `_foo struct { X pkg.T }` whose name starts with an underscore. -/
def specUnderscore : TypeSpec :=
  ⟨none, lit "_foo", none, .structType [qualifiedField (lit "X") (lit "pkg")], none⟩

/-- The unit `package p; import "a/q"; import x "y"; import "b/q"; import x "z/"`
with `type Foo struct { X q.T }`: two pairs of imports with the same local name. -/
def unitOverwrite : File :=
  ⟨none, lit "p",
    [importDecl none (lit "\"a/q\""), importDecl (some (lit "x")) (lit "\"y\""),
      importDecl none (lit "\"b/q\""), importDecl (some (lit "x")) (lit "\"z/\""),
      .genDecl none [.typeSpec specFooQ]]⟩

/-- The type spec `Foo struct { s int }` with a field named `s`. -/
def specFieldS : TypeSpec :=
  ⟨none, lit "Foo", none, .structType [.mk none [lit "s"] (.ident (lit "int")) none none], none⟩

/-- The type spec `Foo struct { X foo.T }`. -/
def specFooAlias : TypeSpec :=
  ⟨none, lit "Foo", none, .structType [qualifiedField (lit "X") (lit "foo")], none⟩

/-- The unit `package p; import foo "example.com/bar"; type Foo struct { X foo.T }`
with an aliased import. -/
def unitAlias : File :=
  ⟨none, lit "p",
    [importDecl (some (lit "foo")) (lit "\"example.com/bar\""),
      .genDecl none [.typeSpec specFooAlias]]⟩

/-- The unit `package p; import "pkg"; type Bar struct { X pkg.T }; func f()`. -/
def unitScope : File :=
  ⟨none, lit "p",
    [importDecl none (lit "\"pkg\""), .genDecl none [.typeSpec specBarPkg],
      .funcDecl [.ident (lit "f"), .other []]]⟩

/-- The unit `package p; import "pkg"; type Foo struct { Y int }; type Bar struct { X pkg.T }`:
the structs of `unitGroup`, each declared on its own. -/
def unitSeparate : File :=
  ⟨none, lit "p",
    [importDecl none (lit "\"pkg\""), .genDecl none [.typeSpec specFooInt],
      .genDecl none [.typeSpec specBarPkg]]⟩
/-! ## Extractor and filter: lemmas -/

theorem getStructTypeSpecLoop_eq (decls : List Decl) :
    ∀ (i : Nat) (acc : List TypeSpecPtr), decls.all hasSpecs = true →
      getStructTypeSpecLoop i acc decls = .ok (acc ++ extracted i decls) := by
  induction decls with
  | nil => intro i acc _; simp [getStructTypeSpecLoop, extracted]
  | cons d rest ih =>
    intro i acc h
    simp only [List.all_cons, Bool.and_eq_true] at h
    obtain ⟨hd, hrest⟩ := h
    cases d with
    | genDecl doc specs =>
      cases specs with
      | nil => simp [hasSpecs] at hd
      | cons sp specs =>
        cases sp with
        | typeSpec t =>
          cases ht : t.type <;>
            simp [getStructTypeSpecLoop, ht, ih _ _ hrest, extracted, List.enumFrom_cons,
              firstStructSpec]
        | importSpec s =>
          simp [getStructTypeSpecLoop, ih _ _ hrest, extracted, List.enumFrom_cons,
            firstStructSpec]
        | valueSpec s =>
          simp [getStructTypeSpecLoop, ih _ _ hrest, extracted, List.enumFrom_cons,
            firstStructSpec]
    | funcDecl cs =>
      simp [getStructTypeSpecLoop, ih _ _ hrest, extracted, List.enumFrom_cons, firstStructSpec]
    | badDecl =>
      simp [getStructTypeSpecLoop, ih _ _ hrest, extracted, List.enumFrom_cons, firstStructSpec]

theorem getStructTypeSpec_eq (node : File) (h : node.decls.all hasSpecs = true) :
    getStructTypeSpec node = .ok (extracted 0 node.decls) := by
  simp [getStructTypeSpec, getStructTypeSpecLoop_eq _ 0 [] h]

theorem getStructTypeSpecLoop_ok (decls : List Decl) :
    ∀ (i : Nat) (acc res : List TypeSpecPtr), getStructTypeSpecLoop i acc decls = .ok res →
      decls.all hasSpecs = true := by
  induction decls with
  | nil => intro i acc res _; rfl
  | cons d rest ih =>
    intro i acc res h
    cases d with
    | genDecl doc specs =>
      cases specs with
      | nil => simp [getStructTypeSpecLoop] at h
      | cons sp specs =>
        cases sp with
        | typeSpec t =>
          cases ht : t.type <;> simp [getStructTypeSpecLoop, ht] at h <;>
            simp [hasSpecs, ih _ _ _ h]
        | importSpec s =>
          simp [getStructTypeSpecLoop] at h; simp [hasSpecs, ih _ _ _ h]
        | valueSpec s =>
          simp [getStructTypeSpecLoop] at h; simp [hasSpecs, ih _ _ _ h]
    | funcDecl cs => simp [getStructTypeSpecLoop] at h; simp [hasSpecs, ih _ _ _ h]
    | badDecl => simp [getStructTypeSpecLoop] at h; simp [hasSpecs, ih _ _ _ h]

theorem getStructTypeSpec_ok (node : File) (res : List TypeSpecPtr)
    (h : getStructTypeSpec node = .ok res) :
    node.decls.all hasSpecs = true ∧ res = extracted 0 node.decls := by
  have h1 := getStructTypeSpecLoop_ok _ _ _ _ h
  refine ⟨h1, ?_⟩
  rw [getStructTypeSpec_eq node h1] at h
  cases h; rfl

theorem extracted_cons (i : Nat) (d : Decl) (rest : List Decl) :
    extracted i (d :: rest) = (firstStructSpec i d).toList ++ extracted (i + 1) rest := by
  cases h : firstStructSpec i d <;> simp [extracted, List.enumFrom_cons, h]

theorem firstStructSpec_some (i : Nat) (d : Decl) (p : TypeSpecPtr) :
    firstStructSpec i d = some p ↔
      p.addr = i ∧ ∃ doc rest fields, d = .genDecl doc (.typeSpec p.spec :: rest) ∧
        p.spec.type = .structType fields := by
  constructor
  · intro h
    cases d with
    | genDecl doc specs =>
      cases specs with
      | nil => simp [firstStructSpec] at h
      | cons sp specs =>
        cases sp with
        | typeSpec t =>
          cases ht : t.type <;> simp [firstStructSpec, ht] at h
          subst h
          exact ⟨rfl, doc, specs, _, rfl, ht⟩
        | importSpec s => simp [firstStructSpec] at h
        | valueSpec s => simp [firstStructSpec] at h
    | funcDecl cs => simp [firstStructSpec] at h
    | badDecl => simp [firstStructSpec] at h
  · rintro ⟨ha, doc, rest, fields, hd, ht⟩
    subst hd
    cases p with
    | mk addr spec =>
      simp only at ha ht
      subst ha
      simp [firstStructSpec, ht]

theorem mem_extracted (decls : List Decl) :
    ∀ (i : Nat) (p : TypeSpecPtr), p ∈ extracted i decls ↔
      ∃ j d, decls[j]? = some d ∧ firstStructSpec (i + j) d = some p := by
  induction decls with
  | nil => intro i p; simp [extracted]
  | cons d rest ih =>
    intro i p
    rw [extracted_cons, List.mem_append, ih]
    constructor
    · rintro (h | ⟨j, d1, hj, hf⟩)
      · refine ⟨0, d, by simp, ?_⟩
        cases hf : firstStructSpec i d <;> simp [hf] at h
        subst h
        simpa using hf
      · refine ⟨j + 1, d1, by simpa using hj, ?_⟩
        rw [← hf]; congr 1; omega
    · rintro ⟨j, d1, hj, hf⟩
      cases j with
      | zero =>
        simp at hj; subst hj
        left; simp at hf; simp [hf]
      | succ j =>
        right
        refine ⟨j, d1, by simpa using hj, ?_⟩
        rw [← hf]; congr 1; omega

theorem addr_ge_of_mem_extracted (decls : List Decl) (i : Nat) (p : TypeSpecPtr)
    (h : p ∈ extracted i decls) : i ≤ p.addr := by
  obtain ⟨j, d, _, hf⟩ := (mem_extracted decls i p).1 h
  have := ((firstStructSpec_some _ _ _).1 hf).1
  omega

theorem extracted_addr_sorted (decls : List Decl) :
    ∀ i : Nat, ((extracted i decls).map (fun p => p.addr)).Pairwise (fun a b => a < b) := by
  induction decls with
  | nil => intro i; simp [extracted]
  | cons d rest ih =>
    intro i
    rw [extracted_cons]
    cases hf : firstStructSpec i d with
    | none => simpa using ih (i + 1)
    | some p =>
      have ha := ((firstStructSpec_some _ _ _).1 hf).1
      simp only [Option.toList, List.singleton_append, List.map_cons, List.pairwise_cons]
      refine ⟨?_, ih (i + 1)⟩
      intro a hmem
      rw [List.mem_map] at hmem
      obtain ⟨q, hq, rfl⟩ := hmem
      have := addr_ge_of_mem_extracted _ _ _ hq
      omega

theorem matchesFilter_eq (name : GoString) (typeFilter : List GoString) :
    matchesFilter name typeFilter = decide (name ∈ typeFilter) := by
  induction typeFilter with
  | nil => simp [matchesFilter]
  | cons f rest ih =>
    by_cases h : name = f <;> simp [matchesFilter, h, ih]

theorem filterLoop_eq (typeFilter : List GoString) (xs : List TypeSpecPtr) :
    ∀ acc : List TypeSpecPtr, filterLoop typeFilter acc xs =
      acc ++ xs.filter (fun s => decide (s.spec.name ∈ typeFilter)) := by
  induction xs with
  | nil => intro acc; simp [filterLoop]
  | cons x rest ih =>
    intro acc
    by_cases h : x.spec.name ∈ typeFilter <;>
      simp [filterLoop, matchesFilter_eq, h, ih]

theorem gerStrutSpecsToProcess_eq (node : File) (typeFilter : List GoString)
    (xs : List TypeSpecPtr) (h : getStructTypeSpec node = .ok xs) :
    gerStrutSpecsToProcess node typeFilter =
      .ok (if typeFilter = [] then xs
        else xs.filter (fun s => decide (s.spec.name ∈ typeFilter))) := by
  cases typeFilter with
  | nil => simp [gerStrutSpecsToProcess, h]
  | cons f rest => simp [gerStrutSpecsToProcess, h, filterLoop_eq]

/-! ## Declaration extractor (C6) and filter stage (C5) -/

/-- C6: for a parsed file in which every declaration group has a spec,
`getStructTypeSpec` returns a result; a pointer is in the result exactly when it
is the first spec of a top-level declaration group of the file and that spec is a
type spec with a struct type; and the result is in source declaration order
(strictly increasing addresses, so each qualifying group occurs once). Function
declarations, groups whose first spec is an import or value spec, type specs
with another type and specs in a later position of a group are therefore never
returned. -/
theorem C6_getStructTypeSpec_extracts (node : File) (h : node.decls.all hasSpecs = true) :
    ∃ result, getStructTypeSpec node = .ok result ∧
      (∀ p : TypeSpecPtr, p ∈ result ↔
        ∃ doc rest fields, node.decls[p.addr]? = some (.genDecl doc (.typeSpec p.spec :: rest)) ∧
          p.spec.type = .structType fields) ∧
      (result.map (fun p => p.addr)).Pairwise (fun a b => a < b) := by
  refine ⟨extracted 0 node.decls, getStructTypeSpec_eq node h, ?_, extracted_addr_sorted _ 0⟩
  intro p
  rw [mem_extracted]
  constructor
  · rintro ⟨j, d, hj, hf⟩
    obtain ⟨ha, doc, rest, fields, hd, ht⟩ := (firstStructSpec_some _ _ _).1 hf
    refine ⟨doc, rest, fields, ?_, ht⟩
    rw [ha, Nat.zero_add, hj, hd]
  · rintro ⟨doc, rest, fields, hd, ht⟩
    refine ⟨p.addr, _, hd, (firstStructSpec_some _ _ _).2 ⟨by omega, doc, rest, fields, rfl, ht⟩⟩

/-- Witness of C6 on the unit with an import, `Foo` and `Bar`. -/
theorem C6_getStructTypeSpec_extracts_witness :
    unitFooBar.decls.all hasSpecs = true ∧
    ∃ result, getStructTypeSpec unitFooBar = .ok result ∧
      (∀ p : TypeSpecPtr, p ∈ result ↔
        ∃ doc rest fields,
          unitFooBar.decls[p.addr]? = some (.genDecl doc (.typeSpec p.spec :: rest)) ∧
          p.spec.type = .structType fields) ∧
      (result.map (fun p => p.addr)).Pairwise (fun a b => a < b) :=
  ⟨rfl, C6_getStructTypeSpec_extracts unitFooBar rfl⟩

/-- C5: with the extracted sequence `xs` of a unit, `gerStrutSpecsToProcess` returns
all of `xs` for the empty filter and, for a non-empty filter `F`, exactly the
structs of `xs` whose name equals an entry of `F`, in the order of `xs` (a
sublist of `xs`). A filter entry that names no struct changes nothing, and a
non-empty filter that matches no struct gives the empty result. -/
theorem C5_gerStrutSpecsToProcess_filters (node : File) (xs : List TypeSpecPtr)
    (h : getStructTypeSpec node = .ok xs) :
    gerStrutSpecsToProcess node [] = .ok xs ∧
    (∀ F : List GoString, F ≠ [] →
      gerStrutSpecsToProcess node F = .ok (xs.filter (fun s => decide (s.spec.name ∈ F))) ∧
      (xs.filter (fun s => decide (s.spec.name ∈ F))).Sublist xs) ∧
    (∀ (F1 F2 : List GoString) (e : GoString), F1 ++ F2 ≠ [] →
      (∀ s ∈ xs, s.spec.name ≠ e) →
      gerStrutSpecsToProcess node (F1 ++ e :: F2) = gerStrutSpecsToProcess node (F1 ++ F2)) ∧
    (∀ F : List GoString, F ≠ [] → (∀ s ∈ xs, s.spec.name ∉ F) →
      gerStrutSpecsToProcess node F = .ok []) := by
  refine ⟨by simp [gerStrutSpecsToProcess_eq node _ xs h], ?_, ?_, ?_⟩
  · intro F hF
    exact ⟨by simp [gerStrutSpecsToProcess_eq node _ xs h, hF], List.filter_sublist _⟩
  · intro F1 F2 e hne hun
    rw [gerStrutSpecsToProcess_eq node _ xs h, gerStrutSpecsToProcess_eq node _ xs h]
    have h1 : F1 ++ e :: F2 ≠ [] := by simp
    rw [if_neg h1, if_neg hne]
    congr 1
    apply List.filter_congr
    intro s hs
    have := hun s hs
    simp only [List.mem_append, List.mem_cons, decide_eq_decide]
    constructor
    · rintro (h | h | h)
      · exact Or.inl h
      · exact absurd h this
      · exact Or.inr h
    · rintro (h | h)
      · exact Or.inl h
      · exact Or.inr (Or.inr h)
  · intro F hF hnone
    rw [gerStrutSpecsToProcess_eq node _ xs h, if_neg hF]
    congr 1
    rw [List.filter_eq_nil_iff]
    intro s hs
    simpa using hnone s hs

/-- Witness of C5: the filter `Foo` on the unit declaring `Foo` and `Bar` yields
only `Foo`. -/
theorem C5_gerStrutSpecsToProcess_filters_witness :
    getStructTypeSpec unitFooBar = .ok [⟨1, specFoo⟩, ⟨2, specBar⟩] ∧
    gerStrutSpecsToProcess unitFooBar [lit "Foo"] = .ok [⟨1, specFoo⟩] :=
  ⟨rfl, (((C5_gerStrutSpecsToProcess_filters unitFooBar [⟨1, specFoo⟩, ⟨2, specBar⟩] rfl).2.1
    [lit "Foo"] (by simp)).1).trans rfl⟩

/-! ## Constructor synthesizer: lemmas -/

theorem asciiUpper_lt (c : Nat) (h : c < 0x80) : asciiUpper c < 0x80 := by
  unfold asciiUpper; split <;> omega

theorem encodeRune_ne_nil (r : Nat) : encodeRune r ≠ [] := by
  unfold encodeRune; split_ifs <;> simp

theorem runes_cons_ascii (c : Nat) (rest : GoString) (h : c < 0x80) :
    runes (c :: rest) = c :: runes rest := by
  simp [runes, runesAux, decodeRune, h]

theorem runes_cons (c : Nat) (rest : GoString) : ∃ r rs, runes (c :: rest) = r :: rs := by
  exact ⟨(decodeRune c rest).1, runesAux (decodeRune c rest).2 rest, rfl⟩

theorem toUpper_cons (upperCase : Nat → Nat) (c : Nat) (rest : GoString) :
    ∃ u us, toUpper upperCase (c :: rest) = u :: us := by
  unfold toUpper
  split
  · exact ⟨asciiUpper c, rest.map asciiUpper, rfl⟩
  · obtain ⟨r, rs, hr⟩ := runes_cons c rest
    simp only [mapRunes, hr, List.flatMap_cons]
    cases he : encodeRune (unicodeToUpper upperCase r) with
    | nil => exact absurd he (encodeRune_ne_nil _)
    | cons u us => exact ⟨u, us ++ rs.flatMap (fun c => encodeRune (unicodeToUpper upperCase c)), rfl⟩

theorem toUpper_cons_ascii (upperCase : Nat → Nat) (c : Nat) (rest : GoString) (h : c < 0x80) :
    ∃ us, toUpper upperCase (c :: rest) = asciiUpper c :: us := by
  unfold toUpper
  split
  · exact ⟨rest.map asciiUpper, rfl⟩
  · refine ⟨(runes rest).flatMap (fun c => encodeRune (unicodeToUpper upperCase c)), ?_⟩
    have h1 : c ≤ 0x7F := by omega
    have h2 : asciiUpper c ≤ 0x7F := by have := asciiUpper_lt c h; omega
    simp only [mapRunes, runes_cons_ascii c rest h, List.flatMap_cons, unicodeToUpper, if_pos h1,
      encodeRune, if_pos h2, List.singleton_append]

theorem namesLoop_eq (typeText : GoString) (names : List GoString) :
    ∀ args body : List GoString, namesLoop typeText (args, body) names =
      (args ++ names.map (fun n => n ++ lit " " ++ typeText),
        body ++ names.map (fun n => lit "\ts." ++ n ++ lit " = " ++ n)) := by
  induction names with
  | nil => intro args body; simp [namesLoop]
  | cons n rest ih => intro args body; simp [namesLoop, ih]

theorem fieldsLoop_eq (fprint : Node → Option GoString) (fields : List Field) :
    ∀ args body : List GoString, (∀ fd ∈ fields, (fprint fd.type).isSome = true) →
      fieldsLoop fprint (args, body) fields =
        .ok (args ++ expectedArgs fprint fields, body ++ expectedAssignments fields) := by
  induction fields with
  | nil => intro args body _; simp [fieldsLoop, expectedArgs, expectedAssignments]
  | cons fd rest ih =>
    intro args body h
    have hfd := h fd (List.mem_cons_self _ _)
    have hrest : ∀ x ∈ rest, (fprint x.type).isSome = true :=
      fun x hx => h x (List.mem_cons_of_mem _ hx)
    cases hp : fprint fd.type with
    | none => simp [hp] at hfd
    | some t =>
      simp only [fieldsLoop, hp, namesLoop_eq, ih _ _ hrest]
      simp [expectedArgs, expectedAssignments, hp, List.flatMap_cons]

theorem argsAndBody_eq (fprint : Node → Option GoString) (structName : GoString)
    (fields : List Field) (h : ∀ fd ∈ fields, (fprint fd.type).isSome = true) :
    argsAndBody fprint structName fields =
      .ok (expectedArgs fprint fields, expectedBody structName fields) := by
  simp [argsAndBody, fieldsLoop_eq fprint fields _ _ h, expectedBody, bind, Except.bind, pure,
    Except.pure]

theorem functionName_cons (upperCase : Nat → Nat) (c : Nat) (rest : GoString) :
    ∃ u us, toUpper upperCase (c :: rest) = u :: us ∧
      functionName upperCase (c :: rest) =
        .ok (functionPrefix (decide (c = u)) ++ u :: rest) := by
  obtain ⟨u, us, hu⟩ := toUpper_cons upperCase c rest
  refine ⟨u, us, hu, ?_⟩
  simp [functionName, exported, constructorStructName, hu, byteAt0, slice01, sliceFrom1, bind,
    Except.bind, pure, Except.pure]

theorem generateConstructors_single (upperCase : Nat → Nat) (fprint : Node → Option GoString)
    (p : TypeSpecPtr) (fields : List Field) (fname : GoString)
    (hty : p.spec.type = .structType fields)
    (hprint : ∀ fd ∈ fields, (fprint fd.type).isSome = true)
    (hname : functionName upperCase p.spec.name = .ok fname) :
    generateConstructors upperCase fprint [p] =
      .ok [lit "func " ++ fname ++ lit "(" ++ join (lit ",") (expectedArgs fprint fields) ++
        lit ") *" ++ p.spec.name ++ lit " \x7b\n" ++
        join (lit "\n") (expectedBody p.spec.name fields) ++ lit "\n\x7d\n"] := by
  cases hn : p.spec.name with
  | nil => simp [hn, functionName, exported, byteAt0, bind, Except.bind] at hname
  | cons c rest =>
    obtain ⟨u, us, hu, hf⟩ := functionName_cons upperCase c rest
    rw [hn, hf] at hname
    cases hname
    simp [generateConstructors, generateConstructorsLoop, generateConstructor, hn, hty, exported,
      constructorStructName, hu, byteAt0, slice01, sliceFrom1, bind, Except.bind, pure,
      Except.pure, argsAndBody_eq fprint _ fields hprint, constructorText]

theorem expectedArgs_length (fprint : Node → Option GoString) (fields : List Field) :
    (expectedArgs fprint fields).length = (fields.flatMap Field.names).length := by
  induction fields with
  | nil => rfl
  | cons fd rest ih =>
    simp only [expectedArgs, List.flatMap_cons, List.length_append, List.length_map] at ih ⊢
    rw [ih]

theorem expectedAssignments_length (fields : List Field) :
    (expectedAssignments fields).length = (fields.flatMap Field.names).length := by
  simp [expectedAssignments]

/-! ## Constructor synthesizer (C3, C4, C9) -/

/-- C3: for a struct with a non-empty name whose field types can be printed, the
argument list built by `generateConstructors` is one entry `name type` per
declared field name, field by field and name by name, each with the text of its
own field type; the body is the instance line, one assignment `s.name = name`
per argument in the same order, and the return line; the generated text is the
`Sprintf` of these; and the numbers of arguments and of assignments both equal
the number of declared field names. -/
theorem C3_generateConstructors_args_and_body (upperCase : Nat → Nat)
    (fprint : Node → Option GoString) (p : TypeSpecPtr) (fields : List Field)
    (hty : p.spec.type = .structType fields) (hname : p.spec.name ≠ [])
    (hprint : ∀ fd ∈ fields, (fprint fd.type).isSome = true) :
    ∃ fname, functionName upperCase p.spec.name = .ok fname ∧
      argsAndBody fprint p.spec.name fields =
        .ok (expectedArgs fprint fields, expectedBody p.spec.name fields) ∧
      generateConstructors upperCase fprint [p] =
        .ok [lit "func " ++ fname ++ lit "(" ++ join (lit ",") (expectedArgs fprint fields) ++
          lit ") *" ++ p.spec.name ++ lit " \x7b\n" ++
          join (lit "\n") (expectedBody p.spec.name fields) ++ lit "\n\x7d\n"] ∧
      (expectedArgs fprint fields).length = (fields.flatMap Field.names).length ∧
      (expectedAssignments fields).length = (fields.flatMap Field.names).length := by
  cases hn : p.spec.name with
  | nil => exact absurd hn hname
  | cons c rest =>
    obtain ⟨u, us, _, hf⟩ := functionName_cons upperCase c rest
    refine ⟨_, hf, argsAndBody_eq fprint _ fields hprint, ?_, expectedArgs_length _ _,
      expectedAssignments_length _⟩
    rw [← hn] at hf ⊢
    exact generateConstructors_single upperCase fprint p fields _ hty hprint hf

/-- Witness of C3: `type Foo struct { X pkg.T; Y int }` yields
`func NewFoo(X pkg.T,Y int) *Foo` with the body `s := Foo{}`, `s.X = X`, `s.Y = Y`,
`return &s`. -/
theorem C3_generateConstructors_args_and_body_witness :
    (generateConstructors (fun r => r) printSimple [⟨1, specFoo⟩] =
      .ok [lit "func NewFoo(X pkg.T,Y int) *Foo \x7b\n\ts := Foo\x7b\x7d\n\ts.X = X\n\ts.Y = Y\n\treturn &s\n\x7d\n"]) ∧
    ∃ fname, functionName (fun r => r) specFoo.name = .ok fname ∧
      argsAndBody printSimple specFoo.name
          [qualifiedField (lit "X") (lit "pkg"), .mk none [lit "Y"] (.ident (lit "int")) none none] =
        .ok (expectedArgs printSimple
            [qualifiedField (lit "X") (lit "pkg"), .mk none [lit "Y"] (.ident (lit "int")) none none],
          expectedBody specFoo.name
            [qualifiedField (lit "X") (lit "pkg"), .mk none [lit "Y"] (.ident (lit "int")) none none]) ∧
      generateConstructors (fun r => r) printSimple [⟨1, specFoo⟩] =
        .ok [lit "func " ++ fname ++ lit "(" ++ join (lit ",") (expectedArgs printSimple
            [qualifiedField (lit "X") (lit "pkg"), .mk none [lit "Y"] (.ident (lit "int")) none none]) ++
          lit ") *" ++ specFoo.name ++ lit " \x7b\n" ++
          join (lit "\n") (expectedBody specFoo.name
            [qualifiedField (lit "X") (lit "pkg"), .mk none [lit "Y"] (.ident (lit "int")) none none]) ++
          lit "\n\x7d\n"] ∧
      (expectedArgs printSimple
          [qualifiedField (lit "X") (lit "pkg"), .mk none [lit "Y"] (.ident (lit "int")) none none]).length =
        ([qualifiedField (lit "X") (lit "pkg"),
          Field.mk none [lit "Y"] (.ident (lit "int")) none none].flatMap Field.names).length ∧
      (expectedAssignments
          [qualifiedField (lit "X") (lit "pkg"), .mk none [lit "Y"] (.ident (lit "int")) none none]).length =
        ([qualifiedField (lit "X") (lit "pkg"),
          Field.mk none [lit "Y"] (.ident (lit "int")) none none].flatMap Field.names).length :=
  ⟨rfl, C3_generateConstructors_args_and_body (fun r => r) printSimple ⟨1, specFoo⟩ _ rfl
    (by simp [specFoo, lit])
    (by
      intro fd hfd
      simp only [List.mem_cons, List.mem_singleton, List.not_mem_nil, or_false] at hfd
      rcases hfd with h | h <;> subst h <;> rfl)⟩

/-- C4 (as amended): for a struct whose name starts with an ASCII letter `c`, the
name of the generated function is the prefix `New` when `c` is an upper-case
letter and `new` when it is a lower-case letter, followed by the struct name with
its first character upper-cased; the generated text starts with `func`, that
name and the opening parenthesis. -/
theorem C4_function_name_follows_case (upperCase : Nat → Nat)
    (fprint : Node → Option GoString) (p : TypeSpecPtr) (fields : List Field)
    (c : Nat) (rest : GoString) (hn : p.spec.name = c :: rest)
    (hletter : (0x41 ≤ c ∧ c ≤ 0x5A) ∨ (0x61 ≤ c ∧ c ≤ 0x7A))
    (hty : p.spec.type = .structType fields)
    (hprint : ∀ fd ∈ fields, (fprint fd.type).isSome = true) :
    functionName upperCase p.spec.name =
      .ok ((if c ≤ 0x5A then lit "New" else lit "new") ++ asciiUpper c :: rest) ∧
    ∃ tail, generateConstructors upperCase fprint [p] =
      .ok [lit "func " ++ ((if c ≤ 0x5A then lit "New" else lit "new") ++ asciiUpper c :: rest) ++
        lit "(" ++ tail] := by
  have hc : c < 0x80 := by omega
  obtain ⟨us, hu⟩ := toUpper_cons_ascii upperCase c rest hc
  have hf : functionName upperCase p.spec.name =
      .ok ((if c ≤ 0x5A then lit "New" else lit "new") ++ asciiUpper c :: rest) := by
    rw [hn]
    simp only [functionName, exported, constructorStructName, hu, byteAt0, slice01, sliceFrom1,
      bind, Except.bind, pure, Except.pure, functionPrefix]
    rcases hletter with h | h
    · have h1 : asciiUpper c = c := by unfold asciiUpper; rw [if_neg (by omega)]
      simp [h1, h.2]
    · have h1 : asciiUpper c = c - 0x20 := by unfold asciiUpper; rw [if_pos h]
      have h2 : ¬ c = c - 0x20 := by omega
      have h3 : ¬ c ≤ 0x5A := by omega
      simp [h1, h2, h3]
  refine ⟨hf, join (lit ",") (expectedArgs fprint fields) ++ (lit ") *" ++ (p.spec.name ++
    (lit " \x7b\n" ++ (join (lit "\n") (expectedBody p.spec.name fields) ++ lit "\n\x7d\n")))), ?_⟩
  rw [generateConstructors_single upperCase fprint p fields _ hty hprint hf]
  simp only [List.append_assoc]

/-- Witness of C4: the struct `Foo` gets `NewFoo` and the struct `foo` gets `newFoo`. -/
theorem C4_function_name_follows_case_witness :
    (functionName (fun r => r) specFoo.name = .ok (lit "NewFoo") ∧
      ∃ tail, generateConstructors (fun r => r) printSimple [⟨1, specFoo⟩] =
        .ok [lit "func " ++ lit "NewFoo" ++ lit "(" ++ tail]) ∧
    (functionName (fun r => r) specLowerFoo.name = .ok (lit "newFoo") ∧
      ∃ tail, generateConstructors (fun r => r) printSimple [⟨1, specLowerFoo⟩] =
        .ok [lit "func " ++ lit "newFoo" ++ lit "(" ++ tail]) :=
  ⟨C4_function_name_follows_case (fun r => r) printSimple ⟨1, specFoo⟩ _ 0x46 (lit "oo") rfl
      (by omega) rfl
      (by
        intro fd hfd
        simp only [List.mem_cons, List.mem_singleton, List.not_mem_nil, or_false] at hfd
        rcases hfd with h | h <;> subst h <;> rfl),
    C4_function_name_follows_case (fun r => r) printSimple ⟨1, specLowerFoo⟩ _ 0x66 (lit "oo") rfl
      (by omega) rfl
      (by
        intro fd hfd
        simp only [List.mem_singleton] at hfd
        subst hfd; rfl)⟩

/-- Counterexample to C4 as stated: the struct named `foo` gets the constructor
name `newFoo`, not `NewFoo`. -/
theorem C4_counterexample_lower_case_name :
    functionName (fun r => r) (lit "foo") = .ok (lit "newFoo") ∧
    functionName (fun r => r) (lit "foo") ≠ .ok (lit "NewFoo") ∧
    generateConstructors (fun r => r) printSimple [⟨0, specLowerFoo⟩] =
      .ok [lit "func newFoo(X pkg.T) *foo \x7b\n\ts := foo\x7b\x7d\n\ts.X = X\n\treturn &s\n\x7d\n"] := by
  refine ⟨rfl, ?_, rfl⟩
  intro h
  have h1 : functionName (fun r => r) (lit "foo") = .ok (lit "newFoo") := rfl
  rw [h1] at h
  have h2 : lit "newFoo" = lit "NewFoo" := by injection h
  exact absurd h2 (by decide)

/-- C9 (code evaluated at the failing input): for `type Foo struct { io.Reader; X int }`
the embedded field contributes no argument and no assignment; the constructor
takes `X` only and leaves the embedded field unassigned. -/
theorem C9_embedded_field_is_skipped :
    argsAndBody printSimple (lit "Foo")
        [.mk none [] (.selectorExpr (.ident (lit "io")) (lit "Reader")) none none,
          .mk none [lit "X"] (.ident (lit "int")) none none] =
      .ok ([lit "X int"], [lit "\ts := Foo\x7b\x7d", lit "\ts.X = X", lit "\treturn &s"]) ∧
    generateConstructors (fun r => r) printSimple [⟨0, specEmbedded⟩] =
      .ok [lit "func NewFoo(X int) *Foo \x7b\n\ts := Foo\x7b\x7d\n\ts.X = X\n\treturn &s\n\x7d\n"] :=
  ⟨rfl, rfl⟩

/-! ## File text (C10) -/

theorem header_eq (packageName imports : GoString) :
    header packageName imports =
      lit "// Code generated by goconstruct. DO NOT EDIT\n\npackage " ++ packageName ++ lit "\n\n" ++
        (lit "import (\n" ++ imports ++ lit "\n)\n") ++ lit "\n" := by
  have h1 : lit "\n\nimport (\n" = lit "\n\n" ++ lit "import (\n" := rfl
  have h2 : lit "\n)\n\n" = lit "\n)\n" ++ lit "\n" := rfl
  simp only [header, h1, h2, List.append_assoc]

/-- C10 (as amended): for every package name, import lines and constructors, the
text written by `processFile` is the banner and package clause, then one import
block (`import (`, the import lines joined by newlines, `)`), an empty line and
the constructors, each followed by a newline. The import block is written
whether or not there are import lines: with no lines the text contains the empty
block `import (`, empty line, `)`. The text `processFile` returns is this text
for the lines of `generateImports` and the constructors of
`generateConstructors`. -/
theorem C10_import_block_always_written :
    (∀ (packageName : GoString) (imports constructors : List GoString),
      fileText packageName imports constructors =
        lit "// Code generated by goconstruct. DO NOT EDIT\n\npackage " ++ packageName ++
          lit "\n\n" ++ (lit "import (\n" ++ join (lit "\n") imports ++ lit "\n)\n") ++ lit "\n" ++
          writeConstructors constructors) ∧
    (∀ (packageName : GoString) (constructors : List GoString),
      List.IsInfix (lit "import (\n\n)\n") (fileText packageName [] constructors)) ∧
    (∀ (upperCase : Nat → Nat) (fprint : Node → Option GoString)
      (rangeOrder : List (GoString × GoString) → List (GoString × GoString))
      (node : File) (typeFilter : List GoString) (text : GoString),
      processFile upperCase fprint rangeOrder node typeFilter = .ok (some text) →
      ∃ sel imports constructors,
        gerStrutSpecsToProcess node typeFilter = .ok sel ∧
        generateImports rangeOrder node sel = .ok imports ∧
        generateConstructors upperCase fprint sel = .ok constructors ∧
        text = fileText node.name imports constructors) := by
  refine ⟨?_, ?_, ?_⟩
  · intro packageName imports constructors
    rw [fileText, header_eq]
  · intro packageName constructors
    refine ⟨lit "// Code generated by goconstruct. DO NOT EDIT\n\npackage " ++ packageName ++
      lit "\n\n", lit "\n" ++ writeConstructors constructors, ?_⟩
    rw [fileText, header_eq]
    simp only [join, List.append_assoc, List.nil_append]
    rfl
  · intro upperCase fprint rangeOrder node typeFilter text h
    unfold processFile at h
    cases hs : gerStrutSpecsToProcess node typeFilter with
    | error e => simp [hs] at h
    | ok sel =>
      simp only [hs] at h
      by_cases hl : sel.length = 0
      · simp [hl] at h
      · rw [if_neg hl] at h
        cases hc : generateConstructors upperCase fprint sel with
        | error e => simp [hc] at h
        | ok constructors =>
          simp only [hc] at h
          cases hi : generateImports rangeOrder node sel with
          | error e => simp [hi] at h
          | ok imports =>
            simp only [hi] at h
            injection h with h
            injection h with h
            exact ⟨sel, imports, constructors, rfl, hi, hc, h.symm⟩

/-- Counterexample to C10 as stated: for the unit `package p; type Bar struct { Z int }`
`generateImports` returns no lines, and the text `processFile` writes still
contains an import declaration, the empty block `import (` ... `)`. -/
theorem C10_counterexample_empty_block :
    generateImports (fun m => m) unitBar [⟨0, specBar⟩] = .ok [] ∧
    processFile (fun r => r) printSimple (fun m => m) unitBar [] =
      .ok (some (lit ("// Code generated by goconstruct. DO NOT EDIT\n\npackage p\n\nimport (\n\n)\n\n" ++
        "func NewBar(Z int) *Bar \x7b\n\ts := Bar\x7b\x7d\n\ts.Z = Z\n\treturn &s\n\x7d\n\n"))) ∧
    List.IsInfix (lit "import (")
      (lit ("// Code generated by goconstruct. DO NOT EDIT\n\npackage p\n\nimport (\n\n)\n\n" ++
        "func NewBar(Z int) *Bar \x7b\n\ts := Bar\x7b\x7d\n\ts.Z = Z\n\treturn &s\n\x7d\n\n")) :=
  ⟨by decide!, by decide!,
    lit "// Code generated by goconstruct. DO NOT EDIT\n\npackage p\n\n",
    lit "\n\n)\n\nfunc NewBar(Z int) *Bar \x7b\n\ts := Bar\x7b\x7d\n\ts.Z = Z\n\treturn &s\n\x7d\n\n",
    by decide!⟩

/-! ## The import table: lemmas -/

theorem enter_import (m : List (GoString × GoString)) (v : Visit)
    (children : List (GoString × GoString) → Except Failure (List (GoString × GoString)))
    (hv : ∀ imp, v ≠ .importSpec imp) (hc : children m = .ok m) :
    enter importCallback m v children = .ok m := by
  cases v with
  | importSpec imp => exact absurd rfl (hv imp)
  | nil => simp [enter, importCallback, hc]
  | file => simp [enter, importCallback, hc]
  | genDecl a s => simp [enter, importCallback, hc]
  | selectorExpr x => simp [enter, importCallback, hc]
  | other => simp [enter, importCallback, hc]

theorem walkLeaves_import (l : List GoString) :
    ∀ m : List (GoString × GoString), walkLeaves importCallback m l = .ok m := by
  induction l with
  | nil => intro m; rfl
  | cons a rest ih =>
    intro m
    simp only [walkLeaves, enter_import m .other _ (by simp) rfl, ih]

theorem walkComments_import (m : List (GoString × GoString)) (c : Option CommentGroup) :
    walkComments importCallback m c = .ok m := by
  cases c with
  | none => rfl
  | some cs =>
    exact enter_import m .other (fun s => walkLeaves importCallback s cs) (by simp)
      (walkLeaves_import cs m)

mutual
theorem walkNode_import (m : List (GoString × GoString)) :
    ∀ n : Node, walkNode importCallback m n = .ok m
  | .ident _ => by
    simp only [walkNode]; exact enter_import m .other _ (by simp) rfl
  | .selectorExpr x _ => by
    simp only [walkNode]
    refine enter_import m _ _ (by simp) ?_
    simp only [walkNode_import m x]
    exact enter_import m .other _ (by simp) rfl
  | .structType fields => by
    simp only [walkNode]
    refine enter_import m .other _ (by simp) ?_
    exact enter_import m .other _ (by simp) (walkFields_import m fields)
  | .other children => by
    simp only [walkNode]
    exact enter_import m .other _ (by simp) (walkNodes_import m children)
theorem walkNodes_import (m : List (GoString × GoString)) :
    ∀ ns : List Node, walkNodes importCallback m ns = .ok m
  | [] => by simp only [walkNodes]
  | n :: rest => by
    simp only [walkNodes, walkNode_import m n, walkNodes_import m rest]
theorem walkField_import (m : List (GoString × GoString)) :
    ∀ fd : Field, walkField importCallback m fd = .ok m
  | .mk doc names type tag comment => by
    simp only [walkField]
    refine enter_import m .other _ (by simp) ?_
    simp only [walkComments_import, walkLeaves_import, walkNode_import m type]
theorem walkFields_import (m : List (GoString × GoString)) :
    ∀ fs : List Field, walkFields importCallback m fs = .ok m
  | [] => by simp only [walkFields]
  | fd :: rest => by
    simp only [walkFields, walkField_import m fd, walkFields_import m rest]
end

theorem walkOpt_import (m : List (GoString × GoString)) (n : Option Node) :
    walkOpt importCallback m n = .ok m := by
  cases n with
  | none => rfl
  | some n => exact walkNode_import m n

theorem split_ne_nil (sep : Nat) (s : GoString) : split sep s ≠ [] := by
  induction s with
  | nil => simp [split]
  | cons c cs ih =>
    simp only [split]
    split
    · simp
    · split <;> simp

theorem lastElem_ok (l : List GoString) (h : l ≠ []) : ∃ a, lastElem l = .ok a := by
  induction l with
  | nil => exact absurd rfl h
  | cons a rest ih =>
    cases rest with
    | nil => exact ⟨a, rfl⟩
    | cons b rest => simpa [lastElem] using ih (by simp)

theorem walkSpec_import (m : List (GoString × GoString)) (sp : Spec) :
    walkSpec importCallback m sp = addImports m (importsOfSpecs [sp]) := by
  cases sp with
  | importSpec imp =>
    simp only [walkSpec, importsOfSpecs, addImports, localName, enter, importCallback]
    cases imp.name with
    | some name => simp
    | none =>
      cases sliceInner imp.path with
      | error e => simp
      | ok inner =>
        obtain ⟨a, ha⟩ := lastElem_ok _ (split_ne_nil 0x2F inner)
        simp [ha]
  | valueSpec v =>
    simp only [walkSpec, importsOfSpecs, addImports]
    refine enter_import m .other _ (by simp) ?_
    simp only [walkComments_import, walkLeaves_import, walkOpt_import, walkNodes_import]
  | typeSpec t =>
    simp only [walkSpec, importsOfSpecs, addImports]
    refine enter_import m .other _ (by simp) ?_
    simp only [walkComments_import, walkLeaves_import, walkOpt_import, walkNode_import]

theorem addImports_append (a b : List ImportSpec) :
    ∀ m : List (GoString × GoString), addImports m (a ++ b) =
      match addImports m a with
      | .error e => .error e
      | .ok m1 => addImports m1 b := by
  induction a with
  | nil => intro m; simp [addImports]
  | cons imp rest ih =>
    intro m
    simp only [List.cons_append, addImports]
    cases localName imp with
    | error e => simp
    | ok name => simp [ih]

theorem importsOfSpecs_cons (sp : Spec) (rest : List Spec) :
    importsOfSpecs (sp :: rest) = importsOfSpecs [sp] ++ importsOfSpecs rest := by
  cases sp <;> simp [importsOfSpecs]

theorem walkSpecs_import (specs : List Spec) :
    ∀ m : List (GoString × GoString),
      walkSpecs importCallback m specs = addImports m (importsOfSpecs specs) := by
  induction specs with
  | nil => intro m; simp [walkSpecs, importsOfSpecs, addImports]
  | cons sp rest ih =>
    intro m
    rw [importsOfSpecs_cons, addImports_append, walkSpecs, walkSpec_import]
    cases addImports m (importsOfSpecs [sp]) with
    | error e => simp
    | ok m1 => simp [ih]

theorem importSpecs_cons (d : Decl) (rest : List Decl) :
    importSpecs (d :: rest) = importSpecs [d] ++ importSpecs rest := by
  cases d <;> simp [importSpecs]

theorem walkDecl_import (m : List (GoString × GoString)) (i : Nat) (d : Decl) :
    walkDecl importCallback m i d = addImports m (importSpecs [d]) := by
  cases d with
  | genDecl doc specs =>
    simp only [walkDecl, importSpecs, List.append_nil, enter, importCallback,
      walkComments_import, walkSpecs_import]
    cases addImports m (importsOfSpecs specs) with
    | error e => simp
    | ok m1 => simp
  | funcDecl children =>
    simp only [walkDecl, importSpecs, addImports]
    exact enter_import m .other _ (by simp) (walkNodes_import m children)
  | badDecl =>
    simp only [walkDecl, importSpecs, addImports]
    exact enter_import m .other _ (by simp) rfl

theorem walkDecls_import (decls : List Decl) :
    ∀ (m : List (GoString × GoString)) (i : Nat),
      walkDecls importCallback m i decls = addImports m (importSpecs decls) := by
  induction decls with
  | nil => intro m i; simp [walkDecls, importSpecs, addImports]
  | cons d rest ih =>
    intro m i
    rw [importSpecs_cons, addImports_append, walkDecls, walkDecl_import]
    cases addImports m (importSpecs [d]) with
    | error e => simp
    | ok m1 => simp [ih]

theorem getPackageNameToPathMap_eq (node : File) :
    getPackageNameToPathMap node = addImports [] (importSpecs node.decls) := by
  simp only [getPackageNameToPathMap, inspect, enter, importCallback, walkComments_import,
    walkLeaves_import, walkDecls_import]
  cases addImports [] (importSpecs node.decls) with
  | error e => simp
  | ok m1 => simp

/-! ## The scoped walk of `getPackageNamesUsedInStructFields`: lemmas -/

theorem setAll_append (r a b : List GoString) : setAll r (a ++ b) = setAll (setAll r a) b := by
  simp [setAll, List.foldl_append]

theorem mem_setTrue (r : List GoString) (k x : GoString) :
    x ∈ setTrue r k ↔ x ∈ r ∨ x = k := by
  unfold setTrue
  split
  · constructor
    · exact Or.inl
    · rintro (h | h)
      · exact h
      · subst h; assumption
  · simp

theorem mem_setAll (ks : List GoString) :
    ∀ (r : List GoString) (x : GoString), x ∈ setAll r ks ↔ x ∈ r ∨ x ∈ ks := by
  induction ks with
  | nil => intro r x; simp [setAll]
  | cons k rest ih =>
    intro r x
    have h : setAll r (k :: rest) = setAll (setTrue r k) rest := rfl
    rw [h, ih, mem_setTrue]
    simp only [List.mem_cons]
    tauto

theorem visitMark_selector (r : List GoString) (x : Node) :
    visitMark r (.selectorExpr x) = setAll r (qualifierOf x) := by
  cases x <;> rfl

theorem scopeCallback_inScope (sel : List TypeSpecPtr) (r : List GoString) (d : Int) (v : Visit)
    (hv : v ≠ .nil) :
    scopeCallback sel ⟨r, true, d⟩ v = .ok (⟨visitMark r v, true, d + 1⟩, true) := by
  cases v with
  | nil => exact absurd rfl hv
  | file => simp [scopeCallback, visitMark]
  | genDecl a s => simp [scopeCallback, visitMark]
  | importSpec s => simp [scopeCallback, visitMark]
  | other => simp [scopeCallback, visitMark]
  | selectorExpr x => cases x <;> simp [scopeCallback, visitMark]

theorem scopeCallback_nil_inScope (sel : List TypeSpecPtr) (r : List GoString) (d : Int)
    (hd : 0 < d) :
    scopeCallback sel ⟨r, true, d + 1⟩ .nil = .ok (⟨r, true, d⟩, true) := by
  have h : d ≠ 0 := by omega
  simp [scopeCallback, h]

theorem scopeCallback_nil_close (sel : List TypeSpecPtr) (r : List GoString) :
    scopeCallback sel ⟨r, true, 1⟩ .nil = .ok (⟨r, false, 0⟩, false) := by
  simp [scopeCallback]

theorem enter_inScope (sel : List TypeSpecPtr) (r r2 : List GoString) (d : Int) (v : Visit)
    (children : ScopeState → Except Failure ScopeState) (hd : 0 < d) (hv : v ≠ .nil)
    (hc : children ⟨visitMark r v, true, d + 1⟩ = .ok ⟨r2, true, d + 1⟩) :
    enter (scopeCallback sel) ⟨r, true, d⟩ v children = .ok ⟨r2, true, d⟩ := by
  simp only [enter, scopeCallback_inScope sel r d v hv, hc, scopeCallback_nil_inScope sel r2 d hd]

theorem walkLeaves_inScope (sel : List TypeSpecPtr) (l : List GoString) :
    ∀ (r : List GoString) (d : Int), 0 < d →
      walkLeaves (scopeCallback sel) ⟨r, true, d⟩ l = .ok ⟨r, true, d⟩ := by
  induction l with
  | nil => intro r d _; rfl
  | cons a rest ih =>
    intro r d hd
    simp only [walkLeaves,
      enter_inScope sel r r d .other (fun s => .ok s) hd (by simp) rfl, ih r d hd]

theorem walkComments_inScope (sel : List TypeSpecPtr) (c : Option CommentGroup)
    (r : List GoString) (d : Int) (hd : 0 < d) :
    walkComments (scopeCallback sel) ⟨r, true, d⟩ c = .ok ⟨r, true, d⟩ := by
  cases c with
  | none => rfl
  | some cs =>
    exact enter_inScope sel r r d .other (fun s => walkLeaves (scopeCallback sel) s cs) hd
      (by simp) (walkLeaves_inScope sel cs r (d + 1) (by omega))

mutual
theorem walkNode_inScope (sel : List TypeSpecPtr) :
    ∀ (n : Node) (r : List GoString) (d : Int), 0 < d →
      walkNode (scopeCallback sel) ⟨r, true, d⟩ n = .ok ⟨setAll r (qualifiers n), true, d⟩
  | .ident _, r, d, hd => by
    simp only [walkNode, qualifiers]
    exact enter_inScope sel r r d .other (fun s => .ok s) hd (by simp) rfl
  | .selectorExpr x _, r, d, hd => by
    simp only [walkNode, qualifiers, setAll_append]
    refine enter_inScope sel r _ d _ _ hd (by simp) ?_
    simp only [visitMark_selector, walkNode_inScope sel x _ (d + 1) (by omega)]
    exact enter_inScope sel _ _ (d + 1) .other (fun s => .ok s) (by omega) (by simp) rfl
  | .structType fields, r, d, hd => by
    simp only [walkNode, qualifiers]
    refine enter_inScope sel r _ d .other _ hd (by simp) ?_
    refine enter_inScope sel r _ (d + 1) .other _ (by omega) (by simp) ?_
    exact walkFields_inScope sel fields r (d + 1 + 1) (by omega)
  | .other children, r, d, hd => by
    simp only [walkNode, qualifiers]
    refine enter_inScope sel r _ d .other _ hd (by simp) ?_
    exact walkNodes_inScope sel children r (d + 1) (by omega)
theorem walkNodes_inScope (sel : List TypeSpecPtr) :
    ∀ (ns : List Node) (r : List GoString) (d : Int), 0 < d →
      walkNodes (scopeCallback sel) ⟨r, true, d⟩ ns =
        .ok ⟨setAll r (qualifiersNodes ns), true, d⟩
  | [], r, d, _ => by simp only [walkNodes, qualifiersNodes]; rfl
  | n :: rest, r, d, hd => by
    simp only [walkNodes, qualifiersNodes, setAll_append, walkNode_inScope sel n r d hd,
      walkNodes_inScope sel rest _ d hd]
theorem walkField_inScope (sel : List TypeSpecPtr) :
    ∀ (fd : Field) (r : List GoString) (d : Int), 0 < d →
      walkField (scopeCallback sel) ⟨r, true, d⟩ fd =
        .ok ⟨setAll r (qualifiersField fd), true, d⟩
  | .mk doc names type tag comment, r, d, hd => by
    simp only [walkField, qualifiersField]
    refine enter_inScope sel r _ d .other _ hd (by simp) ?_
    have hd1 : (0 : Int) < d + 1 := by omega
    simp only [visitMark, walkComments_inScope sel _ _ (d + 1) hd1,
      walkLeaves_inScope sel _ _ (d + 1) hd1, walkNode_inScope sel type r (d + 1) hd1]
theorem walkFields_inScope (sel : List TypeSpecPtr) :
    ∀ (fs : List Field) (r : List GoString) (d : Int), 0 < d →
      walkFields (scopeCallback sel) ⟨r, true, d⟩ fs =
        .ok ⟨setAll r (qualifiersFields fs), true, d⟩
  | [], r, d, _ => by simp only [walkFields, qualifiersFields]; rfl
  | fd :: rest, r, d, hd => by
    simp only [walkFields, qualifiersFields, setAll_append, walkField_inScope sel fd r d hd,
      walkFields_inScope sel rest _ d hd]
end

theorem walkOpt_inScope (sel : List TypeSpecPtr) (n : Option Node) (r : List GoString) (d : Int)
    (hd : 0 < d) :
    walkOpt (scopeCallback sel) ⟨r, true, d⟩ n = .ok ⟨setAll r (qualifiersOpt n), true, d⟩ := by
  cases n with
  | none => rfl
  | some n => exact walkNode_inScope sel n r d hd

theorem walkSpec_inScope (sel : List TypeSpecPtr) (sp : Spec) (r : List GoString) (d : Int)
    (hd : 0 < d) :
    walkSpec (scopeCallback sel) ⟨r, true, d⟩ sp =
      .ok ⟨setAll r (qualifiersSpec sp), true, d⟩ := by
  have hd1 : (0 : Int) < d + 1 := by omega
  cases sp with
  | importSpec imp =>
    simp only [walkSpec, qualifiersSpec]
    refine enter_inScope sel r _ d _ _ hd (by simp) ?_
    simp only [visitMark, walkComments_inScope sel _ _ (d + 1) hd1,
      walkLeaves_inScope sel _ _ (d + 1) hd1]
    rfl
  | valueSpec v =>
    simp only [walkSpec, qualifiersSpec, setAll_append]
    refine enter_inScope sel r _ d .other _ hd (by simp) ?_
    simp only [visitMark, walkComments_inScope sel _ _ (d + 1) hd1,
      walkLeaves_inScope sel _ _ (d + 1) hd1, walkOpt_inScope sel _ _ (d + 1) hd1,
      walkNodes_inScope sel _ _ (d + 1) hd1]
  | typeSpec t =>
    simp only [walkSpec, qualifiersSpec, setAll_append]
    refine enter_inScope sel r _ d .other _ hd (by simp) ?_
    simp only [visitMark, walkComments_inScope sel _ _ (d + 1) hd1,
      walkLeaves_inScope sel _ _ (d + 1) hd1, walkOpt_inScope sel _ _ (d + 1) hd1,
      walkNode_inScope sel _ _ (d + 1) hd1]

theorem walkSpecs_inScope (sel : List TypeSpecPtr) (specs : List Spec) :
    ∀ (r : List GoString) (d : Int), 0 < d →
      walkSpecs (scopeCallback sel) ⟨r, true, d⟩ specs =
        .ok ⟨setAll r (qualifiersSpecs specs), true, d⟩ := by
  induction specs with
  | nil => intro r d _; rfl
  | cons sp rest ih =>
    intro r d hd
    simp only [walkSpecs, qualifiersSpecs, setAll_append, walkSpec_inScope sel sp r d hd,
      ih _ d hd]

theorem enter_outOfScope (sel : List TypeSpecPtr) (r : List GoString) (d : Int)
    (children : ScopeState → Except Failure ScopeState) :
    enter (scopeCallback sel) ⟨r, false, d⟩ .other children = .ok ⟨r, false, d⟩ := by
  simp [enter, scopeCallback]

theorem walkDecl_top (sel : List TypeSpecPtr) (r : List GoString) (i : Nat) (d : Decl)
    (h : hasSpecs d = true) :
    walkDecl (scopeCallback sel) ⟨r, false, 0⟩ i d =
      .ok ⟨setAll r (if armed sel i d then qualifiersDecl d else []), false, 0⟩ := by
  cases d with
  | funcDecl cs => simp only [walkDecl, enter_outOfScope, armed]; rfl
  | badDecl => simp only [walkDecl, enter_outOfScope, armed]; rfl
  | genDecl doc specs =>
    cases specs with
    | nil => simp [hasSpecs] at h
    | cons sp rest =>
      cases sp with
      | importSpec s => simp [walkDecl, enter, scopeCallback, armed, setAll]
      | valueSpec s => simp [walkDecl, enter, scopeCallback, armed, setAll]
      | typeSpec t =>
        by_cases hs : isSelected i sel = true
        · have h1 : scopeCallback sel ⟨r, false, 0⟩ (.genDecl i (.typeSpec t :: rest)) =
              .ok (⟨r, true, 1⟩, true) := by
            simp [scopeCallback, hs]
          simp only [walkDecl, enter, h1, walkComments_inScope sel doc r 1 (by omega),
            walkSpecs_inScope sel _ r 1 (by omega), scopeCallback_nil_close, armed, hs,
            if_true, qualifiersDecl]
        · have h1 : scopeCallback sel ⟨r, false, 0⟩ (.genDecl i (.typeSpec t :: rest)) =
              .ok (⟨r, false, 0⟩, false) := by
            simp [scopeCallback, hs]
          simp only [walkDecl, enter, h1, armed, hs]
          rfl

theorem walkDecls_top (sel : List TypeSpecPtr) (decls : List Decl) :
    ∀ (r : List GoString) (i : Nat), decls.all hasSpecs = true →
      walkDecls (scopeCallback sel) ⟨r, false, 0⟩ i decls =
        .ok ⟨setAll r (scopedQualifiers sel i decls), false, 0⟩ := by
  induction decls with
  | nil => intro r i _; rfl
  | cons d rest ih =>
    intro r i h
    simp only [List.all_cons, Bool.and_eq_true] at h
    simp only [walkDecls, walkDecl_top sel r i d h.1, ih _ (i + 1) h.2, scopedQualifiers,
      setAll_append]

theorem getPackageNamesUsedInStructFields_eq (node : File) (sel : List TypeSpecPtr)
    (h : node.decls.all hasSpecs = true) :
    getPackageNamesUsedInStructFields node sel =
      .ok (setAll [] (scopedQualifiers sel 0 node.decls)) := by
  have h1 : scopeCallback sel ⟨[], false, 0⟩ .file = .ok (⟨[], false, 0⟩, true) := by
    simp [scopeCallback]
  have h2 : ∀ r : List GoString,
      scopeCallback sel ⟨r, false, 0⟩ .nil = .ok (⟨r, false, 0⟩, false) := by
    intro r; simp [scopeCallback]
  have h3 : walkComments (scopeCallback sel) ⟨[], false, 0⟩ node.doc = .ok ⟨[], false, 0⟩ := by
    cases node.doc with
    | none => rfl
    | some cs =>
      exact enter_outOfScope sel [] 0 (fun s => walkLeaves (scopeCallback sel) s cs)
  have h4 : walkLeaves (scopeCallback sel) ⟨[], false, 0⟩ [node.name] = .ok ⟨[], false, 0⟩ := by
    simp only [walkLeaves, enter_outOfScope]
  simp only [getPackageNamesUsedInStructFields, inspect, enter, h1, h3, h4,
    walkDecls_top sel node.decls [] 0 h, h2]

theorem mem_scopedQualifiers (sel : List TypeSpecPtr) (decls : List Decl) :
    ∀ (i : Nat) (k : GoString), k ∈ scopedQualifiers sel i decls ↔
      ∃ j d, decls[j]? = some d ∧ armed sel (i + j) d = true ∧ k ∈ qualifiersDecl d := by
  induction decls with
  | nil => intro i k; simp [scopedQualifiers]
  | cons d rest ih =>
    intro i k
    simp only [scopedQualifiers, List.mem_append, ih]
    constructor
    · rintro (h | ⟨j, d1, hj, ha, hk⟩)
      · by_cases hd : armed sel i d = true
        · rw [if_pos hd] at h
          exact ⟨0, d, by simp, by simpa using hd, h⟩
        · rw [if_neg hd] at h; simp at h
      · refine ⟨j + 1, d1, by simpa using hj, ?_, hk⟩
        rw [← ha]; congr 1; omega
    · rintro ⟨j, d1, hj, ha, hk⟩
      cases j with
      | zero =>
        simp at hj; subst hj
        left
        simp only [Nat.add_zero] at ha
        rw [if_pos ha]; exact hk
      | succ j =>
        right
        refine ⟨j, d1, by simpa using hj, ?_, hk⟩
        rw [← ha]; congr 1; omega

/-! ## Import table entries and rendered lines: lemmas -/

theorem importsLoop_eq (used : List GoString) (order : List (GoString × GoString)) :
    ∀ acc : List GoString,
      importsLoop used acc order = acc ++ order.filterMap (renderEntry used) := by
  induction order with
  | nil => intro acc; simp [importsLoop]
  | cons e rest ih =>
    intro acc
    obtain ⟨k, v⟩ := e
    by_cases h1 : k = lit "."
    · simp [importsLoop, renderEntry, h1, ih]
    · by_cases h2 : k ∈ used
      · simp [importsLoop, renderEntry, h1, h2, ih]
      · simp [importsLoop, renderEntry, h1, h2, ih]

theorem localName_ok (imp : ImportSpec) (h : wellFormedImport imp = true) :
    ∃ n, localName imp = .ok n := by
  unfold localName
  cases hn : imp.name with
  | some name => exact ⟨name, rfl⟩
  | none =>
    have h2 : ¬ imp.path.length < 2 := by
      simp [wellFormedImport, hn] at h
      omega
    simp only [sliceInner, if_neg h2]
    exact lastElem_ok _ (split_ne_nil _ _)

theorem addImports_ok (imps : List ImportSpec) :
    ∀ m : List (GoString × GoString), imps.all wellFormedImport = true →
      ∃ t, addImports m imps = .ok t := by
  induction imps with
  | nil => intro m _; exact ⟨m, rfl⟩
  | cons imp rest ih =>
    intro m h
    simp only [List.all_cons, Bool.and_eq_true] at h
    obtain ⟨n, hn⟩ := localName_ok imp h.1
    simp only [addImports, hn]
    exact ih _ h.2

theorem mem_mapSet_self (m : List (GoString × GoString)) (k v : GoString) :
    (k, v) ∈ mapSet m k v := by
  induction m with
  | nil => simp [mapSet]
  | cons e rest ih =>
    obtain ⟨k1, v1⟩ := e
    by_cases h : k1 = k <;> simp [mapSet, h, ih]

theorem mem_mapSet_of_ne (m : List (GoString × GoString)) (k v : GoString)
    (e : GoString × GoString) (he : e ∈ m) (hne : e.1 ≠ k) : e ∈ mapSet m k v := by
  induction m with
  | nil => simp at he
  | cons e1 rest ih =>
    obtain ⟨k1, v1⟩ := e1
    rcases List.mem_cons.1 he with h | h
    · subst h
      simp only at hne
      simp [mapSet, hne]
    · by_cases h1 : k1 = k
      · simp [mapSet, h1, h]
      · simp [mapSet, h1, ih h]

theorem keys_mapSet (m : List (GoString × GoString)) (k v : GoString) :
    (mapSet m k v).map Prod.fst =
      if k ∈ m.map Prod.fst then m.map Prod.fst else m.map Prod.fst ++ [k] := by
  induction m with
  | nil => simp [mapSet]
  | cons e rest ih =>
    obtain ⟨k1, v1⟩ := e
    by_cases h1 : k1 = k
    · subst h1; simp [mapSet]
    · have h2 : ¬ k = k1 := fun h => h1 h.symm
      simp only [mapSet, if_neg h1, List.map_cons, ih, List.mem_cons, h2, false_or]
      split <;> simp

theorem nodup_keys_mapSet (m : List (GoString × GoString)) (k v : GoString)
    (h : (m.map Prod.fst).Nodup) : ((mapSet m k v).map Prod.fst).Nodup := by
  rw [keys_mapSet]
  split
  · exact h
  · rename_i hk
    rw [List.nodup_append]
    refine ⟨h, by simp, ?_⟩
    intro a ha hb
    simp only [List.mem_singleton] at hb
    subst hb
    exact hk ha

theorem addImports_nodup (imps : List ImportSpec) :
    ∀ m t : List (GoString × GoString), (m.map Prod.fst).Nodup → addImports m imps = .ok t →
      (t.map Prod.fst).Nodup := by
  induction imps with
  | nil => intro m t h ht; simp [addImports] at ht; subst ht; exact h
  | cons imp rest ih =>
    intro m t h ht
    simp only [addImports] at ht
    cases hn : localName imp with
    | error e => simp [hn] at ht
    | ok n =>
      simp only [hn] at ht
      exact ih _ t (nodup_keys_mapSet m n imp.path h) ht

theorem addImports_preserves (imps : List ImportSpec) :
    ∀ (m t : List (GoString × GoString)) (e : GoString × GoString), e ∈ m →
      (∀ j ∈ imps, localName j ≠ .ok e.1) → addImports m imps = .ok t → e ∈ t := by
  induction imps with
  | nil => intro m t e he _ ht; simp [addImports] at ht; subst ht; exact he
  | cons imp rest ih =>
    intro m t e he hne ht
    simp only [addImports] at ht
    cases hn : localName imp with
    | error e => simp [hn] at ht
    | ok n =>
      simp only [hn] at ht
      have h1 : e.1 ≠ n := by
        intro h
        exact hne imp (List.mem_cons_self _ _) (by rw [hn, h])
      exact ih _ t e (mem_mapSet_of_ne m n imp.path e he h1)
        (fun j hj => hne j (List.mem_cons_of_mem _ hj)) ht

theorem addImports_mem_last (pre post : List ImportSpec) (imp : ImportSpec)
    (m t : List (GoString × GoString)) (k : GoString)
    (ht : addImports m (pre ++ imp :: post) = .ok t) (hk : localName imp = .ok k)
    (hlast : ∀ j ∈ post, localName j ≠ .ok k) : (k, imp.path) ∈ t := by
  rw [addImports_append] at ht
  cases hpre : addImports m pre with
  | error e => simp [hpre] at ht
  | ok m1 =>
    simp only [hpre, addImports, hk] at ht
    exact addImports_preserves post _ t (k, imp.path) (mem_mapSet_self m1 k imp.path) hlast ht

theorem isSelected_iff (i : Nat) (sel : List TypeSpecPtr) :
    isSelected i sel = true ↔ ∃ p ∈ sel, p.addr = i := by
  induction sel with
  | nil => simp [isSelected]
  | cons v rest ih =>
    by_cases h : i = v.addr
    · simp [isSelected, h]
    · have h2 : ¬ v.addr = i := fun h1 => h h1.symm
      simp [isSelected, h, h2, ih]

theorem gerStrutSpecsToProcess_ok (node : File) (typeFilter : List GoString)
    (sel : List TypeSpecPtr) (h : gerStrutSpecsToProcess node typeFilter = .ok sel) :
    node.decls.all hasSpecs = true ∧ ∀ p ∈ sel, p ∈ extracted 0 node.decls := by
  cases hx : getStructTypeSpec node with
  | error e => simp [gerStrutSpecsToProcess, hx] at h
  | ok xs =>
    obtain ⟨h1, h2⟩ := getStructTypeSpec_ok node xs hx
    refine ⟨h1, ?_⟩
    rw [gerStrutSpecsToProcess_eq node typeFilter xs hx] at h
    injection h with h
    intro p hp
    rw [← h2]
    rw [← h] at hp
    split at hp
    · exact hp
    · exact (List.mem_filter.1 hp).1

theorem generateImports_eq
    (rangeOrder : List (GoString × GoString) → List (GoString × GoString))
    (node : File) (sel : List TypeSpecPtr) (hspecs : node.decls.all hasSpecs = true)
    (hwf : (importSpecs node.decls).all wellFormedImport = true) :
    ∃ table, getPackageNameToPathMap node = .ok table ∧ (table.map Prod.fst).Nodup ∧
      addImports [] (importSpecs node.decls) = .ok table ∧
      generateImports rangeOrder node sel =
        .ok ((rangeOrder table).filterMap
          (renderEntry (setAll [] (scopedQualifiers sel 0 node.decls)))) := by
  obtain ⟨table, ht⟩ := addImports_ok (importSpecs node.decls) [] hwf
  refine ⟨table, by rw [getPackageNameToPathMap_eq, ht],
    addImports_nodup _ [] table (by simp) ht, ht, ?_⟩
  simp [generateImports, getPackageNameToPathMap_eq, ht,
    getPackageNamesUsedInStructFields_eq node sel hspecs, importsLoop_eq]

theorem filterMap_filter_of_none {α β : Type} (f : α → Option β) (q : α → Bool) (l : List α)
    (h : ∀ a ∈ l, q a = false → f a = none) :
    (l.filter q).filterMap f = l.filterMap f := by
  induction l with
  | nil => rfl
  | cons a rest ih =>
    have hrest : ∀ b ∈ rest, q b = false → f b = none :=
      fun b hb => h b (List.mem_cons_of_mem _ hb)
    cases hq : q a with
    | true => simp [List.filter_cons, hq, List.filterMap_cons, ih hrest]
    | false =>
      have := h a (List.mem_cons_self _ _) hq
      simp [List.filter_cons, hq, List.filterMap_cons, this, ih hrest]

theorem not_mem_used_of_not_in_groups (node : File) (sel : List TypeSpecPtr) (pkg : GoString)
    (hout : ∀ p ∈ sel, ∀ doc specs, node.decls[p.addr]? = some (.genDecl doc specs) →
      pkg ∉ qualifiersSpecs specs) :
    pkg ∉ setAll [] (scopedQualifiers sel 0 node.decls) := by
  rw [mem_setAll, mem_scopedQualifiers]
  rintro (h | ⟨j, d, hj, ha, hk⟩)
  · simp at h
  · rw [Nat.zero_add] at ha
    cases d with
    | funcDecl cs => simp [armed] at ha
    | badDecl => simp [armed] at ha
    | genDecl doc specs =>
      cases specs with
      | nil => simp [armed] at ha
      | cons sp rest =>
        cases sp with
        | importSpec s => simp [armed] at ha
        | valueSpec s => simp [armed] at ha
        | typeSpec t =>
          simp only [armed] at ha
          obtain ⟨p, hp, hpa⟩ := (isSelected_iff j sel).1 ha
          subst hpa
          exact hout p hp doc _ hj hk

/-! ## Import resolver (C1, C2, C7, C8) -/

/-- Scoping that the walk does achieve: for a unit whose imports are well formed and
a selection produced by `gerStrutSpecsToProcess`, a non-wildcard local name `pkg`
that does not occur as a selector qualifier inside any declaration group headed
by a selected struct (it may occur in function bodies, in non-type declarations
and in type groups whose first spec is not selected) is not marked as used and
produces no line: `generateImports` returns the lines of the other entries of
the table, the same as for the table without the entries of `pkg`. -/
theorem import_outside_selected_groups_dropped
    (rangeOrder : List (GoString × GoString) → List (GoString × GoString))
    (node : File) (typeFilter : List GoString) (sel : List TypeSpecPtr) (pkg : GoString)
    (hsel : gerStrutSpecsToProcess node typeFilter = .ok sel)
    (hwf : (importSpecs node.decls).all wellFormedImport = true)
    (hdot : pkg ≠ lit ".")
    (hout : ∀ p ∈ sel, ∀ doc specs, node.decls[p.addr]? = some (.genDecl doc specs) →
      pkg ∉ qualifiersSpecs specs) :
    ∃ table used lines,
      getPackageNameToPathMap node = .ok table ∧
      getPackageNamesUsedInStructFields node sel = .ok used ∧
      generateImports rangeOrder node sel = .ok lines ∧
      pkg ∉ used ∧
      (∀ path, renderEntry used (pkg, path) = none) ∧
      lines = (rangeOrder table).filterMap (renderEntry used) ∧
      lines = importsLoop used [] ((rangeOrder table).filter (fun e => decide (e.1 ≠ pkg))) := by
  obtain ⟨hspecs, _⟩ := gerStrutSpecsToProcess_ok node typeFilter sel hsel
  obtain ⟨table, ht, _, _, hg⟩ := generateImports_eq rangeOrder node sel hspecs hwf
  have hused := not_mem_used_of_not_in_groups node sel pkg hout
  have hnone : ∀ path, renderEntry (setAll [] (scopedQualifiers sel 0 node.decls)) (pkg, path) =
      none := by
    intro path
    simp [renderEntry, hdot, hused]
  refine ⟨table, _, _, ht, getPackageNamesUsedInStructFields_eq node sel hspecs, hg, hused,
    hnone, rfl, ?_⟩
  rw [importsLoop_eq, List.nil_append, filterMap_filter_of_none]
  intro e _ he
  have h1 : e.1 = pkg := by simpa using he
  obtain ⟨k, v⟩ := e
  simp only at h1
  subst h1
  exact hnone v

/-- Example: in the unit with imports `pkg` and `a/q`, where `pkg` is used in the
unselected struct `Bar` declared on its own and in a function body and `q` in the
selected struct `Foo`, the filter `Foo` gives the single line of `a/q`. -/
theorem import_outside_selected_groups_dropped_example :
    generateImports (fun m => m) unitMinimal [⟨2, specFooQ⟩] = .ok [lit "\t\"a/q\""] ∧
    ∃ table used lines,
      getPackageNameToPathMap unitMinimal = .ok table ∧
      getPackageNamesUsedInStructFields unitMinimal [⟨2, specFooQ⟩] = .ok used ∧
      generateImports (fun m => m) unitMinimal [⟨2, specFooQ⟩] = .ok lines ∧
      lit "pkg" ∉ used ∧
      (∀ path, renderEntry used (lit "pkg", path) = none) ∧
      lines = ((fun m => m) table).filterMap (renderEntry used) ∧
      lines = importsLoop used []
        (((fun m => m) table).filter (fun e => decide (e.1 ≠ lit "pkg"))) :=
  ⟨by decide!,
    import_outside_selected_groups_dropped (fun m => m) unitMinimal [lit "Foo"]
      [⟨2, specFooQ⟩] (lit "pkg") rfl (by decide) (by decide)
      (by
        intro p hp doc specs h
        simp only [List.mem_singleton] at hp
        subst hp
        have h1 : unitMinimal.decls[2]? = some (.genDecl none [.typeSpec specFooQ]) := rfl
        simp only at h
        rw [h1] at h
        injection h with h
        injection h with h2 h3
        subst h3
        decide)⟩

/-- C1 (code evaluated at the failing input): in the unit
`import "pkg"; type ( Foo struct { Y int }; Bar struct { X pkg.T } )` only `Foo`, the
first spec of the group, is extracted, and no field type of `Foo` has a selector;
the name `pkg` is used only in the unselected struct `Bar` of the same group. The
walk arms on the group of `Foo` and marks `pkg` all the same: `generateImports`
returns the line of `pkg`, and the text written, also without any filter, is the
block with `"pkg"` followed by `func NewFoo(Y int) *Foo`, which never uses the
package. With the same two structs declared each on its own, `pkg` is not marked
and no line is returned. -/
theorem C1_unselected_struct_in_group_marked :
    gerStrutSpecsToProcess unitGroup [lit "Foo"] = .ok [⟨1, specFooInt⟩] ∧
    gerStrutSpecsToProcess unitGroup [] = .ok [⟨1, specFooInt⟩] ∧
    qualifiers specFooInt.type = [] ∧
    getPackageNamesUsedInStructFields unitGroup [⟨1, specFooInt⟩] = .ok [lit "pkg"] ∧
    generateImports (fun m => m) unitGroup [⟨1, specFooInt⟩] = .ok [lit "\t\"pkg\""] ∧
    processFile (fun r => r) printSimple (fun m => m) unitGroup [] =
      .ok (some (lit ("// Code generated by goconstruct. DO NOT EDIT\n\npackage p\n\n" ++
        "import (\n\t\"pkg\"\n)\n\n" ++
        "func NewFoo(Y int) *Foo \x7b\n\ts := Foo\x7b\x7d\n\ts.Y = Y\n\treturn &s\n\x7d\n\n"))) ∧
    getPackageNamesUsedInStructFields unitSeparate [⟨1, specFooInt⟩] = .ok [] ∧
    generateImports (fun m => m) unitSeparate [⟨1, specFooInt⟩] = .ok [] :=
  ⟨rfl, rfl, by decide, by decide!, by decide!, by decide!, by decide!, by decide!⟩

/-- C7 (as amended): for a unit whose declaration groups have specs and whose import
specs are well formed, every selection and every visiting order of the table of
imports, an import declared with the wildcard alias `.` yields the line tab, dot,
space, path literal, provided no later import of the unit has the local name
`.` (the table keeps one entry per local name and a later import overwrites
it). -/
theorem C7_last_wildcard_import_rendered
    (rangeOrder : List (GoString × GoString) → List (GoString × GoString))
    (hperm : ∀ m, (rangeOrder m).Perm m)
    (node : File) (sel : List TypeSpecPtr) (pre post : List ImportSpec) (imp : ImportSpec)
    (hspecs : node.decls.all hasSpecs = true)
    (hwf : (importSpecs node.decls).all wellFormedImport = true)
    (himps : importSpecs node.decls = pre ++ imp :: post)
    (hdot : imp.name = some (lit "."))
    (hlast : ∀ j ∈ post, localName j ≠ .ok (lit ".")) :
    ∃ lines, generateImports rangeOrder node sel = .ok lines ∧
      lit "\t. " ++ imp.path ∈ lines := by
  obtain ⟨table, _, _, ht, hg⟩ := generateImports_eq rangeOrder node sel hspecs hwf
  refine ⟨_, hg, ?_⟩
  have hk : localName imp = .ok (lit ".") := by simp [localName, hdot]
  rw [himps] at ht
  have hmem := addImports_mem_last pre post imp [] table (lit ".") ht hk hlast
  rw [List.mem_filterMap]
  exact ⟨(lit ".", imp.path), (hperm table).mem_iff.2 hmem, by simp [renderEntry]⟩

/-- Witness of C7: the second of two wildcard imports is rendered. -/
theorem C7_last_wildcard_import_rendered_witness :
    ∃ lines, generateImports List.reverse unitTwoDots [⟨2, specBar⟩] = .ok lines ∧
      lit "\t. " ++ lit "\"b\"" ∈ lines :=
  C7_last_wildcard_import_rendered List.reverse (fun m => List.reverse_perm m) unitTwoDots
    [⟨2, specBar⟩] [⟨none, some (lit "."), lit "\"a\"", none⟩] []
    ⟨none, some (lit "."), lit "\"b\"", none⟩ rfl rfl rfl rfl (by simp)

/-- Counterexample to C7 as stated: the unit declares the wildcard imports `a`
and `b`; the output has the line of `b` only, the first wildcard import yields
no line. -/
theorem C7_counterexample_two_wildcards :
    generateImports (fun m => m) unitTwoDots [⟨2, specBar⟩] = .ok [lit "\t. \"b\""] ∧
    lit "\t. \"a\"" ∉ [lit "\t. \"b\""] :=
  ⟨by decide!, by decide⟩

/-- C8 (as amended): for any two orders in which `range` may visit the import
table, `generateImports` fails in the same way or returns the same lines up to
their order (a permutation; the same sequence when there is at most one line);
and the texts `processFile` writes are the same banner, package clause and
constructors around import lines that agree up to their order. The sequence of
lines itself depends on the visiting order. -/
theorem C8_output_determined_up_to_import_order
    (ro1 ro2 : List (GoString × GoString) → List (GoString × GoString))
    (h1 : ∀ m, (ro1 m).Perm m) (h2 : ∀ m, (ro2 m).Perm m)
    (node : File) (sel : List TypeSpecPtr) :
    (∀ e, generateImports ro1 node sel = .error e → generateImports ro2 node sel = .error e) ∧
    (∀ l1, generateImports ro1 node sel = .ok l1 →
      ∃ l2, generateImports ro2 node sel = .ok l2 ∧ l1.Perm l2 ∧ (l1.length ≤ 1 → l2 = l1)) ∧
    (∀ (upperCase : Nat → Nat) (fprint : Node → Option GoString) (typeFilter : List GoString)
      (t1 : GoString),
      processFile upperCase fprint ro1 node typeFilter = .ok (some t1) →
      ∃ constructors l1 l2,
        t1 = fileText node.name l1 constructors ∧
        processFile upperCase fprint ro2 node typeFilter =
          .ok (some (fileText node.name l2 constructors)) ∧
        l1.Perm l2) := by
  have key : ∀ s : List TypeSpecPtr, ∀ l1, generateImports ro1 node s = .ok l1 →
      ∃ l2, generateImports ro2 node s = .ok l2 ∧ l1.Perm l2 := by
    intro s l1 hl
    unfold generateImports at hl ⊢
    cases ht : getPackageNameToPathMap node with
    | error e => simp [ht] at hl
    | ok table =>
      cases hu : getPackageNamesUsedInStructFields node s with
      | error e => simp [ht, hu] at hl
      | ok used =>
        simp only [ht, hu] at hl ⊢
        injection hl with hl
        refine ⟨_, rfl, ?_⟩
        rw [← hl, importsLoop_eq, importsLoop_eq, List.nil_append, List.nil_append]
        exact ((h1 table).trans (h2 table).symm).filterMap _
  refine ⟨?_, ?_, ?_⟩
  · intro e he
    unfold generateImports at he ⊢
    cases ht : getPackageNameToPathMap node with
    | error e1 => simpa [ht] using he
    | ok table =>
      cases hu : getPackageNamesUsedInStructFields node sel with
      | error e1 => simpa [ht, hu] using he
      | ok used => simp [ht, hu] at he
  · intro l1 hl
    obtain ⟨l2, hl2, hp⟩ := key sel l1 hl
    refine ⟨l2, hl2, hp, ?_⟩
    intro hlen
    cases l1 with
    | nil => exact hp.symm.eq_nil
    | cons a rest =>
      cases rest with
      | nil => exact (List.perm_singleton.1 hp.symm)
      | cons b rest => simp at hlen
  · intro upperCase fprint typeFilter t1 ht1
    unfold processFile at ht1 ⊢
    cases hs : gerStrutSpecsToProcess node typeFilter with
    | error e => simp [hs] at ht1
    | ok s =>
      simp only [hs] at ht1 ⊢
      by_cases hl : s.length = 0
      · simp [hl] at ht1
      · rw [if_neg hl] at ht1 ⊢
        cases hc : generateConstructors upperCase fprint s with
        | error e => simp [hc] at ht1
        | ok constructors =>
          simp only [hc] at ht1 ⊢
          cases hi : generateImports ro1 node s with
          | error e => simp [hi] at ht1
          | ok l1 =>
            simp only [hi] at ht1
            injection ht1 with ht1
            injection ht1 with ht1
            obtain ⟨l2, hl2, hp⟩ := key s l1 hi
            exact ⟨constructors, l1, l2, ht1.symm, by simp only [hl2], hp⟩

/-- Witness of C8 on the unit with the imports `a` and `b`, both used, for the
visiting orders "as entered" and "reversed". -/
theorem C8_output_determined_up_to_import_order_witness :
    (∀ e, generateImports (fun m => m) unitTwoImports [⟨2, specFooAB⟩] = .error e →
      generateImports List.reverse unitTwoImports [⟨2, specFooAB⟩] = .error e) ∧
    (∀ l1, generateImports (fun m => m) unitTwoImports [⟨2, specFooAB⟩] = .ok l1 →
      ∃ l2, generateImports List.reverse unitTwoImports [⟨2, specFooAB⟩] = .ok l2 ∧
        l1.Perm l2 ∧ (l1.length ≤ 1 → l2 = l1)) ∧
    (∀ (upperCase : Nat → Nat) (fprint : Node → Option GoString) (typeFilter : List GoString)
      (t1 : GoString),
      processFile upperCase fprint (fun m => m) unitTwoImports typeFilter = .ok (some t1) →
      ∃ constructors l1 l2,
        t1 = fileText unitTwoImports.name l1 constructors ∧
        processFile upperCase fprint List.reverse unitTwoImports typeFilter =
          .ok (some (fileText unitTwoImports.name l2 constructors)) ∧
        l1.Perm l2) :=
  C8_output_determined_up_to_import_order (fun m => m) List.reverse (fun m => List.Perm.refl m)
    (fun m => List.reverse_perm m) unitTwoImports [⟨2, specFooAB⟩]

/-- Counterexample to C8 as stated: on the unit with the imports `a` and `b`,
both used by the selected struct, two visiting orders of the import table give
the two lines in different orders, and the texts written differ. -/
theorem C8_counterexample_order_of_lines :
    generateImports (fun m => m) unitTwoImports [⟨2, specFooAB⟩] =
      .ok [lit "\t\"a\"", lit "\t\"b\""] ∧
    generateImports List.reverse unitTwoImports [⟨2, specFooAB⟩] =
      .ok [lit "\t\"b\"", lit "\t\"a\""] ∧
    processFile (fun r => r) printSimple (fun m => m) unitTwoImports [] ≠
      processFile (fun r => r) printSimple List.reverse unitTwoImports [] :=
  ⟨by decide!, by decide!, by decide!⟩

theorem mem_qualifiersFields (k : GoString) (fields : List Field) (fd : Field)
    (hfd : fd ∈ fields) (hq : k ∈ qualifiers fd.type) : k ∈ qualifiersFields fields := by
  induction fields with
  | nil => simp at hfd
  | cons f rest ih =>
    simp only [qualifiersFields, List.mem_append]
    rcases List.mem_cons.1 hfd with h | h
    · subst h
      left
      cases fd with
      | mk doc names type tag comment => simpa [qualifiersField, Field.type] using hq
    · exact Or.inr (ih h)

theorem mem_used_of_selected_field (node : File) (sel : List TypeSpecPtr) (p : TypeSpecPtr)
    (fields : List Field) (fd : Field) (k : GoString)
    (hext : p ∈ extracted 0 node.decls) (hp : p ∈ sel)
    (hty : p.spec.type = .structType fields) (hfd : fd ∈ fields)
    (hq : k ∈ qualifiers fd.type) :
    k ∈ setAll [] (scopedQualifiers sel 0 node.decls) := by
  rw [mem_setAll, mem_scopedQualifiers]
  right
  obtain ⟨j, d, hj, hf⟩ := (mem_extracted node.decls 0 p).1 hext
  obtain ⟨ha, doc, rest, fs, hd, _⟩ := (firstStructSpec_some _ _ _).1 hf
  refine ⟨j, d, hj, ?_, ?_⟩
  · subst hd
    simp only [armed]
    exact (isSelected_iff _ sel).2 ⟨p, hp, ha⟩
  · subst hd
    simp only [qualifiersDecl, qualifiersSpecs, qualifiersSpec, hty, qualifiers, List.mem_append]
    exact Or.inl (Or.inr (mem_qualifiersFields k fields fd hfd hq))

/-- C2: for a unit whose imports are well formed and have pairwise distinct
local names, a selection produced by `gerStrutSpecsToProcess` and every visiting
order of the import table, a non-wildcard import whose local name `k` occurs as
the identifier qualifier of a selector expression inside a field type of a
selected struct is marked as used, has exactly one entry in the visiting order,
and that entry yields exactly one line, a tab followed by the path literal of
the import: the output is the lines of the entries before it, this line, and
the lines of the entries after it. -/
theorem C2_used_import_rendered_once
    (rangeOrder : List (GoString × GoString) → List (GoString × GoString))
    (hperm : ∀ m, (rangeOrder m).Perm m)
    (node : File) (typeFilter : List GoString) (sel : List TypeSpecPtr)
    (imp : ImportSpec) (k : GoString) (p : TypeSpecPtr) (fields : List Field) (fd : Field)
    (hsel : gerStrutSpecsToProcess node typeFilter = .ok sel)
    (hwf : (importSpecs node.decls).all wellFormedImport = true)
    (hdistinct : ((importSpecs node.decls).map localName).Nodup)
    (himp : imp ∈ importSpecs node.decls) (hk : localName imp = .ok k) (hdot : k ≠ lit ".")
    (hp : p ∈ sel) (hty : p.spec.type = .structType fields) (hfd : fd ∈ fields)
    (hq : k ∈ qualifiers fd.type) :
    ∃ table used lines pre post,
      getPackageNameToPathMap node = .ok table ∧
      getPackageNamesUsedInStructFields node sel = .ok used ∧
      generateImports rangeOrder node sel = .ok lines ∧
      k ∈ used ∧
      rangeOrder table = pre ++ (k, imp.path) :: post ∧
      (∀ e ∈ pre ++ post, e.1 ≠ k) ∧
      lines = importsLoop used [] pre ++ [lit "\t" ++ imp.path] ++ importsLoop used [] post ∧
      lit "\t" ++ imp.path ∈ lines := by
  obtain ⟨hspecs, hext⟩ := gerStrutSpecsToProcess_ok node typeFilter sel hsel
  obtain ⟨table, ht, hnodup, hadd, hg⟩ := generateImports_eq rangeOrder node sel hspecs hwf
  have hused := mem_used_of_selected_field node sel p fields fd k (hext p hp) hp hty hfd hq
  -- the entry of the import is in the table
  obtain ⟨a, b, hab⟩ := List.append_of_mem himp
  have hlast : ∀ j ∈ b, localName j ≠ .ok k := by
    intro j hj hjk
    rw [hab, List.map_append, List.map_cons] at hdistinct
    have h1 := (List.nodup_cons.1 (List.nodup_append.1 hdistinct).2.1).1
    apply h1
    rw [hk, ← hjk]
    exact List.mem_map_of_mem _ hj
  rw [hab] at hadd
  have hmem := addImports_mem_last a b imp [] table k hadd hk hlast
  -- its place in the visiting order
  obtain ⟨pre, post, hsplit⟩ := List.append_of_mem ((hperm table).mem_iff.2 hmem)
  have hkeys : ((rangeOrder table).map Prod.fst).Nodup :=
    ((hperm table).map Prod.fst).nodup_iff.2 hnodup
  have hothers : ∀ e ∈ pre ++ post, e.1 ≠ k := by
    intro e he hek
    rw [hsplit, List.map_append, List.map_cons] at hkeys
    have h1 := (List.nodup_cons.1 (List.nodup_middle.1 hkeys)).1
    have h2 : e.1 ∈ (pre ++ post).map Prod.fst := List.mem_map_of_mem _ he
    rw [hek, List.map_append] at h2
    exact h1 h2
  have hline : renderEntry (setAll [] (scopedQualifiers sel 0 node.decls)) (k, imp.path) =
      some (lit "\t" ++ imp.path) := by
    simp [renderEntry, hdot, hused]
  have hlines : (rangeOrder table).filterMap
      (renderEntry (setAll [] (scopedQualifiers sel 0 node.decls))) =
      importsLoop (setAll [] (scopedQualifiers sel 0 node.decls)) [] pre ++
        [lit "\t" ++ imp.path] ++
        importsLoop (setAll [] (scopedQualifiers sel 0 node.decls)) [] post := by
    rw [hsplit, importsLoop_eq, importsLoop_eq, List.filterMap_append, List.filterMap_cons,
      hline]
    simp
  refine ⟨table, _, _, pre, post, ht, getPackageNamesUsedInStructFields_eq node sel hspecs, hg,
    hused, hsplit, hothers, hlines, ?_⟩
  rw [hlines]
  simp

/-- Witness of C2: the import `a` of the unit with the imports `a` and `b`, used
in the field `X a.T` of the selected struct. -/
theorem C2_used_import_rendered_once_witness :
    generateImports List.reverse unitTwoImports [⟨2, specFooAB⟩] =
      .ok [lit "\t\"b\"", lit "\t\"a\""] ∧
    ∃ table used lines pre post,
      getPackageNameToPathMap unitTwoImports = .ok table ∧
      getPackageNamesUsedInStructFields unitTwoImports [⟨2, specFooAB⟩] = .ok used ∧
      generateImports List.reverse unitTwoImports [⟨2, specFooAB⟩] = .ok lines ∧
      lit "a" ∈ used ∧
      List.reverse table = pre ++ (lit "a", lit "\"a\"") :: post ∧
      (∀ e ∈ pre ++ post, e.1 ≠ lit "a") ∧
      lines = importsLoop used [] pre ++ [lit "\t" ++ lit "\"a\""] ++ importsLoop used [] post ∧
      lit "\t" ++ lit "\"a\"" ∈ lines :=
  ⟨by decide!,
    C2_used_import_rendered_once List.reverse (fun m => List.reverse_perm m) unitTwoImports []
      [⟨2, specFooAB⟩] ⟨none, none, lit "\"a\"", none⟩ (lit "a") ⟨2, specFooAB⟩
      [qualifiedField (lit "X") (lit "a"), qualifiedField (lit "Y") (lit "b")]
      (qualifiedField (lit "X") (lit "a")) rfl (by decide) (by decide)
      (List.mem_cons_self _ _) (by decide) (by decide) (List.mem_singleton.2 rfl) rfl
      (List.mem_cons_self _ _) (by decide)⟩

/-! ## Failure on a group without specs (C11) -/

/-- C11 (code evaluated at the failing input): on the unit
`package p; var (); type Foo struct { X pkg.T; Y int }` the expression
`genDecl.Specs[0]` is out of range: `getStructTypeSpec` and
`getPackageNamesUsedInStructFields` stop with an index-out-of-range failure
instead of skipping the group, and so does `processFile`. -/
theorem C11_group_without_specs_panics :
    getStructTypeSpec unitEmptyGroup = .error .indexOutOfRange ∧
    getPackageNamesUsedInStructFields unitEmptyGroup [] = .error .indexOutOfRange ∧
    getPackageNamesUsedInStructFields unitEmptyGroup [⟨1, specFoo⟩] = .error .indexOutOfRange ∧
    processFile (fun r => r) printSimple (fun m => m) unitEmptyGroup [] =
      .error .indexOutOfRange :=
  ⟨rfl, by decide!, by decide!, by decide!⟩

/-! ## One constructor per struct (C12) -/

theorem generateConstructorsLoop_acc (upperCase : Nat → Nat) (fprint : Node → Option GoString)
    (xs : List TypeSpecPtr) :
    ∀ acc : List GoString, generateConstructorsLoop upperCase fprint acc xs =
      match generateConstructorsLoop upperCase fprint [] xs with
      | .error e => .error e
      | .ok cs => .ok (acc ++ cs) := by
  induction xs with
  | nil => intro acc; simp [generateConstructorsLoop]
  | cons x rest ih =>
    intro acc
    simp only [generateConstructorsLoop, List.nil_append]
    cases generateConstructor upperCase fprint x with
    | error e => rfl
    | ok c =>
      simp only
      rw [ih (acc ++ [c]), ih [c]]
      cases generateConstructorsLoop upperCase fprint [] rest with
      | error e => rfl
      | ok cs => simp

theorem generateConstructors_cons (upperCase : Nat → Nat) (fprint : Node → Option GoString)
    (x : TypeSpecPtr) (rest : List TypeSpecPtr) :
    generateConstructors upperCase fprint (x :: rest) =
      match generateConstructors upperCase fprint [x] with
      | .error e => .error e
      | .ok cs =>
        match generateConstructors upperCase fprint rest with
        | .error e => .error e
        | .ok ds => .ok (cs ++ ds) := by
  simp only [generateConstructors, generateConstructorsLoop, List.nil_append]
  cases generateConstructor upperCase fprint x with
  | error e => rfl
  | ok c =>
    simp only
    rw [generateConstructorsLoop_acc]

theorem generateConstructors_append (upperCase : Nat → Nat) (fprint : Node → Option GoString)
    (xs ys : List TypeSpecPtr) :
    generateConstructors upperCase fprint (xs ++ ys) =
      match generateConstructors upperCase fprint xs with
      | .error e => .error e
      | .ok cs =>
        match generateConstructors upperCase fprint ys with
        | .error e => .error e
        | .ok ds => .ok (cs ++ ds) := by
  induction xs with
  | nil =>
    have h : generateConstructors upperCase fprint [] = .ok [] := rfl
    simp only [List.nil_append, h]
    cases generateConstructors upperCase fprint ys <;> rfl
  | cons x rest ih =>
    rw [List.cons_append, generateConstructors_cons, ih, generateConstructors_cons upperCase fprint x rest]
    cases generateConstructors upperCase fprint [x] with
    | error e => rfl
    | ok cs =>
      simp only
      cases generateConstructors upperCase fprint rest with
      | error e => rfl
      | ok ds =>
        simp only
        cases generateConstructors upperCase fprint ys with
        | error e => rfl
        | ok es => simp

theorem generateConstructors_single_ok (upperCase : Nat → Nat) (fprint : Node → Option GoString)
    (p : TypeSpecPtr) (fields : List Field) (hname : p.spec.name ≠ [])
    (hty : p.spec.type = .structType fields)
    (hprint : ∀ fd ∈ fields, (fprint fd.type).isSome = true) :
    ∃ c, generateConstructors upperCase fprint [p] = .ok [c] ∧
      ∃ pre, c = pre ++ lit "\x7d\n" := by
  cases hn : p.spec.name with
  | nil => exact absurd hn hname
  | cons b rest =>
    obtain ⟨u, us, _, hf⟩ := functionName_cons upperCase b rest
    rw [← hn] at hf
    refine ⟨_, generateConstructors_single upperCase fprint p fields _ hty hprint hf, ?_⟩
    have h1 : lit "\n\x7d\n" = lit "\n" ++ lit "\x7d\n" := rfl
    rw [h1, ← List.append_assoc]
    exact ⟨_, rfl⟩

theorem writeConstructors_eq (cs : List GoString) :
    writeConstructors cs = cs.flatMap (fun c => c ++ lit "\n") := by
  induction cs with
  | nil => rfl
  | cons c rest ih => simp [writeConstructors, ih, List.flatMap_cons]

/-- C12: for a sequence of selected structs with non-empty names (struct types
whose field types can be printed), `generateConstructors` returns a list of the
same length whose i-th text is what `generateConstructors` returns for the i-th
struct alone; the function distributes over concatenation of sequences; each
text ends with a closing brace and a newline; and `processFile` writes each text
followed by one more newline, in the order of the sequence. -/
theorem C12_one_constructor_per_struct (upperCase : Nat → Nat)
    (fprint : Node → Option GoString) (xs : List TypeSpecPtr)
    (hok : ∀ p ∈ xs, p.spec.name ≠ [] ∧ ∃ fields, p.spec.type = .structType fields ∧
      ∀ fd ∈ fields, (fprint fd.type).isSome = true) :
    ∃ cs, generateConstructors upperCase fprint xs = .ok cs ∧
      List.Forall₂ (fun p c => generateConstructors upperCase fprint [p] = .ok [c]) xs cs ∧
      cs.length = xs.length ∧
      (∀ c ∈ cs, ∃ pre, c = pre ++ lit "\x7d\n") ∧
      (∀ ys : List TypeSpecPtr, generateConstructors upperCase fprint (xs ++ ys) =
        match generateConstructors upperCase fprint ys with
        | .error e => .error e
        | .ok ds => .ok (cs ++ ds)) ∧
      writeConstructors cs = cs.flatMap (fun c => c ++ lit "\n") := by
  have main : ∃ cs, generateConstructors upperCase fprint xs = .ok cs ∧
      List.Forall₂ (fun p c => generateConstructors upperCase fprint [p] = .ok [c]) xs cs ∧
      (∀ c ∈ cs, ∃ pre, c = pre ++ lit "\x7d\n") := by
    induction xs with
    | nil => exact ⟨[], rfl, List.Forall₂.nil, by simp⟩
    | cons x rest ih =>
      obtain ⟨hx, fields, hty, hprint⟩ := hok x (List.mem_cons_self _ _)
      obtain ⟨c, hc, hend⟩ := generateConstructors_single_ok upperCase fprint x fields hx hty hprint
      obtain ⟨cs, hcs, hall, hends⟩ := ih (fun p hp => hok p (List.mem_cons_of_mem _ hp))
      refine ⟨c :: cs, ?_, List.Forall₂.cons hc hall, ?_⟩
      · rw [generateConstructors_cons, hc, hcs]
        rfl
      · intro d hd
        rcases List.mem_cons.1 hd with h | h
        · subst h; exact hend
        · exact hends d h
  obtain ⟨cs, hcs, hall, hends⟩ := main
  refine ⟨cs, hcs, hall, hall.length_eq.symm, hends, ?_, writeConstructors_eq cs⟩
  intro ys
  rw [generateConstructors_append, hcs]

/-- Witness of C12 on the structs `Foo` and `Bar`. -/
theorem C12_one_constructor_per_struct_witness :
    generateConstructors (fun r => r) printSimple [⟨1, specFoo⟩, ⟨2, specBar⟩] =
      .ok [lit "func NewFoo(X pkg.T,Y int) *Foo \x7b\n\ts := Foo\x7b\x7d\n\ts.X = X\n\ts.Y = Y\n\treturn &s\n\x7d\n",
        lit "func NewBar(Z int) *Bar \x7b\n\ts := Bar\x7b\x7d\n\ts.Z = Z\n\treturn &s\n\x7d\n"] ∧
    ∃ cs, generateConstructors (fun r => r) printSimple [⟨1, specFoo⟩, ⟨2, specBar⟩] = .ok cs ∧
      List.Forall₂ (fun p c => generateConstructors (fun r => r) printSimple [p] = .ok [c])
        [⟨1, specFoo⟩, ⟨2, specBar⟩] cs ∧
      cs.length = [(⟨1, specFoo⟩ : TypeSpecPtr), ⟨2, specBar⟩].length ∧
      (∀ c ∈ cs, ∃ pre, c = pre ++ lit "\x7d\n") ∧
      (∀ ys : List TypeSpecPtr,
        generateConstructors (fun r => r) printSimple ([⟨1, specFoo⟩, ⟨2, specBar⟩] ++ ys) =
          match generateConstructors (fun r => r) printSimple ys with
          | .error e => .error e
          | .ok ds => .ok (cs ++ ds)) ∧
      writeConstructors cs = cs.flatMap (fun c => c ++ lit "\n") :=
  ⟨by decide!,
    C12_one_constructor_per_struct (fun r => r) printSimple [⟨1, specFoo⟩, ⟨2, specBar⟩]
      (by
        intro p hp
        simp only [List.mem_cons, List.mem_singleton, List.not_mem_nil, or_false] at hp
        rcases hp with h | h <;> subst h
        · refine ⟨by decide, _, rfl, ?_⟩
          intro fd hfd
          simp only [List.mem_cons, List.mem_singleton, List.not_mem_nil, or_false] at hfd
          rcases hfd with h | h <;> subst h <;> rfl
        · refine ⟨by decide, _, rfl, ?_⟩
          intro fd hfd
          simp only [List.mem_singleton] at hfd
          subst hfd; rfl)⟩

/-! ## Prefix rule (C13) -/

/-- C13: for a struct whose name starts with an ASCII byte `c` (in particular for
every non-empty ASCII name), the first byte of the upper-cased name is the upper
case of `c`; it equals `c` exactly when `c` is not a lower-case letter (so for
an upper-case letter, a digit or an underscore); the generated function name is
`New` in that case and `new` otherwise, followed by the struct name with its
first byte upper-cased and the rest unchanged; and the return type and the
instance literal of the generated text carry the struct name unchanged. -/
theorem C13_prefix_rule (upperCase : Nat → Nat) (fprint : Node → Option GoString)
    (p : TypeSpecPtr) (fields : List Field) (c : Nat) (rest : GoString)
    (hn : p.spec.name = c :: rest) (hascii : c < 0x80)
    (hty : p.spec.type = .structType fields)
    (hprint : ∀ fd ∈ fields, (fprint fd.type).isSome = true) :
    (∃ us, toUpper upperCase (c :: rest) = asciiUpper c :: us) ∧
    (asciiUpper c = c ↔ ¬ (0x61 ≤ c ∧ c ≤ 0x7A)) ∧
    functionName upperCase p.spec.name =
      .ok ((if asciiUpper c = c then lit "New" else lit "new") ++ asciiUpper c :: rest) ∧
    generateConstructors upperCase fprint [p] =
      .ok [lit "func " ++ ((if asciiUpper c = c then lit "New" else lit "new") ++
          asciiUpper c :: rest) ++ lit "(" ++ join (lit ",") (expectedArgs fprint fields) ++
        lit ") *" ++ (c :: rest) ++ lit " \x7b\n" ++
        join (lit "\n") ([lit "\ts := " ++ (c :: rest) ++ lit "\x7b\x7d"] ++
          expectedAssignments fields ++ [lit "\treturn &s"]) ++ lit "\n\x7d\n"] := by
  obtain ⟨us, hu⟩ := toUpper_cons_ascii upperCase c rest hascii
  have hiff : asciiUpper c = c ↔ ¬ (0x61 ≤ c ∧ c ≤ 0x7A) := by
    unfold asciiUpper
    constructor
    · intro h hl
      rw [if_pos hl] at h
      omega
    · intro h
      rw [if_neg h]
  have hf : functionName upperCase p.spec.name =
      .ok ((if asciiUpper c = c then lit "New" else lit "new") ++ asciiUpper c :: rest) := by
    rw [hn]
    simp only [functionName, exported, constructorStructName, hu, byteAt0, slice01, sliceFrom1,
      bind, Except.bind, pure, Except.pure, functionPrefix]
    by_cases h : asciiUpper c = c
    · have h1 : c = asciiUpper c := h.symm
      simp [h, ← h1]
    · have h1 : ¬ c = asciiUpper c := fun h2 => h h2.symm
      simp [h, h1]
  refine ⟨⟨us, hu⟩, hiff, hf, ?_⟩
  rw [generateConstructors_single upperCase fprint p fields _ hty hprint hf, hn]
  rfl

/-- Witness of C13: the struct `_foo` gets `New_foo` and the struct `foo` gets
`newFoo`; return type and instance literal keep the struct name. -/
theorem C13_prefix_rule_witness :
    (generateConstructors (fun r => r) printSimple [⟨0, specUnderscore⟩] =
      .ok [lit "func New_foo(X pkg.T) *_foo \x7b\n\ts := _foo\x7b\x7d\n\ts.X = X\n\treturn &s\n\x7d\n"] ∧
     generateConstructors (fun r => r) printSimple [⟨0, specLowerFoo⟩] =
      .ok [lit "func newFoo(X pkg.T) *foo \x7b\n\ts := foo\x7b\x7d\n\ts.X = X\n\treturn &s\n\x7d\n"]) ∧
    ((∃ us, toUpper (fun r => r) (0x5F :: lit "foo") = asciiUpper 0x5F :: us) ∧
    (asciiUpper 0x5F = 0x5F ↔ ¬ (0x61 ≤ 0x5F ∧ 0x5F ≤ 0x7A)) ∧
    functionName (fun r => r) specUnderscore.name =
      .ok ((if asciiUpper 0x5F = 0x5F then lit "New" else lit "new") ++
        asciiUpper 0x5F :: lit "foo") ∧
    generateConstructors (fun r => r) printSimple [⟨0, specUnderscore⟩] =
      .ok [lit "func " ++ ((if asciiUpper 0x5F = 0x5F then lit "New" else lit "new") ++
          asciiUpper 0x5F :: lit "foo") ++ lit "(" ++
        join (lit ",") (expectedArgs printSimple [qualifiedField (lit "X") (lit "pkg")]) ++
        lit ") *" ++ (0x5F :: lit "foo") ++ lit " \x7b\n" ++
        join (lit "\n") ([lit "\ts := " ++ (0x5F :: lit "foo") ++ lit "\x7b\x7d"] ++
          expectedAssignments [qualifiedField (lit "X") (lit "pkg")] ++ [lit "\treturn &s"]) ++
        lit "\n\x7d\n"]) :=
  ⟨⟨by decide!, by decide!⟩,
    C13_prefix_rule (fun r => r) printSimple ⟨0, specUnderscore⟩
      [qualifiedField (lit "X") (lit "pkg")] 0x5F (lit "foo") rfl (by omega) rfl
      (by
        intro fd hfd
        simp only [List.mem_singleton] at hfd
        subst hfd; rfl)⟩

/-! ## The import table (C14) -/

theorem split_of_not_mem (sep : Nat) (s : GoString) (h : sep ∉ s) : split sep s = [s] := by
  induction s with
  | nil => rfl
  | cons c cs ih =>
    have h1 : ¬ c = sep := fun hc => h (by simp [hc])
    have h2 : sep ∉ cs := fun hc => h (List.mem_cons_of_mem _ hc)
    simp [split, h1, ih h2]

theorem split_of_mem (sep : Nat) (s : GoString) (h : sep ∈ s) :
    ∃ a b t, split sep s = a :: b :: t := by
  induction s with
  | nil => simp at h
  | cons c cs ih =>
    by_cases hc : c = sep
    · cases hs : split sep cs with
      | nil => exact absurd hs (split_ne_nil sep cs)
      | cons b t => exact ⟨[], b, t, by simp [split, hc, hs]⟩
    · have h2 : sep ∈ cs := by
        rcases List.mem_cons.1 h with h3 | h3
        · exact absurd h3.symm hc
        · exact h3
      obtain ⟨a, b, t, hs⟩ := ih h2
      exact ⟨c :: a, b, t, by simp [split, hc, hs]⟩

theorem afterLastSlash_of_not_mem (s : GoString) (h : 0x2F ∉ s) : afterLastSlash s = s := by
  cases s with
  | nil => rfl
  | cons c cs =>
    have h1 : ¬ c = 0x2F := fun hc => h (by simp [hc])
    have h2 : 0x2F ∉ cs := fun hc => h (List.mem_cons_of_mem _ hc)
    simp [afterLastSlash, h1, h2]

theorem lastElem_split (s : GoString) : lastElem (split 0x2F s) = .ok (afterLastSlash s) := by
  induction s with
  | nil => rfl
  | cons c cs ih =>
    by_cases hm : 0x2F ∈ cs
    · obtain ⟨a, b, t, hs⟩ := split_of_mem 0x2F cs hm
      have h1 : afterLastSlash (c :: cs) = afterLastSlash cs := by
        simp [afterLastSlash, hm]
      rw [h1, ← ih, hs]
      by_cases hc : c = 0x2F
      · simp [split, hc, hs, lastElem]
      · simp [split, hc, hs, lastElem]
    · rw [afterLastSlash_of_not_mem cs hm] at ih
      by_cases hc : c = 0x2F
      · have h1 : afterLastSlash (c :: cs) = cs := by simp [afterLastSlash, hm, hc]
        rw [h1, ← ih]
        cases hs : split 0x2F cs with
        | nil => exact absurd hs (split_ne_nil _ cs)
        | cons b t => simp [split, hc, hs, lastElem]
      · have h1 : afterLastSlash (c :: cs) = c :: cs := by simp [afterLastSlash, hm, hc]
        rw [h1, split_of_not_mem 0x2F cs hm] at *
        simp [split, hc, split_of_not_mem 0x2F cs hm, lastElem]

theorem sliceInner_eq (s : GoString) (h : 2 ≤ s.length) : sliceInner s = .ok (unquote s) := by
  have h1 : ¬ s.length < 2 := by omega
  simp only [sliceInner, if_neg h1, unquote, List.dropLast_eq_take, List.length_drop]
  rfl

theorem localName_eq (imp : ImportSpec) (h : wellFormedImport imp = true) :
    localName imp = .ok (specLocalName imp) := by
  unfold localName specLocalName
  cases hn : imp.name with
  | some name => rfl
  | none =>
    have h2 : 2 ≤ imp.path.length := by simpa [wellFormedImport, hn] using h
    simp only [sliceInner_eq imp.path h2, lastElem_split]

theorem mem_mapSet_iff (m : List (GoString × GoString)) (n p k v : GoString)
    (hm : (m.map Prod.fst).Nodup) :
    (k, v) ∈ mapSet m n p ↔ (k = n ∧ v = p) ∨ (k ≠ n ∧ (k, v) ∈ m) := by
  induction m with
  | nil => simp [mapSet]
  | cons e rest ih =>
    obtain ⟨k1, v1⟩ := e
    simp only [List.map_cons, List.nodup_cons] at hm
    obtain ⟨hk1, hrest⟩ := hm
    by_cases h1 : k1 = n
    · subst h1
      simp only [mapSet, if_true, List.mem_cons, Prod.mk.injEq]
      constructor
      · rintro (h | h)
        · exact Or.inl h
        · right
          refine ⟨?_, Or.inr h⟩
          intro hk
          subst hk
          exact hk1 (List.mem_map_of_mem Prod.fst h)
      · rintro (h | ⟨hne, h | h⟩)
        · exact Or.inl h
        · exact absurd h.1 hne
        · exact Or.inr h
    · simp only [mapSet, if_neg h1, List.mem_cons, Prod.mk.injEq, ih hrest]
      constructor
      · rintro (⟨rfl, rfl⟩ | h | ⟨hne, h⟩)
        · exact Or.inr ⟨h1, Or.inl ⟨rfl, rfl⟩⟩
        · exact Or.inl h
        · exact Or.inr ⟨hne, Or.inr h⟩
      · rintro (h | ⟨hne, h | h⟩)
        · exact Or.inr (Or.inl h)
        · exact Or.inl h
        · exact Or.inr (Or.inr ⟨hne, h⟩)

theorem mem_addImports (imps : List ImportSpec) :
    ∀ m t : List (GoString × GoString), (m.map Prod.fst).Nodup →
      imps.all wellFormedImport = true → addImports m imps = .ok t →
      ∀ k v : GoString, (k, v) ∈ t ↔
        (∃ pre imp post, imps = pre ++ imp :: post ∧ specLocalName imp = k ∧ imp.path = v ∧
          ∀ j ∈ post, specLocalName j ≠ k) ∨
        ((k, v) ∈ m ∧ ∀ j ∈ imps, specLocalName j ≠ k) := by
  induction imps with
  | nil =>
    intro m t _ _ ht k v
    simp only [addImports] at ht
    injection ht with ht
    subst ht
    simp
  | cons imp rest ih =>
    intro m t hm hwf ht k v
    simp only [List.all_cons, Bool.and_eq_true] at hwf
    simp only [addImports, localName_eq imp hwf.1] at ht
    rw [ih _ t (nodup_keys_mapSet m _ imp.path hm) hwf.2 ht k v, mem_mapSet_iff _ _ _ _ _ hm]
    constructor
    · rintro (⟨pre, i, post, hsplit, hk, hv, hlast⟩ | ⟨h | h, hnone⟩)
      · exact Or.inl ⟨imp :: pre, i, post, by rw [hsplit]; rfl, hk, hv, hlast⟩
      · exact Or.inl ⟨[], imp, rest, rfl, h.1.symm, h.2.symm, hnone⟩
      · right
        refine ⟨h.2, ?_⟩
        intro j hj
        rcases List.mem_cons.1 hj with hj1 | hj1
        · subst hj1
          exact fun hc => h.1 hc.symm
        · exact hnone j hj1
    · rintro (⟨pre, i, post, hsplit, hk, hv, hlast⟩ | ⟨hmem, hnone⟩)
      · cases pre with
        | nil =>
          simp only [List.nil_append, List.cons.injEq] at hsplit
          obtain ⟨h1, h2⟩ := hsplit
          subst h1
          subst h2
          exact Or.inr ⟨Or.inl ⟨hk.symm, hv.symm⟩, hlast⟩
        | cons a pre =>
          simp only [List.cons_append, List.cons.injEq] at hsplit
          exact Or.inl ⟨pre, i, post, hsplit.2, hk, hv, hlast⟩
      · right
        refine ⟨Or.inr ⟨fun hc => hnone imp (List.mem_cons_self _ _) hc.symm, hmem⟩, ?_⟩
        exact fun j hj => hnone j (List.mem_cons_of_mem _ hj)

theorem exists_last_with_name (imps : List ImportSpec) (k : GoString) :
    (∃ imp ∈ imps, specLocalName imp = k) →
      ∃ pre imp post, imps = pre ++ imp :: post ∧ specLocalName imp = k ∧
        ∀ j ∈ post, specLocalName j ≠ k := by
  induction imps with
  | nil => rintro ⟨imp, h, _⟩; simp at h
  | cons i rest ih =>
    rintro ⟨imp, himp, hk⟩
    by_cases hr : ∃ j ∈ rest, specLocalName j = k
    · obtain ⟨pre, j, post, hsplit, hj, hlast⟩ := ih hr
      exact ⟨i :: pre, j, post, by rw [hsplit]; rfl, hj, hlast⟩
    · rcases List.mem_cons.1 himp with h | h
      · subst h
        exact ⟨[], imp, rest, rfl, hk, fun j hj hc => hr ⟨j, hj, hc⟩⟩
      · exact absurd ⟨imp, h, hk⟩ hr

/-- C14: for a unit whose import specs are well formed, `getPackageNameToPathMap`
returns a table with one entry per key in which a local name `k` is mapped to the
path literal `v` exactly when the last import spec of the unit, in source order,
whose local name is `k` has the path literal `v`; so a key is in the table
exactly when some import spec has that local name, and a later import
overwrites an earlier one with the same local name. The local name is the
explicit alias when present and otherwise the text after the last slash of the
unquoted path (the whole path when it has no slash). -/
theorem C14_import_table (node : File)
    (hwf : (importSpecs node.decls).all wellFormedImport = true) :
    ∃ table, getPackageNameToPathMap node = .ok table ∧
      (table.map Prod.fst).Nodup ∧
      (∀ k v : GoString, (k, v) ∈ table ↔
        ∃ pre imp post, importSpecs node.decls = pre ++ imp :: post ∧
          specLocalName imp = k ∧ imp.path = v ∧ ∀ j ∈ post, specLocalName j ≠ k) ∧
      (∀ k : GoString, (∃ v, (k, v) ∈ table) ↔
        ∃ imp ∈ importSpecs node.decls, specLocalName imp = k) := by
  obtain ⟨table, ht⟩ := addImports_ok (importSpecs node.decls) [] hwf
  have hmem : ∀ k v : GoString, (k, v) ∈ table ↔
      ∃ pre imp post, importSpecs node.decls = pre ++ imp :: post ∧
        specLocalName imp = k ∧ imp.path = v ∧ ∀ j ∈ post, specLocalName j ≠ k := by
    intro k v
    rw [mem_addImports _ [] table (by simp) hwf ht k v]
    simp
  refine ⟨table, by rw [getPackageNameToPathMap_eq, ht],
    addImports_nodup _ [] table (by simp) ht, hmem, ?_⟩
  intro k
  constructor
  · rintro ⟨v, hv⟩
    obtain ⟨pre, imp, post, hsplit, hk, _, _⟩ := (hmem k v).1 hv
    exact ⟨imp, by rw [hsplit]; simp, hk⟩
  · intro h
    obtain ⟨pre, imp, post, hsplit, hk, hlast⟩ := exists_last_with_name _ k h
    exact ⟨imp.path, (hmem k imp.path).2 ⟨pre, imp, post, hsplit, hk, rfl, hlast⟩⟩

/-- Witness of C14: in the unit with the imports `"a/q"`, `x "y"`, `"b/q"` and
`x "z/"` the table maps `q` to `"b/q"` and `x` to `"z/"`. -/
theorem C14_import_table_witness :
    getPackageNameToPathMap unitOverwrite =
      .ok [(lit "q", lit "\"b/q\""), (lit "x", lit "\"z/\"")] ∧
    (specLocalName ⟨none, none, lit "\"a/b/q\"", none⟩ = lit "q" ∧
      specLocalName ⟨none, none, lit "\"fmt\"", none⟩ = lit "fmt" ∧
      specLocalName ⟨none, some (lit "x"), lit "\"z/\"", none⟩ = lit "x") ∧
    ∃ table, getPackageNameToPathMap unitOverwrite = .ok table ∧
      (table.map Prod.fst).Nodup ∧
      (∀ k v : GoString, (k, v) ∈ table ↔
        ∃ pre imp post, importSpecs unitOverwrite.decls = pre ++ imp :: post ∧
          specLocalName imp = k ∧ imp.path = v ∧ ∀ j ∈ post, specLocalName j ≠ k) ∧
      (∀ k : GoString, (∃ v, (k, v) ∈ table) ↔
        ∃ imp ∈ importSpecs unitOverwrite.decls, specLocalName imp = k) :=
  ⟨by decide!, ⟨by decide, by decide, by decide⟩, C14_import_table unitOverwrite (by decide)⟩

/-! ## Generated names (C16, C17) -/

/-- C16 (code evaluated at the failing input): for `type Foo struct { s int }` the
argument of the generated constructor is named `s`, the same name as the local
variable of the body `s := Foo{}`; the assignment reads `s.s = s`. -/
theorem C16_field_named_s_collides :
    argsAndBody printSimple (lit "Foo") [.mk none [lit "s"] (.ident (lit "int")) none none] =
      .ok ([lit "s" ++ lit " " ++ lit "int"],
        [lit "\ts := Foo\x7b\x7d", lit "\ts." ++ lit "s" ++ lit " = " ++ lit "s",
          lit "\treturn &s"]) ∧
    generateConstructors (fun r => r) printSimple [⟨0, specFieldS⟩] =
      .ok [lit "func NewFoo(s int) *Foo \x7b\n\ts := Foo\x7b\x7d\n\ts.s = s\n\treturn &s\n\x7d\n"] :=
  ⟨by decide!, by decide!⟩

/-- C17 (code evaluated at the failing input): for the unit
`import foo "example.com/bar"; type Foo struct { X foo.T }` the rendered import
line is a tab and the path literal, without the alias `foo` under which the
constructor refers to the package. -/
theorem C17_alias_not_rendered :
    getPackageNameToPathMap unitAlias = .ok [(lit "foo", lit "\"example.com/bar\"")] ∧
    generateImports (fun m => m) unitAlias [⟨1, specFooAlias⟩] =
      .ok [lit "\t\"example.com/bar\""] ∧
    processFile (fun r => r) printSimple (fun m => m) unitAlias [] =
      .ok (some (lit ("// Code generated by goconstruct. DO NOT EDIT\n\npackage p\n\n" ++
        "import (\n\t\"example.com/bar\"\n)\n\n" ++
        "func NewFoo(X foo.T) *Foo \x7b\n\ts := Foo\x7b\x7d\n\ts.X = X\n\treturn &s\n\x7d\n\n"))) :=
  ⟨by decide!, by decide!, by decide!⟩

/-! ## The filter as a set (C18) -/

theorem filter_by_own_names (xs : List TypeSpecPtr) (P : GoString → Bool) :
    xs.filter (fun s => decide (s.spec.name ∈
        (xs.filter (fun s => P s.spec.name)).map (fun p => p.spec.name))) =
      xs.filter (fun s => P s.spec.name) := by
  apply List.filter_congr
  intro x hx
  cases hP : P x.spec.name with
  | true =>
    simp only [decide_eq_true_eq, List.mem_map, List.mem_filter]
    exact ⟨x, ⟨hx, hP⟩, rfl⟩
  | false =>
    simp only [decide_eq_false_iff_not, List.mem_map, List.mem_filter]
    rintro ⟨y, ⟨_, hy⟩, hxy⟩
    rw [hxy, hP] at hy
    exact absurd hy (by simp)

/-- C18 (as amended): with the extracted sequence `xs` of a unit, two non-empty
filter lists with the same set of entries give the same result; the structs
returned have pairwise distinct addresses, so no declaration is returned more
than once; and when at least one struct is returned, the names of the returned
structs used again as a filter return the same sequence. -/
theorem C18_filter_is_a_set (node : File) (xs : List TypeSpecPtr)
    (h : getStructTypeSpec node = .ok xs) :
    (∀ F G : List GoString, F ≠ [] → G ≠ [] → (∀ e, e ∈ F ↔ e ∈ G) →
      gerStrutSpecsToProcess node F = gerStrutSpecsToProcess node G) ∧
    (∀ (F : List GoString) (res : List TypeSpecPtr), gerStrutSpecsToProcess node F = .ok res →
      (res.map (fun p => p.addr)).Nodup) ∧
    (∀ (F : List GoString) (res : List TypeSpecPtr), gerStrutSpecsToProcess node F = .ok res →
      res ≠ [] →
      gerStrutSpecsToProcess node (res.map (fun p => p.spec.name)) = .ok res) := by
  refine ⟨?_, ?_, ?_⟩
  · intro F G hF hG hFG
    rw [gerStrutSpecsToProcess_eq node F xs h, gerStrutSpecsToProcess_eq node G xs h,
      if_neg hF, if_neg hG]
    congr 1
    apply List.filter_congr
    intro x _
    simp [hFG]
  · intro F res hres
    rw [gerStrutSpecsToProcess_eq node F xs h] at hres
    injection hres with hres
    have hsorted : (xs.map (fun p => p.addr)).Pairwise (fun a b => a < b) := by
      rw [(getStructTypeSpec_ok node xs h).2]
      exact extracted_addr_sorted _ 0
    have hsub : (res.map (fun p => p.addr)).Sublist (xs.map (fun p => p.addr)) := by
      rw [← hres]
      split
      · exact List.Sublist.refl _
      · exact (List.filter_sublist _).map _
    exact (hsorted.sublist hsub).imp (fun hab => Nat.ne_of_lt hab)
  · intro F res hres hne
    rw [gerStrutSpecsToProcess_eq node F xs h] at hres
    injection hres with hres
    have hne2 : res.map (fun p => p.spec.name) ≠ [] := by
      simpa using hne
    rw [gerStrutSpecsToProcess_eq node _ xs h, if_neg hne2]
    congr 1
    by_cases hF : F = []
    · rw [if_pos hF] at hres
      subst hres
      rw [List.filter_eq_self]
      intro x hx
      simp only [decide_eq_true_eq, List.mem_map]
      exact ⟨x, hx, rfl⟩
    · rw [if_neg hF] at hres
      rw [← hres]
      exact filter_by_own_names xs (fun n => decide (n ∈ F))

/-- Witness of C18 on the unit declaring `Foo` and `Bar`: the filters `Foo, Bar, Foo`
and `Bar, Foo` return the same sequence. -/
theorem C18_filter_is_a_set_witness :
    getStructTypeSpec unitFooBar = .ok [⟨1, specFoo⟩, ⟨2, specBar⟩] ∧
    gerStrutSpecsToProcess unitFooBar [lit "Foo", lit "Bar", lit "Foo"] =
      gerStrutSpecsToProcess unitFooBar [lit "Bar", lit "Foo"] :=
  ⟨rfl, (C18_filter_is_a_set unitFooBar [⟨1, specFoo⟩, ⟨2, specBar⟩] rfl).1
    [lit "Foo", lit "Bar", lit "Foo"] [lit "Bar", lit "Foo"] (by simp) (by simp)
    (by intro e; simp only [List.mem_cons, List.mem_singleton, List.not_mem_nil]; tauto)⟩

/-- Counterexample to C18 as stated: on the unit declaring `Foo` and `Bar` the
filter `Nope` returns no struct; the names of the returned structs are the
empty filter, which returns both structs, not the empty sequence. -/
theorem C18_counterexample_empty_result :
    gerStrutSpecsToProcess unitFooBar [lit "Nope"] = .ok [] ∧
    gerStrutSpecsToProcess unitFooBar
        (([] : List TypeSpecPtr).map (fun p => p.spec.name)) =
      .ok [⟨1, specFoo⟩, ⟨2, specBar⟩] ∧
    ¬ (∀ res : List TypeSpecPtr, gerStrutSpecsToProcess unitFooBar [lit "Nope"] = .ok res →
      gerStrutSpecsToProcess unitFooBar (res.map (fun p => p.spec.name)) = .ok res) := by
  refine ⟨rfl, rfl, ?_⟩
  intro hall
  have h1 := hall [] rfl
  have h2 : gerStrutSpecsToProcess unitFooBar
      (([] : List TypeSpecPtr).map (fun p => p.spec.name)) =
      .ok [⟨1, specFoo⟩, ⟨2, specBar⟩] := rfl
  rw [h2] at h1
  injection h1 with h1
  exact absurd h1 (by simp)

/-! ## Monotonicity of the import resolver (C19) -/

theorem armed_mono (A B : List TypeSpecPtr) (hsub : ∀ p ∈ A, p ∈ B) (i : Nat) (d : Decl)
    (h : armed A i d = true) : armed B i d = true := by
  cases d with
  | funcDecl cs => simp [armed] at h
  | badDecl => simp [armed] at h
  | genDecl doc specs =>
    cases specs with
    | nil => simp [armed] at h
    | cons sp rest =>
      cases sp with
      | importSpec s => simp [armed] at h
      | valueSpec s => simp [armed] at h
      | typeSpec t =>
        simp only [armed] at h ⊢
        obtain ⟨p, hp, hpa⟩ := (isSelected_iff i A).1 h
        exact (isSelected_iff i B).2 ⟨p, hsub p hp, hpa⟩

theorem filterMap_sublist_of_imp {α β : Type} (f g : α → Option β) (l : List α)
    (h : ∀ a b, f a = some b → g a = some b) :
    (l.filterMap f).Sublist (l.filterMap g) := by
  induction l with
  | nil => exact List.Sublist.refl _
  | cons a rest ih =>
    cases hf : f a with
    | none =>
      cases hg : g a with
      | none => simpa [List.filterMap_cons, hf, hg] using ih
      | some c =>
        simp only [List.filterMap_cons, hf, hg]
        exact List.Sublist.cons _ ih
    | some b =>
      simp only [List.filterMap_cons, hf, h a b hf]
      exact List.Sublist.cons₂ _ ih

theorem scopedQualifiers_nil (decls : List Decl) :
    ∀ i : Nat, scopedQualifiers [] i decls = [] := by
  induction decls with
  | nil => intro i; rfl
  | cons d rest ih =>
    intro i
    have h : armed [] i d = false := by
      cases d with
      | funcDecl cs => rfl
      | badDecl => rfl
      | genDecl doc specs =>
        cases specs with
        | nil => rfl
        | cons sp rest => cases sp <;> rfl
    simp [scopedQualifiers, h, ih]

/-- C19: for a unit whose structs can be extracted and whose import specs are well
formed, and two selections `A` and `B` with every element of `A` also in `B`,
every local name that `getPackageNamesUsedInStructFields` marks for `A` is
marked for `B`, and the lines `generateImports` returns for `A` are a
subsequence of the lines it returns for `B` (for the same visiting order of
the import table), so every line returned for `A` is returned for `B`; with
the empty selection the output is the lines of the wildcard entries only. -/
theorem C19_import_resolver_monotone
    (rangeOrder : List (GoString × GoString) → List (GoString × GoString))
    (node : File) (xs A B : List TypeSpecPtr)
    (hx : getStructTypeSpec node = .ok xs)
    (hwf : (importSpecs node.decls).all wellFormedImport = true)
    (hsub : ∀ p ∈ A, p ∈ B) :
    ∃ usedA usedB linesA linesB table,
      getPackageNamesUsedInStructFields node A = .ok usedA ∧
      getPackageNamesUsedInStructFields node B = .ok usedB ∧
      (∀ k ∈ usedA, k ∈ usedB) ∧
      generateImports rangeOrder node A = .ok linesA ∧
      generateImports rangeOrder node B = .ok linesB ∧
      linesA.Sublist linesB ∧
      (∀ l ∈ linesA, l ∈ linesB) ∧
      getPackageNameToPathMap node = .ok table ∧
      getPackageNamesUsedInStructFields node [] = .ok [] ∧
      generateImports rangeOrder node [] =
        .ok ((rangeOrder table).filterMap
          (fun e => if e.1 = lit "." then some (lit "\t. " ++ e.2) else none)) := by
  have hspecs := (getStructTypeSpec_ok node xs hx).1
  obtain ⟨table, ht, _, _, hgA⟩ := generateImports_eq rangeOrder node A hspecs hwf
  obtain ⟨table2, ht2, _, _, hgB⟩ := generateImports_eq rangeOrder node B hspecs hwf
  obtain ⟨table3, ht3, _, _, hg0⟩ := generateImports_eq rangeOrder node [] hspecs hwf
  rw [ht] at ht2 ht3
  injection ht2 with ht2
  injection ht3 with ht3
  subst ht2
  subst ht3
  have hused : ∀ k ∈ setAll [] (scopedQualifiers A 0 node.decls),
      k ∈ setAll [] (scopedQualifiers B 0 node.decls) := by
    intro k hk
    rw [mem_setAll, mem_scopedQualifiers] at hk ⊢
    rcases hk with hk | ⟨j, d, hj, ha, hq⟩
    · exact Or.inl hk
    · exact Or.inr ⟨j, d, hj, armed_mono A B hsub _ d ha, hq⟩
  have hlines : ((rangeOrder table).filterMap
      (renderEntry (setAll [] (scopedQualifiers A 0 node.decls)))).Sublist
      ((rangeOrder table).filterMap
        (renderEntry (setAll [] (scopedQualifiers B 0 node.decls)))) := by
    apply filterMap_sublist_of_imp
    intro e l hl
    unfold renderEntry at hl ⊢
    by_cases h1 : e.1 = lit "."
    · rw [if_pos h1] at hl ⊢
      exact hl
    · rw [if_neg h1] at hl ⊢
      by_cases h2 : e.1 ∈ setAll [] (scopedQualifiers A 0 node.decls)
      · rw [if_pos h2] at hl
        rw [if_pos (hused _ h2)]
        exact hl
      · rw [if_neg h2] at hl
        exact absurd hl (by simp)
  refine ⟨_, _, _, _, table, getPackageNamesUsedInStructFields_eq node A hspecs,
    getPackageNamesUsedInStructFields_eq node B hspecs, hused, hgA, hgB, hlines,
    fun l hl => hlines.subset hl, ht, ?_, ?_⟩
  · rw [getPackageNamesUsedInStructFields_eq node [] hspecs, scopedQualifiers_nil]
    rfl
  · rw [hg0, scopedQualifiers_nil]
    rfl

/-- Witness of C19 on the unit with the imports `pkg` and `a/q` and the structs
`Foo` (using `q`) and `Bar` (using `pkg`): selecting `Foo` gives the line of `a/q`,
selecting both gives both lines. -/
theorem C19_import_resolver_monotone_witness :
    (generateImports (fun m => m) unitMinimal [⟨2, specFooQ⟩] = .ok [lit "\t\"a/q\""] ∧
      generateImports (fun m => m) unitMinimal [⟨2, specFooQ⟩, ⟨3, specBarPkg⟩] =
        .ok [lit "\t\"pkg\"", lit "\t\"a/q\""]) ∧
    ∃ usedA usedB linesA linesB table,
      getPackageNamesUsedInStructFields unitMinimal [⟨2, specFooQ⟩] = .ok usedA ∧
      getPackageNamesUsedInStructFields unitMinimal [⟨2, specFooQ⟩, ⟨3, specBarPkg⟩] =
        .ok usedB ∧
      (∀ k ∈ usedA, k ∈ usedB) ∧
      generateImports (fun m => m) unitMinimal [⟨2, specFooQ⟩] = .ok linesA ∧
      generateImports (fun m => m) unitMinimal [⟨2, specFooQ⟩, ⟨3, specBarPkg⟩] =
        .ok linesB ∧
      linesA.Sublist linesB ∧
      (∀ l ∈ linesA, l ∈ linesB) ∧
      getPackageNameToPathMap unitMinimal = .ok table ∧
      getPackageNamesUsedInStructFields unitMinimal [] = .ok [] ∧
      generateImports (fun m => m) unitMinimal [] =
        .ok (((fun m => m) table).filterMap
          (fun e => if e.1 = lit "." then some (lit "\t. " ++ e.2) else none)) :=
  ⟨⟨by decide!, by decide!⟩,
    C19_import_resolver_monotone (fun m => m) unitMinimal
      [⟨2, specFooQ⟩, ⟨3, specBarPkg⟩] [⟨2, specFooQ⟩] [⟨2, specFooQ⟩, ⟨3, specBarPkg⟩]
      rfl (by decide) (by
        intro p hp
        simp only [List.mem_singleton] at hp
        subst hp
        exact List.mem_cons_self _ _)⟩

/-! ## The scope invariant (C15): lemmas -/

theorem RunsTo.refl (sel : List TypeSpecPtr) (st : ScopeState) (o : Int) (log : List Event) :
    RunsTo sel (.ok (st, o, log)) st o log :=
  ⟨[], by simp, by simp⟩

theorem RunsTo.extend {sel : List TypeSpecPtr}
    {res : Except Failure (ScopeState × Int × List Event)} {st : ScopeState} {o : Int}
    {log m1 : List Event} (hi : ∀ e ∈ m1, ScopeInvariant sel e)
    (h : RunsTo sel res st o (log ++ m1)) : RunsTo sel res st o log := by
  obtain ⟨m2, h2, i2⟩ := h
  refine ⟨m1 ++ m2, by rw [h2, List.append_assoc], ?_⟩
  intro e he
  rcases List.mem_append.1 he with h | h
  · exact hi e h
  · exact i2 e h

theorem tracedCallback_inScope (sel : List TypeSpecPtr) (r : List GoString) (d o : Int)
    (log : List Event) (v : Visit) (hv : v ≠ .nil) :
    tracedCallback sel (⟨r, true, d⟩, o, log) v =
      .ok ((⟨visitMark r v, true, d + 1⟩, o + 1, log ++ [⟨o, ⟨r, true, d⟩, v, true⟩]), true) := by
  simp only [tracedCallback, scopeCallback_inScope sel r d v hv]
  cases v with
  | nil => exact absurd rfl hv
  | file => rfl
  | genDecl a s => rfl
  | importSpec s => rfl
  | selectorExpr x => rfl
  | other => rfl

theorem tracedCallback_nil_inScope (sel : List TypeSpecPtr) (r : List GoString) (d o : Int)
    (log : List Event) (hd : 0 < d) :
    tracedCallback sel (⟨r, true, d + 1⟩, o + 1, log) .nil =
      .ok ((⟨r, true, d⟩, o, log ++ [⟨o + 1, ⟨r, true, d + 1⟩, .nil, true⟩]), true) := by
  simp only [tracedCallback, scopeCallback_nil_inScope sel r d hd, nextOpened]
  have h : o + 1 - 1 = o := by omega
  rw [h]

theorem scopeInvariant_inScope (sel : List TypeSpecPtr) (r : List GoString) (d o : Int)
    (v : Visit) (b : Bool) (hd : 0 < d) (ho : d = o - 1) :
    ScopeInvariant sel ⟨o, ⟨r, true, d⟩, v, b⟩ := by
  refine ⟨?_, ?_, ?_⟩
  · simp only [openInGroup]
    split <;> omega
  · simp [hd]
  · simp

theorem enter_traced_inScope (sel : List TypeSpecPtr) (r r2 : List GoString) (d o : Int)
    (v : Visit) (children : ScopeState × Int × List Event →
      Except Failure (ScopeState × Int × List Event))
    (hd : 0 < d) (ho : d = o - 1) (hv : v ≠ .nil)
    (hc : ∀ log1, RunsTo sel (children (⟨visitMark r v, true, d + 1⟩, o + 1, log1))
      ⟨r2, true, d + 1⟩ (o + 1) log1) :
    ∀ log, RunsTo sel (enter (tracedCallback sel) (⟨r, true, d⟩, o, log) v children)
      ⟨r2, true, d⟩ o log := by
  intro log
  obtain ⟨m1, h1, i1⟩ := hc (log ++ [⟨o, ⟨r, true, d⟩, v, true⟩])
  simp only [enter, tracedCallback_inScope sel r d o log v hv, h1,
    tracedCallback_nil_inScope sel r2 d o _ hd]
  refine ⟨[⟨o, ⟨r, true, d⟩, v, true⟩] ++ m1 ++ [⟨o + 1, ⟨r2, true, d + 1⟩, .nil, true⟩],
    by simp only [List.append_assoc], ?_⟩
  intro e he
  simp only [List.mem_append, List.mem_singleton] at he
  rcases he with (he | he) | he
  · subst he
    exact scopeInvariant_inScope sel r d o v true hd ho
  · exact i1 e he
  · subst he
    exact scopeInvariant_inScope sel r2 (d + 1) (o + 1) .nil true (by omega) (by omega)

theorem walkLeaves_traced (sel : List TypeSpecPtr) (l : List GoString) :
    ∀ (r : List GoString) (d o : Int) (log : List Event), 0 < d → d = o - 1 →
      RunsTo sel (walkLeaves (tracedCallback sel) (⟨r, true, d⟩, o, log) l) ⟨r, true, d⟩ o log := by
  induction l with
  | nil => intro r d o log _ _; exact RunsTo.refl sel _ _ _
  | cons a rest ih =>
    intro r d o log hd ho
    obtain ⟨m1, h1, i1⟩ := enter_traced_inScope sel r r d o .other (fun s => .ok s) hd ho
      (by simp) (fun log1 => RunsTo.refl sel _ _ _) log
    simp only [walkLeaves, visitMark] at h1 ⊢
    simp only [h1]
    exact RunsTo.extend i1 (ih r d o _ hd ho)

theorem walkComments_traced (sel : List TypeSpecPtr) (c : Option CommentGroup)
    (r : List GoString) (d o : Int) (hd : 0 < d) (ho : d = o - 1) :
    ∀ log, RunsTo sel (walkComments (tracedCallback sel) (⟨r, true, d⟩, o, log) c)
      ⟨r, true, d⟩ o log := by
  cases c with
  | none => intro log; exact RunsTo.refl sel _ _ _
  | some cs =>
    exact enter_traced_inScope sel r r d o .other
      (fun s => walkLeaves (tracedCallback sel) s cs) hd ho (by simp)
      (fun log1 => walkLeaves_traced sel cs r (d + 1) (o + 1) log1 (by omega) (by omega))

mutual
theorem walkNode_traced (sel : List TypeSpecPtr) :
    ∀ (n : Node) (r : List GoString) (d o : Int) (log : List Event), 0 < d → d = o - 1 →
      RunsTo sel (walkNode (tracedCallback sel) (⟨r, true, d⟩, o, log) n)
        ⟨setAll r (qualifiers n), true, d⟩ o log
  | .ident _, r, d, o, log, hd, ho => by
    simp only [walkNode, qualifiers]
    exact enter_traced_inScope sel r r d o .other (fun s => .ok s) hd ho (by simp)
      (fun log1 => RunsTo.refl sel _ _ _) log
  | .selectorExpr x _, r, d, o, log, hd, ho => by
    simp only [walkNode, qualifiers, setAll_append]
    refine enter_traced_inScope sel r _ d o (.selectorExpr x) _ hd ho (by simp) ?_ log
    intro log1
    obtain ⟨m1, h1, i1⟩ := walkNode_traced sel x (visitMark r (.selectorExpr x)) (d + 1) (o + 1)
      log1 (by omega) (by omega)
    simp only [h1]
    rw [visitMark_selector] at *
    exact RunsTo.extend i1
      (enter_traced_inScope sel _ _ (d + 1) (o + 1) .other (fun s => .ok s) (by omega)
        (by omega) (by simp) (fun log2 => RunsTo.refl sel _ _ _) _)
  | .structType fields, r, d, o, log, hd, ho => by
    simp only [walkNode, qualifiers]
    refine enter_traced_inScope sel r _ d o .other _ hd ho (by simp) ?_ log
    intro log1
    refine enter_traced_inScope sel r _ (d + 1) (o + 1) .other _ (by omega) (by omega)
      (by simp) ?_ log1
    intro log2
    exact walkFields_traced sel fields r (d + 1 + 1) (o + 1 + 1) log2 (by omega) (by omega)
  | .other children, r, d, o, log, hd, ho => by
    simp only [walkNode, qualifiers]
    refine enter_traced_inScope sel r _ d o .other _ hd ho (by simp) ?_ log
    intro log1
    exact walkNodes_traced sel children r (d + 1) (o + 1) log1 (by omega) (by omega)
theorem walkNodes_traced (sel : List TypeSpecPtr) :
    ∀ (ns : List Node) (r : List GoString) (d o : Int) (log : List Event), 0 < d → d = o - 1 →
      RunsTo sel (walkNodes (tracedCallback sel) (⟨r, true, d⟩, o, log) ns)
        ⟨setAll r (qualifiersNodes ns), true, d⟩ o log
  | [], r, d, o, log, _, _ => by
    simp only [walkNodes, qualifiersNodes]
    exact RunsTo.refl sel _ _ _
  | n :: rest, r, d, o, log, hd, ho => by
    obtain ⟨m1, h1, i1⟩ := walkNode_traced sel n r d o log hd ho
    simp only [walkNodes, qualifiersNodes, setAll_append, h1]
    exact RunsTo.extend i1 (walkNodes_traced sel rest _ d o _ hd ho)
theorem walkField_traced (sel : List TypeSpecPtr) :
    ∀ (fd : Field) (r : List GoString) (d o : Int) (log : List Event), 0 < d → d = o - 1 →
      RunsTo sel (walkField (tracedCallback sel) (⟨r, true, d⟩, o, log) fd)
        ⟨setAll r (qualifiersField fd), true, d⟩ o log
  | .mk doc names type tag comment, r, d, o, log, hd, ho => by
    simp only [walkField, qualifiersField]
    refine enter_traced_inScope sel r _ d o .other _ hd ho (by simp) ?_ log
    intro log1
    have hd1 : (0 : Int) < d + 1 := by omega
    have ho1 : d + 1 = o + 1 - 1 := by omega
    simp only [visitMark]
    obtain ⟨m1, h1, i1⟩ := walkComments_traced sel doc r (d + 1) (o + 1) hd1 ho1 log1
    simp only [h1]
    refine RunsTo.extend i1 ?_
    obtain ⟨m2, h2, i2⟩ := walkLeaves_traced sel names r (d + 1) (o + 1) (log1 ++ m1) hd1 ho1
    simp only [h2]
    refine RunsTo.extend i2 ?_
    obtain ⟨m3, h3, i3⟩ := walkNode_traced sel type r (d + 1) (o + 1) (log1 ++ m1 ++ m2) hd1 ho1
    simp only [h3]
    refine RunsTo.extend i3 ?_
    obtain ⟨m4, h4, i4⟩ := walkLeaves_traced sel tag.toList (setAll r (qualifiers type)) (d + 1)
      (o + 1) (log1 ++ m1 ++ m2 ++ m3) hd1 ho1
    simp only [h4]
    exact RunsTo.extend i4 (walkComments_traced sel comment _ (d + 1) (o + 1) hd1 ho1 _)
theorem walkFields_traced (sel : List TypeSpecPtr) :
    ∀ (fs : List Field) (r : List GoString) (d o : Int) (log : List Event), 0 < d → d = o - 1 →
      RunsTo sel (walkFields (tracedCallback sel) (⟨r, true, d⟩, o, log) fs)
        ⟨setAll r (qualifiersFields fs), true, d⟩ o log
  | [], r, d, o, log, _, _ => by
    simp only [walkFields, qualifiersFields]
    exact RunsTo.refl sel _ _ _
  | fd :: rest, r, d, o, log, hd, ho => by
    obtain ⟨m1, h1, i1⟩ := walkField_traced sel fd r d o log hd ho
    simp only [walkFields, qualifiersFields, setAll_append, h1]
    exact RunsTo.extend i1 (walkFields_traced sel rest _ d o _ hd ho)
end

theorem walkOpt_traced (sel : List TypeSpecPtr) (n : Option Node) (r : List GoString)
    (d o : Int) (log : List Event) (hd : 0 < d) (ho : d = o - 1) :
    RunsTo sel (walkOpt (tracedCallback sel) (⟨r, true, d⟩, o, log) n)
      ⟨setAll r (qualifiersOpt n), true, d⟩ o log := by
  cases n with
  | none => exact RunsTo.refl sel _ _ _
  | some n => exact walkNode_traced sel n r d o log hd ho

theorem walkSpec_traced (sel : List TypeSpecPtr) (sp : Spec) (r : List GoString) (d o : Int)
    (log : List Event) (hd : 0 < d) (ho : d = o - 1) :
    RunsTo sel (walkSpec (tracedCallback sel) (⟨r, true, d⟩, o, log) sp)
      ⟨setAll r (qualifiersSpec sp), true, d⟩ o log := by
  have hd1 : (0 : Int) < d + 1 := by omega
  have ho1 : d + 1 = o + 1 - 1 := by omega
  cases sp with
  | importSpec imp =>
    simp only [walkSpec, qualifiersSpec]
    refine enter_traced_inScope sel r _ d o (.importSpec imp) _ hd ho (by simp) ?_ log
    intro log1
    simp only [visitMark]
    obtain ⟨m1, h1, i1⟩ := walkComments_traced sel imp.doc r (d + 1) (o + 1) hd1 ho1 log1
    simp only [h1]
    refine RunsTo.extend i1 ?_
    obtain ⟨m2, h2, i2⟩ := walkLeaves_traced sel imp.name.toList r (d + 1) (o + 1) (log1 ++ m1)
      hd1 ho1
    simp only [h2]
    refine RunsTo.extend i2 ?_
    obtain ⟨m3, h3, i3⟩ := walkLeaves_traced sel [imp.path] r (d + 1) (o + 1)
      (log1 ++ m1 ++ m2) hd1 ho1
    simp only [h3]
    exact RunsTo.extend i3 (walkComments_traced sel imp.comment _ (d + 1) (o + 1) hd1 ho1 _)
  | valueSpec v =>
    simp only [walkSpec, qualifiersSpec, setAll_append]
    refine enter_traced_inScope sel r _ d o .other _ hd ho (by simp) ?_ log
    intro log1
    simp only [visitMark]
    obtain ⟨m1, h1, i1⟩ := walkComments_traced sel v.doc r (d + 1) (o + 1) hd1 ho1 log1
    simp only [h1]
    refine RunsTo.extend i1 ?_
    obtain ⟨m2, h2, i2⟩ := walkLeaves_traced sel v.names r (d + 1) (o + 1) (log1 ++ m1) hd1 ho1
    simp only [h2]
    refine RunsTo.extend i2 ?_
    obtain ⟨m3, h3, i3⟩ := walkOpt_traced sel v.type r (d + 1) (o + 1) (log1 ++ m1 ++ m2) hd1 ho1
    simp only [h3]
    refine RunsTo.extend i3 ?_
    obtain ⟨m4, h4, i4⟩ := walkNodes_traced sel v.values (setAll r (qualifiersOpt v.type))
      (d + 1) (o + 1) (log1 ++ m1 ++ m2 ++ m3) hd1 ho1
    simp only [h4]
    exact RunsTo.extend i4 (walkComments_traced sel v.comment _ (d + 1) (o + 1) hd1 ho1 _)
  | typeSpec t =>
    simp only [walkSpec, qualifiersSpec, setAll_append]
    refine enter_traced_inScope sel r _ d o .other _ hd ho (by simp) ?_ log
    intro log1
    simp only [visitMark]
    obtain ⟨m1, h1, i1⟩ := walkComments_traced sel t.doc r (d + 1) (o + 1) hd1 ho1 log1
    simp only [h1]
    refine RunsTo.extend i1 ?_
    obtain ⟨m2, h2, i2⟩ := walkLeaves_traced sel [t.name] r (d + 1) (o + 1) (log1 ++ m1) hd1 ho1
    simp only [h2]
    refine RunsTo.extend i2 ?_
    obtain ⟨m3, h3, i3⟩ := walkOpt_traced sel t.typeParams r (d + 1) (o + 1)
      (log1 ++ m1 ++ m2) hd1 ho1
    simp only [h3]
    refine RunsTo.extend i3 ?_
    obtain ⟨m4, h4, i4⟩ := walkNode_traced sel t.type (setAll r (qualifiersOpt t.typeParams))
      (d + 1) (o + 1) (log1 ++ m1 ++ m2 ++ m3) hd1 ho1
    simp only [h4]
    exact RunsTo.extend i4 (walkComments_traced sel t.comment _ (d + 1) (o + 1) hd1 ho1 _)

theorem walkSpecs_traced (sel : List TypeSpecPtr) (specs : List Spec) :
    ∀ (r : List GoString) (d o : Int) (log : List Event), 0 < d → d = o - 1 →
      RunsTo sel (walkSpecs (tracedCallback sel) (⟨r, true, d⟩, o, log) specs)
        ⟨setAll r (qualifiersSpecs specs), true, d⟩ o log := by
  induction specs with
  | nil => intro r d o log _ _; exact RunsTo.refl sel _ _ _
  | cons sp rest ih =>
    intro r d o log hd ho
    obtain ⟨m1, h1, i1⟩ := walkSpec_traced sel sp r d o log hd ho
    simp only [walkSpecs, qualifiersSpecs, setAll_append, h1]
    exact RunsTo.extend i1 (ih _ d o _ hd ho)

theorem scopeInvariant_top (sel : List TypeSpecPtr) (r : List GoString) (o : Int) (v : Visit)
    (ho : o ≤ 1) :
    ScopeInvariant sel ⟨o, ⟨r, false, 0⟩, v, armedVisit sel v⟩ := by
  refine ⟨?_, by simp, by simp⟩
  simp only [openInGroup, if_pos ho]

theorem enter_traced_top (sel : List TypeSpecPtr) (r : List GoString) (o : Int)
    (log : List Event) (v : Visit)
    (children : ScopeState × Int × List Event → Except Failure (ScopeState × Int × List Event))
    (ho : o ≤ 1) (hv : v ≠ .nil) (ha : armedVisit sel v = false)
    (hf : scopeCallback sel ⟨r, false, 0⟩ v = .ok (⟨r, false, 0⟩, false)) :
    RunsTo sel (enter (tracedCallback sel) (⟨r, false, 0⟩, o, log) v children)
      ⟨r, false, 0⟩ o log := by
  have h1 : nextOpened o v false = o := by
    cases v with
    | nil => exact absurd rfl hv
    | file => rfl
    | genDecl a s => rfl
    | importSpec s => rfl
    | selectorExpr x => rfl
    | other => rfl
  simp only [enter, tracedCallback, hf, h1]
  refine ⟨[⟨o, ⟨r, false, 0⟩, v, false⟩], rfl, ?_⟩
  intro e he
  simp only [List.mem_singleton] at he
  subst he
  have hinv := scopeInvariant_top sel r o v ho
  rw [ha] at hinv
  exact hinv

theorem walkDecl_traced_top (sel : List TypeSpecPtr) (r : List GoString) (i : Nat) (d : Decl)
    (log : List Event) (h : hasSpecs d = true) :
    RunsTo sel (walkDecl (tracedCallback sel) (⟨r, false, 0⟩, 1, log) i d)
      ⟨setAll r (if armed sel i d then qualifiersDecl d else []), false, 0⟩ 1 log := by
  cases d with
  | funcDecl cs =>
    simp only [walkDecl, armed]
    exact enter_traced_top sel r 1 log .other _ (by omega) (by simp) rfl (by simp [scopeCallback])
  | badDecl =>
    simp only [walkDecl, armed]
    exact enter_traced_top sel r 1 log .other _ (by omega) (by simp) rfl (by simp [scopeCallback])
  | genDecl doc specs =>
    cases specs with
    | nil => simp [hasSpecs] at h
    | cons sp rest =>
      cases sp with
      | importSpec s =>
        simp only [walkDecl, armed]
        exact enter_traced_top sel r 1 log _ _ (by omega) (by simp) rfl
          (by simp [scopeCallback])
      | valueSpec s =>
        simp only [walkDecl, armed]
        exact enter_traced_top sel r 1 log _ _ (by omega) (by simp) rfl
          (by simp [scopeCallback])
      | typeSpec t =>
        by_cases hs : isSelected i sel = true
        · have h1 : scopeCallback sel ⟨r, false, 0⟩ (.genDecl i (.typeSpec t :: rest)) =
              .ok (⟨r, true, 1⟩, true) := by
            simp [scopeCallback, hs]
          obtain ⟨m1, hm1, i1⟩ := walkComments_traced sel doc r 1 2 (by omega) (by omega)
            (log ++ [⟨1, ⟨r, false, 0⟩, .genDecl i (.typeSpec t :: rest), true⟩])
          obtain ⟨m2, hm2, i2⟩ := walkSpecs_traced sel (.typeSpec t :: rest) r 1 2
            (log ++ [⟨1, ⟨r, false, 0⟩, .genDecl i (.typeSpec t :: rest), true⟩] ++ m1)
            (by omega) (by omega)
          have hT1 : tracedCallback sel (⟨r, false, 0⟩, 1, log)
              (.genDecl i (.typeSpec t :: rest)) =
              .ok ((⟨r, true, 1⟩, 2,
                log ++ [⟨1, ⟨r, false, 0⟩, .genDecl i (.typeSpec t :: rest), true⟩]), true) := by
            simp only [tracedCallback, h1, nextOpened]
            rfl
          have hT2 : ∀ (r2 : List GoString) (log2 : List Event),
              tracedCallback sel (⟨r2, true, 1⟩, 2, log2) .nil =
                .ok ((⟨r2, false, 0⟩, 1, log2 ++ [⟨2, ⟨r2, true, 1⟩, .nil, false⟩]), false) := by
            intro r2 log2
            simp only [tracedCallback, scopeCallback_nil_close, nextOpened]
            rfl
          simp only [walkDecl, enter, hT1, hm1, hm2, hT2, armed, hs, if_true, qualifiersDecl]
          refine ⟨[⟨1, ⟨r, false, 0⟩, .genDecl i (.typeSpec t :: rest), true⟩] ++ m1 ++ m2 ++
            [⟨2, ⟨setAll r (qualifiersSpecs (.typeSpec t :: rest)), true, 1⟩, .nil, false⟩],
            by simp only [List.append_assoc], ?_⟩
          intro e he
          simp only [List.mem_append, List.mem_singleton] at he
          rcases he with ((he | he) | he) | he
          · subst he
            have ha : armedVisit sel (.genDecl i (.typeSpec t :: rest)) = true := by
              simp [armedVisit, hs]
            have hinv := scopeInvariant_top sel r 1 (.genDecl i (.typeSpec t :: rest))
              (by omega)
            rw [ha] at hinv
            exact hinv
          · exact i1 e he
          · exact i2 e he
          · subst he
            exact scopeInvariant_inScope sel _ 1 2 .nil false (by omega) (by omega)
        · have h1 : scopeCallback sel ⟨r, false, 0⟩ (.genDecl i (.typeSpec t :: rest)) =
              .ok (⟨r, false, 0⟩, false) := by
            simp [scopeCallback, hs]
          have hs2 : isSelected i sel = false := by simpa using hs
          simp only [walkDecl, armed, hs2]
          exact enter_traced_top sel r 1 log _ _ (by omega) (by simp)
            (by simp [armedVisit, hs2]) h1

theorem walkDecls_traced_top (sel : List TypeSpecPtr) (decls : List Decl) :
    ∀ (r : List GoString) (i : Nat) (log : List Event), decls.all hasSpecs = true →
      RunsTo sel (walkDecls (tracedCallback sel) (⟨r, false, 0⟩, 1, log) i decls)
        ⟨setAll r (scopedQualifiers sel i decls), false, 0⟩ 1 log := by
  induction decls with
  | nil => intro r i log _; exact RunsTo.refl sel _ _ _
  | cons d rest ih =>
    intro r i log h
    simp only [List.all_cons, Bool.and_eq_true] at h
    obtain ⟨m1, h1, i1⟩ := walkDecl_traced_top sel r i d log h.1
    simp only [walkDecls, h1, scopedQualifiers, setAll_append]
    exact RunsTo.extend i1 (ih _ (i + 1) _ h.2)

/-! ## The scope invariant (C15) -/

/-- C15: for a unit whose declaration groups have specs and every selection, the
walk of `getPackageNamesUsedInStructFields`, run with a record of its callback
calls, ends with the scope flag false, the depth counter zero and no node open,
and returns the names the function returns. Every call is recorded, and at
every recorded call the depth counter equals the number of open nodes at or
below the armed declaration group, the scope flag is true exactly when that
number is positive, and outside a scope the callback descends exactly into the
file node and into the groups whose first spec is a selected type spec (so not
into a function declaration, an import, constant or variable group, or a type
group whose first spec is not selected). Flag and counter are false and zero
before and after every top-level declaration. -/
theorem C15_scope_invariant (node : File) (sel : List TypeSpecPtr)
    (hspecs : node.decls.all hasSpecs = true) :
    ∃ used log,
      inspect (tracedCallback sel) (⟨[], false, 0⟩, 0, []) node =
        .ok (⟨used, false, 0⟩, 0, log) ∧
      getPackageNamesUsedInStructFields node sel = .ok used ∧
      (∀ e ∈ log, ScopeInvariant sel e) ∧
      (∀ (s s2 : ScopeState × Int × List Event) (v : Visit) (b : Bool),
        tracedCallback sel s v = .ok (s2, b) →
          scopeCallback sel s.1 v = .ok (s2.1, b) ∧ s2.2.2 = s.2.2 ++ [⟨s.2.1, s.1, v, b⟩]) ∧
      (∀ (r : List GoString) (i : Nat) (d : Decl), hasSpecs d = true →
        ∃ r2, walkDecl (scopeCallback sel) ⟨r, false, 0⟩ i d = .ok ⟨r2, false, 0⟩) := by
  have hT0 : tracedCallback sel (⟨[], false, 0⟩, 0, []) .file =
      .ok ((⟨[], false, 0⟩, 1, [⟨0, ⟨[], false, 0⟩, .file, true⟩]), true) := by
    simp only [tracedCallback, scopeCallback, nextOpened]
    rfl
  have hTn : ∀ (r : List GoString) (log : List Event),
      tracedCallback sel (⟨r, false, 0⟩, 1, log) .nil =
        .ok ((⟨r, false, 0⟩, 0, log ++ [⟨1, ⟨r, false, 0⟩, .nil, false⟩]), false) := by
    intro r log
    simp only [tracedCallback, scopeCallback, nextOpened]
    rfl
  have hdoc : ∀ log, RunsTo sel
      (walkComments (tracedCallback sel) (⟨[], false, 0⟩, 1, log) node.doc)
      ⟨[], false, 0⟩ 1 log := by
    intro log
    cases node.doc with
    | none => exact RunsTo.refl sel _ _ _
    | some cs =>
      exact enter_traced_top sel [] 1 log .other
        (fun s => walkLeaves (tracedCallback sel) s cs) (by omega) (by simp) rfl
        (by simp [scopeCallback])
  have hname : ∀ log, RunsTo sel
      (walkLeaves (tracedCallback sel) (⟨[], false, 0⟩, 1, log) [node.name])
      ⟨[], false, 0⟩ 1 log := by
    intro log
    obtain ⟨m, hm, im⟩ := enter_traced_top sel [] 1 log .other (fun s => .ok s) (by omega)
      (by simp) rfl (by simp [scopeCallback])
    simp only [walkLeaves, hm]
    exact ⟨m, rfl, im⟩
  obtain ⟨m1, h1, i1⟩ := hdoc [⟨0, ⟨[], false, 0⟩, .file, true⟩]
  obtain ⟨m2, h2, i2⟩ := hname ([⟨0, ⟨[], false, 0⟩, .file, true⟩] ++ m1)
  obtain ⟨m3, h3, i3⟩ := walkDecls_traced_top sel node.decls [] 0
    ([⟨0, ⟨[], false, 0⟩, .file, true⟩] ++ m1 ++ m2) hspecs
  refine ⟨setAll [] (scopedQualifiers sel 0 node.decls),
    [⟨0, ⟨[], false, 0⟩, .file, true⟩] ++ m1 ++ m2 ++ m3 ++
      [⟨1, ⟨setAll [] (scopedQualifiers sel 0 node.decls), false, 0⟩, .nil, false⟩], ?_,
    getPackageNamesUsedInStructFields_eq node sel hspecs, ?_, ?_, ?_⟩
  · simp only [inspect, enter, hT0, h1, h2, h3, hTn]
  · intro e he
    simp only [List.mem_append, List.mem_singleton] at he
    rcases he with (((he | he) | he) | he) | he
    · subst he
      exact scopeInvariant_top sel [] 0 .file (by omega)
    · exact i1 e he
    · exact i2 e he
    · exact i3 e he
    · subst he
      exact scopeInvariant_top sel _ 1 .nil (by omega)
  · intro s s2 v b h
    unfold tracedCallback at h
    cases hc : scopeCallback sel s.1 v with
    | error e => simp [hc] at h
    | ok p =>
      obtain ⟨st, b1⟩ := p
      simp only [hc, Except.ok.injEq, Prod.mk.injEq] at h
      obtain ⟨h4, h5⟩ := h
      subst h5
      subst h4
      exact ⟨rfl, rfl⟩
  · intro r i d hd
    exact ⟨_, walkDecl_top sel r i d hd⟩

/-- Witness of C15 on the unit `import "pkg"; type Bar struct { X pkg.T }; func f()`
with `Bar` selected: the recorded calls with the number of open nodes, the depth
counter, the scope flag and the returned boolean. -/
theorem C15_scope_invariant_witness :
    traceSummary [⟨1, specBarPkg⟩] unitScope =
      some [(0, 0, false, true), (1, 0, false, false), (1, 0, false, false),
        (1, 0, false, true), (2, 1, true, true), (3, 2, true, true), (4, 3, true, true),
        (3, 2, true, true), (4, 3, true, true), (5, 4, true, true), (6, 5, true, true),
        (7, 6, true, true), (6, 5, true, true), (7, 6, true, true), (8, 7, true, true),
        (7, 6, true, true), (8, 7, true, true), (7, 6, true, true), (6, 5, true, true),
        (5, 4, true, true), (4, 3, true, true), (3, 2, true, true), (2, 1, true, false),
        (1, 0, false, false), (1, 0, false, false)] ∧
    ∃ used log,
      inspect (tracedCallback [⟨1, specBarPkg⟩]) (⟨[], false, 0⟩, 0, []) unitScope =
        .ok (⟨used, false, 0⟩, 0, log) ∧
      getPackageNamesUsedInStructFields unitScope [⟨1, specBarPkg⟩] = .ok used ∧
      (∀ e ∈ log, ScopeInvariant [⟨1, specBarPkg⟩] e) ∧
      (∀ (s s2 : ScopeState × Int × List Event) (v : Visit) (b : Bool),
        tracedCallback [⟨1, specBarPkg⟩] s v = .ok (s2, b) →
          scopeCallback [⟨1, specBarPkg⟩] s.1 v = .ok (s2.1, b) ∧
          s2.2.2 = s.2.2 ++ [⟨s.2.1, s.1, v, b⟩]) ∧
      (∀ (r : List GoString) (i : Nat) (d : Decl), hasSpecs d = true →
        ∃ r2, walkDecl (scopeCallback [⟨1, specBarPkg⟩]) ⟨r, false, 0⟩ i d =
          .ok ⟨r2, false, 0⟩) :=
  ⟨by decide!, C15_scope_invariant unitScope [⟨1, specBarPkg⟩] rfl⟩

end Goconstruct
